import Mathlib

/-
  Verification development for the TextObserver engine: a shallow embedding of
  the second (full) TextObserver class of src/TextObserver.js, together with
  theorems settling the frozen claims about its specification.

  Modelling conventions:
  - The host DOM tree is a pure inductive tree; every node carries a numeric
    identity standing for JS object identity.
  - Element tag names are stored uppercased, as the DOM exposes tagName.
  - Computed style data (isContentEditable, font-family, pseudo-element
    content) is carried on each element as host-supplied fields.
  - JS Sets (the processed and targets sets) are modelled as insertion-ordered
    duplicate-free lists, with membership via List.contains.
  - The caller-supplied transform is an opaque String to String function.
-/

namespace TextObserver

/-- HTML attribute map as an ordered association list, mirroring Element attributes. -/
abbrev AttrMap := List (String × String)

/-- Element.getAttribute: none models a null return (attribute absent). -/
def getAttr (m : AttrMap) (a : String) : Option String :=
  (m.find? (fun p => p.1 == a)).map (·.2)

/-- Element.setAttribute: replace the value of the (unique) attribute node in
    place, or append when absent. -/
def setAttr (m : AttrMap) (a v : String) : AttrMap :=
  match m with
  | [] => [(a, v)]
  | p :: rest => if p.1 == a then (a, v) :: rest else p :: setAttr rest a v

/-- Host-supplied per-element data. shadowId is some when an open shadow root is attached. -/
structure ElemData where
  id : Nat
  tag : String
  attrs : AttrMap
  editable : Bool
  fontFamily : String
  pseudoBefore : String
  pseudoAfter : String
  pseudoMarker : String
  classes : List String
  shadowId : Option Nat
deriving Repr, DecidableEq

/-- A DOM node. The element constructor carries the light children and the
    children of its attached shadow root (ignored when shadowId is none). -/
inductive DomNode where
  | text (id : Nat) (value : String)
  | comment (id : Nat) (value : String)
  | cdata (id : Nat) (value : String)
  | pi (id : Nat) (value : String)
  | element (data : ElemData) (children : List DomNode) (shadowKids : List DomNode)
deriving Repr

mutual
/-- Structural size of a node, invariant under text and attribute rewriting. -/
def nodeCount : DomNode → Nat
  | .text _ _ => 1
  | .comment _ _ => 1
  | .cdata _ _ => 1
  | .pi _ _ => 1
  | .element _ ch sh => 1 + listCount ch + listCount sh
def listCount : List DomNode → Nat
  | [] => 0
  | n :: ns => nodeCount n + listCount ns
end

/-- Uppercasing for case-insensitive tag comparison and the icon-font check
    (a kernel-computable counterpart of the host toUpperCase). -/
def strUpper (s : String) : String := (s.toList.map Char.toUpper).asString

/-- TextObserver.IGNORED_TAGS: text nodes under these parents are not front-facing. -/
def IGNORED_TAGS : List String := ["SCRIPT", "STYLE", "NOSCRIPT"]

/-- A CSS selector of the shapes used by the static watch table. -/
inductive Sel where
  | tagSel (t : String)
  | tagAttrSel (t a v : String)
  | attrValSel (a v : String)
  | univ
deriving Repr, DecidableEq

/-- TextObserver.WATCHED_ATTRIBUTES: attribute name to selector list, in source order. -/
def WATCHED_ATTRIBUTES : List (String × List Sel) :=
  [("placeholder", [.tagSel "input", .tagSel "textarea"]),
   ("alt", [.tagSel "img", .tagSel "area", .tagAttrSel "input" "type" "image",
            .attrValSel "role" "img"]),
   ("value", [.tagAttrSel "input" "type" "button"]),
   ("title", [.univ])]

/-- TextObserver.WATCHED_CSS: pseudo-element slots that can carry generated content. -/
def WATCHED_CSS : List String := ["::before", "::after", "::marker"]

/-- Element.matches for the selector shapes of the watch table
    (tag matching is case-insensitive in HTML, modelled by uppercasing). -/
def matchesSel (d : ElemData) : Sel → Bool
  | .tagSel t => d.tag == strUpper t
  | .tagAttrSel t a v => d.tag == strUpper t && getAttr d.attrs a == some v
  | .attrValSel a v => getAttr d.attrs a == some v
  | .univ => true

/-- Element.matches against a comma-joined selector list. -/
def matchesAny (d : ElemData) (sels : List Sel) : Bool := sels.any (matchesSel d)

/-- The data of the parent node consulted by the validity check. -/
structure ParentCtx where
  tag : String
  editable : Bool
  fontFamily : String
deriving Repr, DecidableEq

/-- Parent context when the parent is a shadow root: tagName is undefined
    (modelled as the empty string, never in IGNORED_TAGS), not editable. -/
def shadowCtx : ParentCtx := ⟨"", false, ""⟩

def ctxOf (d : ElemData) : ParentCtx := ⟨d.tag, d.editable, d.fontFamily⟩

/-- Effective performance flags: the truthiness of each supplied option key. -/
structure ETFlags where
  contentEditable : Bool
  attributes : Bool
  shadows : Bool
  iconFonts : Bool
  cssContent : Bool
deriving Repr, DecidableEq

/-- The icon-font workaround test: computed font-family uppercased contains ICON. -/
def iconFontHit (fontFamily : String) : Bool :=
  let u := (strUpper fontFamily).toList
  (List.range u.length).any (fun k => "ICON".toList.isPrefixOf (u.drop k))

/-- Node types implementing CharacterData that the engine ignores
    (CDATA, processing instruction, comment). -/
def nodeTypeIgnored : DomNode → Bool
  | .comment _ _ => true
  | .cdata _ _ => true
  | .pi _ _ => true
  | _ => false

/-- TextObserver.valid for a node whose parent context is known; a missing
    parent (removed node) is handled at call sites by passing no context. -/
def validIn (eff : ETFlags) (pc : ParentCtx) (n : DomNode) : Bool :=
  !nodeTypeIgnored n
  && !(IGNORED_TAGS.contains pc.tag)
  && (!eff.contentEditable || !pc.editable)
  && (!eff.iconFonts || !iconFontHit pc.fontFamily)

/-- One unit the transform is invoked on, for instrumentation of the rewrite log. -/
inductive RewriteUnit where
  | textUnit (id : Nat)
  | attrUnit (id : Nat) (name : String)
  | cssUnit (id : Nat) (slot : String)
  | titleUnit
deriving Repr, DecidableEq

/-- Per-watcher mutable scan state: the processed dedup set, the targets set,
    plus the instrumentation log of transform invocations and injected styles. -/
structure ScanSt where
  processed : List Nat
  targets : List Nat
  log : List RewriteUnit
  styles : List String
deriving Repr

/-- JS Set.add: append when absent, keep insertion order. -/
def addOnce (l : List Nat) (x : Nat) : List Nat := if l.contains x then l else l ++ [x]

def addOnceStr (l : List String) (x : String) : List String :=
  if l.contains x then l else l ++ [x]

mutual
/-- The SHOW_TEXT TreeWalker loop of processNodes over a forest of siblings
    whose parent has context pc: rewrite each valid unprocessed text node. -/
def textPassList (eff : ETFlags) (cb : String → String) (pc : ParentCtx) :
    List DomNode → ScanSt → List DomNode × ScanSt
  | [], st => ([], st)
  | n :: ns, st =>
    let p := textPassNode eff cb pc n st
    let q := textPassList eff cb pc ns p.2
    (p.1 :: q.1, q.2)
def textPassNode (eff : ETFlags) (cb : String → String) (pc : ParentCtx) :
    DomNode → ScanSt → DomNode × ScanSt
  | .text i v, st =>
    if validIn eff pc (.text i v) && !(st.processed.contains i) then
      (.text i (cb v), { st with processed := st.processed ++ [i],
                                 log := st.log ++ [.textUnit i] })
    else (.text i v, st)
  | .element d ch sh, st =>
    let p := textPassList eff cb (ctxOf d) ch st
    (.element d p.1 sh, p.2)
  | n, st => (n, st)
end

mutual
/-- The querySelectorAll pass of processNodes for one watched attribute over the
    element descendants of the root (the root itself is excluded, as
    querySelectorAll only matches descendants): transform and write back the
    attribute of every matching element not in the processed set, and collect
    the element into the temporary set whether or not the attribute is present. -/
def attrPassList (cb : String → String) (aname : String) (sels : List Sel) :
    List DomNode → ScanSt × List Nat → List DomNode × (ScanSt × List Nat)
  | [], acc => ([], acc)
  | n :: ns, acc =>
    let p := attrPassNode cb aname sels n acc
    let q := attrPassList cb aname sels ns p.2
    (p.1 :: q.1, q.2)
def attrPassNode (cb : String → String) (aname : String) (sels : List Sel) :
    DomNode → ScanSt × List Nat → DomNode × (ScanSt × List Nat)
  | .element d ch sh, (st, temp) =>
    let step :=
      if matchesAny d sels && !(st.processed.contains d.id) then
        match getAttr d.attrs aname with
        | some v =>
          ({ d with attrs := setAttr d.attrs aname (cb v) },
           { st with log := st.log ++ [.attrUnit d.id aname] }, addOnce temp d.id)
        | none => (d, st, addOnce temp d.id)
      else (d, st, temp)
    let p := attrPassList cb aname sels ch (step.2.1, step.2.2)
    (.element step.1 p.1 sh, p.2)
  | n, acc => (n, acc)
end

/-- The attribute section of processNodes: one querySelectorAll pass per entry
    of the watch table, in table order, sharing the temporary processed set. -/
def attrPassAll (cb : String → String) :
    List (String × List Sel) → List DomNode → ScanSt × List Nat →
    List DomNode × (ScanSt × List Nat)
  | [], ns, acc => (ns, acc)
  | (a, sels) :: rest, ns, acc =>
    let p := attrPassList cb a sels ns acc
    attrPassAll cb rest p.1 p.2

/-- The computed content value of a pseudo-element slot of an element. -/
def pseudoOf (d : ElemData) (slot : String) : String :=
  if slot == "::before" then d.pseudoBefore
  else if slot == "::after" then d.pseudoAfter
  else d.pseudoMarker

/-- The quoted-literal test of the CSS section: a single-quote or double-quote
    string literal with a nonempty body free of the quote character. -/
def quotedLit (q : Char) (s : String) : Bool :=
  let l := s.toList
  decide (3 ≤ l.length) && l.head? == some q && l.getLast? == some q
    && ((l.drop 1).dropLast.all (fun c => c != q))

def isQuoted (s : String) : Bool := quotedLit '\'' s || quotedLit '\"' s

/-- content.substring(1, content.length - 1): the unquoted body. -/
def cssInner (s : String) : String := ((s.toList.drop 1).dropLast).asString

/-- One element of the CSS section: for each watched pseudo slot whose resolved
    content is a quoted literal, add the helper class, emit an overriding style
    rule built from the transformed body, and collect the element. -/
def cssSlotFold (cb : String → String) (i : Nat) :
    List String → ElemData → ScanSt × List Nat → ElemData × (ScanSt × List Nat)
  | [], d, acc => (d, acc)
  | slot :: rest, d, (st, temp) =>
    let content := pseudoOf d slot
    if isQuoted content then
      let newClass := "TextObserverHelperAssigned" ++ toString i
      let d' := { d with classes := addOnceStr d.classes newClass }
      let styleText := "." ++ newClass ++ slot ++ " \x7b content: \"" ++
        cb (cssInner content) ++ "\" !important; \x7d"
      cssSlotFold cb i rest d'
        ({ st with styles := st.styles ++ [styleText],
                   log := st.log ++ [.cssUnit d.id slot] }, addOnce temp d.id)
    else cssSlotFold cb i rest d (st, temp)

mutual
/-- The SHOW_ELEMENT TreeWalker loop of the CSS section: elements not in the
    processed set are accepted (others skipped but still descended into); the
    style-rule counter advances once per accepted element in document order. -/
def cssPassList (cb : String → String) :
    List DomNode → ScanSt × List Nat × Nat → List DomNode × (ScanSt × List Nat × Nat)
  | [], acc => ([], acc)
  | n :: ns, acc =>
    let p := cssPassNode cb n acc
    let q := cssPassList cb ns p.2
    (p.1 :: q.1, q.2)
def cssPassNode (cb : String → String) :
    DomNode → ScanSt × List Nat × Nat → DomNode × (ScanSt × List Nat × Nat)
  | .element d ch sh, (st, temp, i) =>
    let step :=
      if !(st.processed.contains d.id) then
        let r := cssSlotFold cb i WATCHED_CSS d (st, temp)
        (r.1, r.2.1, r.2.2, i + 1)
      else (d, st, temp, i)
    let p := cssPassList cb ch (step.2.1, step.2.2.1, step.2.2.2)
    (.element step.1 p.1 sh, p.2)
  | n, acc => (n, acc)
end

/-- The first three sections of processNodes over the forest of descendants of
    a root with parent context pc: the text walk, then (flag-gated) the
    attribute passes, then (flag-gated) the CSS pass, then the merge of the
    temporary set into the processed set. -/
def passesForest (eff : ETFlags) (cb : String → String) (pc : ParentCtx)
    (ns : List DomNode) (st : ScanSt) : List DomNode × ScanSt :=
  let p1 := textPassList eff cb pc ns st
  let p2 :=
    if eff.attributes then attrPassAll cb WATCHED_ATTRIBUTES p1.1 (p1.2, [])
    else (p1.1, (p1.2, []))
  let p3 :=
    if eff.cssContent then cssPassList cb p2.1 (p2.2.1, p2.2.2, 0)
    else (p2.1, (p2.2.1, p2.2.2, 0))
  (p3.1, { p3.2.1 with processed := p3.2.2.1.foldl addOnce p3.2.1.processed })

mutual
theorem textPassNode_count (eff : ETFlags) (cb : String → String) (pc : ParentCtx)
    (n : DomNode) (st : ScanSt) :
    nodeCount (textPassNode eff cb pc n st).1 = nodeCount n := by
  cases n with
  | text i v =>
    simp only [textPassNode]
    split <;> rfl
  | element d ch sh =>
    simp only [textPassNode, nodeCount]
    have h := textPassList_count eff cb (ctxOf d) ch st
    omega
  | comment i v => rfl
  | cdata i v => rfl
  | pi i v => rfl
theorem textPassList_count (eff : ETFlags) (cb : String → String) (pc : ParentCtx)
    (ns : List DomNode) (st : ScanSt) :
    listCount (textPassList eff cb pc ns st).1 = listCount ns := by
  cases ns with
  | nil => rfl
  | cons n rest =>
    simp only [textPassList, listCount]
    have h1 := textPassNode_count eff cb pc n st
    have h2 := textPassList_count eff cb pc rest (textPassNode eff cb pc n st).2
    omega
end

mutual
theorem attrPassNode_count (cb : String → String) (aname : String) (sels : List Sel)
    (n : DomNode) (acc : ScanSt × List Nat) :
    nodeCount (attrPassNode cb aname sels n acc).1 = nodeCount n := by
  cases n with
  | element d ch sh =>
    cases acc with
    | mk st temp =>
      simp only [attrPassNode, nodeCount]
      rw [attrPassList_count cb aname sels ch]
  | text i v => rfl
  | comment i v => rfl
  | cdata i v => rfl
  | pi i v => rfl
theorem attrPassList_count (cb : String → String) (aname : String) (sels : List Sel)
    (ns : List DomNode) (acc : ScanSt × List Nat) :
    listCount (attrPassList cb aname sels ns acc).1 = listCount ns := by
  cases ns with
  | nil => rfl
  | cons n rest =>
    simp only [attrPassList, listCount]
    rw [attrPassNode_count cb aname sels n acc, attrPassList_count cb aname sels rest]
end

theorem attrPassAll_count (cb : String → String) :
    ∀ (pairs : List (String × List Sel)) (ns : List DomNode) (acc : ScanSt × List Nat),
    listCount (attrPassAll cb pairs ns acc).1 = listCount ns
  | [], _, _ => rfl
  | (a, sels) :: rest, ns, acc => by
    simp only [attrPassAll]
    rw [attrPassAll_count cb rest, attrPassList_count cb a sels ns]

mutual
theorem cssPassNode_count (cb : String → String) (n : DomNode)
    (acc : ScanSt × List Nat × Nat) :
    nodeCount (cssPassNode cb n acc).1 = nodeCount n := by
  cases n with
  | element d ch sh =>
    cases acc with
    | mk st rest2 =>
      simp only [cssPassNode, nodeCount]
      rw [cssPassList_count cb ch]
  | text i v => rfl
  | comment i v => rfl
  | cdata i v => rfl
  | pi i v => rfl
theorem cssPassList_count (cb : String → String) (ns : List DomNode)
    (acc : ScanSt × List Nat × Nat) :
    listCount (cssPassList cb ns acc).1 = listCount ns := by
  cases ns with
  | nil => rfl
  | cons n rest =>
    simp only [cssPassList, listCount]
    rw [cssPassNode_count cb n acc, cssPassList_count cb rest]
end

theorem passesForest_count (eff : ETFlags) (cb : String → String) (pc : ParentCtx)
    (ns : List DomNode) (st : ScanSt) :
    listCount (passesForest eff cb pc ns st).1 = listCount ns := by
  simp only [passesForest]
  split <;> split <;>
    simp only [cssPassList_count, attrPassAll_count, textPassList_count]

theorem nodeCount_pos : ∀ n : DomNode, 0 < nodeCount n := by
  intro n
  cases n <;> simp [nodeCount]

theorem listCount_lt_cons (n : DomNode) (rest : List DomNode) :
    listCount rest < nodeCount n + listCount rest := by
  have := nodeCount_pos n
  omega

theorem lexLeLt {a b i j : Nat} (h : a ≤ b) (hij : i < j) :
    Prod.Lex (· < ·) (· < ·) (a, i) (b, j) := by
  rcases Nat.lt_or_eq_of_le h with h1 | h1
  · exact Prod.Lex.left _ _ h1
  · subst h1; exact Prod.Lex.right _ hij

mutual
/-- TextObserver processNodes with an element (or, by convention, nothing for a
    non-element) root: the text, attribute and CSS sections over the descendant
    forest, then the shadow section, which first handles the own shadow root of
    the root node (add to targets, then process) and then walks the light
    descendants accepted by the shadow-root filter; per the source, the walked
    loop variable is the host element itself, so the host element id is added
    to targets and processNodes recurses on the host element. The result is
    packaged with a proof that the structural size is preserved, used as the
    termination measure. -/
def processNodesCore (eff : ETFlags) (cb : String → String) (root : DomNode)
    (st : ScanSt) : {p : DomNode × ScanSt // nodeCount p.1 = nodeCount root} :=
  match root with
  | .element d ch sh =>
    let pr := passesForest eff cb (ctxOf d) ch st
    if eff.shadows then
      match d.shadowId with
      | some sid =>
        if pr.2.targets.contains sid then
          let sw := sweepListCore eff cb pr.1 pr.2
          ⟨(.element d sw.val.1 sh, sw.val.2), by
            have h1 : listCount sw.val.1 = listCount pr.1 := sw.property
            have h2 : listCount pr.1 = listCount ch :=
              passesForest_count eff cb (ctxOf d) ch st
            simp only [nodeCount]
            omega⟩
        else
          let stT := { pr.2 with targets := pr.2.targets ++ [sid] }
          let q := processShadowCore eff cb sh stT
          let sw := sweepListCore eff cb pr.1 q.val.2
          ⟨(.element d sw.val.1 q.val.1, sw.val.2), by
            have h1 : listCount sw.val.1 = listCount pr.1 := sw.property
            have h2 : listCount pr.1 = listCount ch :=
              passesForest_count eff cb (ctxOf d) ch st
            have h3 : listCount q.val.1 = listCount sh := q.property
            simp only [nodeCount]
            omega⟩
      | none =>
        let sw := sweepListCore eff cb pr.1 pr.2
        ⟨(.element d sw.val.1 sh, sw.val.2), by
          have h1 : listCount sw.val.1 = listCount pr.1 := sw.property
          have h2 : listCount pr.1 = listCount ch :=
            passesForest_count eff cb (ctxOf d) ch st
          simp only [nodeCount]
          omega⟩
    else
      ⟨(.element d pr.1 sh, pr.2), by
        have h2 : listCount pr.1 = listCount ch :=
          passesForest_count eff cb (ctxOf d) ch st
        simp only [nodeCount]
        omega⟩
  | .text i v => ⟨(.text i v, st), rfl⟩
  | .comment i v => ⟨(.comment i v, st), rfl⟩
  | .cdata i v => ⟨(.cdata i v, st), rfl⟩
  | .pi i v => ⟨(.pi i v, st), rfl⟩
termination_by (nodeCount root, 0)
decreasing_by
  · apply Prod.Lex.left
    simp only [nodeCount]
    omega
  all_goals
    have hpc := passesForest_count eff cb (ctxOf d) ch st
  all_goals apply Prod.Lex.left
  all_goals simp only [nodeCount]
  all_goals omega

/-- processNodes invoked with a shadow root as root: the three sections run
    over the shadow children with the shadow-root parent context; the shadow
    section then has no own shadow root, so only the descendant walk remains. -/
def processShadowCore (eff : ETFlags) (cb : String → String) (kids : List DomNode)
    (st : ScanSt) : {p : List DomNode × ScanSt // listCount p.1 = listCount kids} :=
  let pr := passesForest eff cb shadowCtx kids st
  if eff.shadows then
    let sw := sweepListCore eff cb pr.1 pr.2
    ⟨(sw.val.1, sw.val.2), by
      have h1 : listCount sw.val.1 = listCount pr.1 := sw.property
      have h2 : listCount pr.1 = listCount kids :=
        passesForest_count eff cb shadowCtx kids st
      dsimp only
      omega⟩
  else
    ⟨(pr.1, pr.2), by
      have h2 : listCount pr.1 = listCount kids :=
        passesForest_count eff cb shadowCtx kids st
      dsimp only
      omega⟩
termination_by (listCount kids, 2)
decreasing_by
  have h2 : listCount pr.1 = listCount kids :=
    passesForest_count eff cb shadowCtx kids st
  exact lexLeLt (Nat.le_of_eq h2) (by omega)

/-- The descendant walk of the shadow section over a forest: elements with a
    shadow root attached and not yet in targets are added to targets and
    recursively processed via processNodes on the host element (the source
    takes the walker node itself); the walk then continues into the children
    of the current (possibly just rewritten) element and on to the siblings. -/
def sweepListCore (eff : ETFlags) (cb : String → String) (ns : List DomNode)
    (st : ScanSt) : {p : List DomNode × ScanSt // listCount p.1 = listCount ns} :=
  match ns with
  | [] => ⟨([], st), rfl⟩
  | .element d ch sh :: rest =>
    if d.shadowId.isSome && !(st.targets.contains d.id) then
      let st1 := { st with targets := st.targets ++ [d.id] }
      let q := processNodesCore eff cb (.element d ch sh) st1
      match hq : q.val.1 with
      | .element d2 ch2 sh2 =>
        let sw := sweepListCore eff cb ch2 q.val.2
        let swr := sweepListCore eff cb rest sw.val.2
        ⟨(.element d2 sw.val.1 sh2 :: swr.val.1, swr.val.2), by
          have hqc : nodeCount q.val.1 = nodeCount (.element d ch sh) := q.property
          rw [hq] at hqc
          have h1 : listCount sw.val.1 = listCount ch2 := sw.property
          have h2 : listCount swr.val.1 = listCount rest := swr.property
          simp only [nodeCount, listCount] at *
          omega⟩
      | nfix =>
        let swr := sweepListCore eff cb rest q.val.2
        ⟨(nfix :: swr.val.1, swr.val.2), by
          have hqc : nodeCount q.val.1 = nodeCount (.element d ch sh) := q.property
          rw [hq] at hqc
          have h2 : listCount swr.val.1 = listCount rest := swr.property
          simp only [nodeCount, listCount] at *
          omega⟩
    else
      let sw := sweepListCore eff cb ch st
      let swr := sweepListCore eff cb rest sw.val.2
      ⟨(.element d sw.val.1 sh :: swr.val.1, swr.val.2), by
        have h1 : listCount sw.val.1 = listCount ch := sw.property
        have h2 : listCount swr.val.1 = listCount rest := swr.property
        simp only [nodeCount, listCount] at *
        omega⟩
  | n :: rest =>
    let swr := sweepListCore eff cb rest st
    ⟨(n :: swr.val.1, swr.val.2), by
      have h2 : listCount swr.val.1 = listCount rest := swr.property
      simp only [listCount] at *
      omega⟩
termination_by (listCount ns, 1)
decreasing_by
  · -- recurse into the host element
    exact lexLeLt (by simp only [listCount]; omega) (by omega)
  · -- walk into the children of the processed host
    apply Prod.Lex.left
    have hqc : nodeCount q.val.1 = nodeCount (.element d ch sh) := q.property
    rw [hq] at hqc
    simp only [nodeCount, listCount] at *
    omega
  all_goals apply Prod.Lex.left
  all_goals simp only [nodeCount, listCount]
  all_goals first
    | omega
    | exact listCount_lt_cons _ _
end
/-- TextObserver.processNodes: the four-section scan over one root. -/
def processNodes (eff : ETFlags) (cb : String → String) (root : DomNode)
    (st : ScanSt) : DomNode × ScanSt :=
  (processNodesCore eff cb root st).val

/-- processNodes invoked on a shadow root given by its children list. -/
def processShadow (eff : ETFlags) (cb : String → String) (kids : List DomNode)
    (st : ScanSt) : List DomNode × ScanSt :=
  (processShadowCore eff cb kids st).val

/-- The shadow-section walk over a forest. -/
def sweepForest (eff : ETFlags) (cb : String → String) (ns : List DomNode)
    (st : ScanSt) : List DomNode × ScanSt :=
  (sweepListCore eff cb ns st).val

theorem processNodes_count (eff : ETFlags) (cb : String → String) (root : DomNode)
    (st : ScanSt) : nodeCount (processNodes eff cb root st).1 = nodeCount root :=
  (processNodesCore eff cb root st).property

theorem processShadow_count (eff : ETFlags) (cb : String → String)
    (kids : List DomNode) (st : ScanSt) :
    listCount (processShadow eff cb kids st).1 = listCount kids :=
  (processShadowCore eff cb kids st).property

theorem sweepForest_count (eff : ETFlags) (cb : String → String)
    (ns : List DomNode) (st : ScanSt) :
    listCount (sweepForest eff cb ns st).1 = listCount ns :=
  (sweepListCore eff cb ns st).property

/-- The documented default performance options object of the constructor. -/
def defaultFlags : ETFlags :=
  { contentEditable := true, attributes := true, shadows := true,
    iconFonts := false, cssContent := false }

/-- The empty scan state of a freshly constructed watcher. -/
def coldSt : ScanSt := { processed := [], targets := [], log := [], styles := [] }

/-- The identity of a node. -/
def nodeId : DomNode → Nat
  | .text i _ => i
  | .comment i _ => i
  | .cdata i _ => i
  | .pi i _ => i
  | .element d _ _ => d.id

mutual
/-- Resolve a node reference: find the node with the given id in the tree and
    return it together with the context of its parent (none when the found
    node is the root of the search); direct children of a shadow root get the
    shadow-root context. A none result models a reference to a removed node,
    whose validity check fails for lack of a parent. -/
def findCtxNode (pc : Option ParentCtx) (n : DomNode) (i : Nat) :
    Option (Option ParentCtx × DomNode) :=
  if nodeId n = i then some (pc, n)
  else
    match n with
    | .element d ch sh =>
      match findCtxList (some (ctxOf d)) ch i with
      | some r => some r
      | none =>
        if d.shadowId.isSome then findCtxList (some shadowCtx) sh i else none
    | _ => none
def findCtxList (pc : Option ParentCtx) (ns : List DomNode) (i : Nat) :
    Option (Option ParentCtx × DomNode) :=
  match ns with
  | [] => none
  | n :: rest =>
    match findCtxNode pc n i with
    | some r => some r
    | none => findCtxList pc rest i
end

mutual
/-- node.nodeValue assignment for the unique node object with the given id:
    rewrite the first node found in the lookup order of findCtxNode; the
    boolean reports whether it was found. -/
def setTextAtN (n : DomNode) (i : Nat) (nv : String) : DomNode × Bool :=
  match n with
  | .text j v => if j = i then (.text j nv, true) else (.text j v, false)
  | .element d ch sh =>
    let p := setTextAtNList ch i nv
    if p.2 then (.element d p.1 sh, true)
    else if d.shadowId.isSome then
      let q := setTextAtNList sh i nv
      (.element d ch q.1, q.2)
    else (.element d ch sh, false)
  | m => (m, false)
def setTextAtNList (ns : List DomNode) (i : Nat) (nv : String) : List DomNode × Bool :=
  match ns with
  | [] => ([], false)
  | n :: rest =>
    let p := setTextAtN n i nv
    if p.2 then (p.1 :: rest, true)
    else
      let q := setTextAtNList rest i nv
      (n :: q.1, q.2)
end

def setTextAt (n : DomNode) (i : Nat) (nv : String) : DomNode := (setTextAtN n i nv).1

mutual
/-- Element.setAttribute on the unique element object with the given id,
    found in the lookup order of elemDataAt. -/
def setAttrAtN (n : DomNode) (i : Nat) (a v : String) : DomNode × Bool :=
  match n with
  | .element d ch sh =>
    if d.id = i then (.element { d with attrs := setAttr d.attrs a v } ch sh, true)
    else
      let p := setAttrAtNList ch i a v
      if p.2 then (.element d p.1 sh, true)
      else if d.shadowId.isSome then
        let q := setAttrAtNList sh i a v
        (.element d ch q.1, q.2)
      else (.element d ch sh, false)
  | m => (m, false)
def setAttrAtNList (ns : List DomNode) (i : Nat) (a v : String) : List DomNode × Bool :=
  match ns with
  | [] => ([], false)
  | n :: rest =>
    let p := setAttrAtN n i a v
    if p.2 then (p.1 :: rest, true)
    else
      let q := setAttrAtNList rest i a v
      (n :: q.1, q.2)
end

def setAttrAt (n : DomNode) (i : Nat) (a v : String) : DomNode := (setAttrAtN n i a v).1

mutual
/-- The element data of the element with the given id, if present. -/
def elemDataAt (n : DomNode) (i : Nat) : Option ElemData :=
  match n with
  | .element d ch sh =>
    if d.id = i then some d
    else
      match elemDataAtList ch i with
      | some r => some r
      | none => if d.shadowId.isSome then elemDataAtList sh i else none
  | _ => none
def elemDataAtList (ns : List DomNode) (i : Nat) : Option ElemData :=
  match ns with
  | [] => none
  | n :: rest =>
    match elemDataAt n i with
    | some r => some r
    | none => elemDataAtList rest i
end

mutual
/-- Apply a stateful rewriting function to the node with the given id, in
    place; the boolean reports whether the node was found. -/
def applyAtNode (f : DomNode → ScanSt → DomNode × ScanSt) (n : DomNode) (i : Nat)
    (st : ScanSt) : DomNode × ScanSt × Bool :=
  if nodeId n = i then
    let r := f n st
    (r.1, r.2, true)
  else
    match n with
    | .element d ch sh =>
      let p := applyAtList f ch i st
      if p.2.2 then (.element d p.1 sh, p.2.1, true)
      else if d.shadowId.isSome then
        let q := applyAtList f sh i st
        (.element d ch q.1, q.2.1, q.2.2)
      else (.element d ch sh, st, false)
    | m => (m, st, false)
def applyAtList (f : DomNode → ScanSt → DomNode × ScanSt) (ns : List DomNode)
    (i : Nat) (st : ScanSt) : List DomNode × ScanSt × Bool :=
  match ns with
  | [] => ([], st, false)
  | n :: rest =>
    let p := applyAtNode f n i st
    if p.2.2 then (p.1 :: rest, p.2.1, true)
    else
      let q := applyAtList f rest i st
      (n :: q.1, q.2.1, q.2.2)
end

/-- One delivered MutationRecord; node references are ids resolved against the
    current tree. The characterData oldValue field carries what the host
    recorded, none when oldValue tracking was not requested. -/
inductive MutationRec where
  | childList (addedNodes : List Nat)
  | characterData (target : Nat) (oldValue : Option String)
  | attributes (target : Nat) (attributeName : String)
deriving Repr, DecidableEq

/-- The MutationObserver init dictionary; absent keys are none. -/
structure ObserveCfg where
  subtree : Option Bool
  childList : Option Bool
  characterData : Option Bool
  characterDataOldValue : Option Bool
  attributeFilter : Option (List String)
deriving Repr, DecidableEq

/-- TextObserver.CONFIG: the keys the source sets, and only those; in
    particular characterDataOldValue is never requested. -/
def CONFIG : ObserveCfg :=
  { subtree := some true, childList := some true, characterData := some true,
    characterDataOldValue := none,
    attributeFilter := some (WATCHED_ATTRIBUTES.map (·.1)) }

/-- WATCHED_ATTRIBUTES[attribute]. -/
def lookupTable (a : String) : List Sel :=
  ((WATCHED_ATTRIBUTES.find? (fun p => p.1 == a)).map (·.2)).getD []

/-- The childList case of the observer callback for one added node: a text
    node passing validity and dedup is transformed and marked; a non-text,
    non-ignored node has its subtree handed to processNodes. -/
def processAddedNode (eff : ETFlags) (cb : String → String)
    (acc : DomNode × ScanSt) (nid : Nat) : DomNode × ScanSt :=
  match findCtxNode none acc.1 nid with
  | some (pc, .text j v) =>
    let okParent := match pc with
      | some c => validIn eff c (.text j v)
      | none => false
    if okParent && !(acc.2.processed.contains j) then
      (setTextAt acc.1 j (cb v),
       { acc.2 with processed := acc.2.processed ++ [j],
                    log := acc.2.log ++ [.textUnit j] })
    else acc
  | some (_, .comment _ _) => acc
  | some (_, .cdata _ _) => acc
  | some (_, .pi _ _) => acc
  | some (_, .element _ _ _) =>
    let r := applyAtNode (processNodes eff cb) acc.1 nid acc.2
    (r.1, r.2.1)
  | none => acc

/-- The deferred attribute phase of the observer callback for one saved
    attribute mutation: match the element against the watch table selectors,
    and rewrite the attribute when matched and the value is truthy (present
    and nonempty). The element is never added to the processed set here. -/
def processAttrMutation (cb : String → String) (acc : DomNode × ScanSt)
    (m : Nat × String) : DomNode × ScanSt :=
  match elemDataAt acc.1 m.1 with
  | some d =>
    let sels := lookupTable m.2
    let matched := sels.any (matchesSel d)
    match getAttr d.attrs m.2 with
    | some v =>
      if matched && v != "" then
        (setAttrAt acc.1 m.1 m.2 (cb v),
         { acc.2 with log := acc.2.log ++ [.attrUnit m.1 m.2] })
      else acc
    | none => acc
  | none => acc

/-- The record loop of TextObserver.observerCallback: state is the tree, the
    scan state and the saved attribute mutations. -/
def recordStep (eff : ETFlags) (cb : String → String)
    (acc : DomNode × ScanSt × List (Nat × String)) (r : MutationRec) :
    DomNode × ScanSt × List (Nat × String) :=
  match r with
  | .childList added =>
    let p := added.foldl (processAddedNode eff cb) (acc.1, acc.2.1)
    (p.1, p.2, acc.2.2)
  | .characterData tid _ =>
    match findCtxNode none acc.1 tid with
    | some (pc, .text j v) =>
      let okParent := match pc with
        | some c => validIn eff c (.text j v)
        | none => false
      if okParent && !(acc.2.1.processed.contains j) then
        (setTextAt acc.1 j (cb v),
         { acc.2.1 with processed := acc.2.1.processed ++ [j],
                        log := acc.2.1.log ++ [.textUnit j] },
         acc.2.2)
      else acc
    | _ => acc
  | .attributes tid aname =>
    if eff.attributes && !(acc.2.1.processed.contains tid) then
      (acc.1, acc.2.1, acc.2.2 ++ [(tid, aname)])
    else acc

/-- TextObserver.observerCallback over one delivered batch: clear the
    processed set, run the record loop, then the deferred attribute phase. -/
def observerCallback (eff : ETFlags) (cb : String → String)
    (recs : List MutationRec) (body : DomNode) (st0 : ScanSt) :
    DomNode × ScanSt :=
  let st := { st0 with processed := [] }
  let p1 := recs.foldl (recordStep eff cb) (body, st, [])
  p1.2.2.foldl (processAttrMutation cb) (p1.1, p1.2.1)

/-- The value of the text node with the given id, if present. -/
def textValueAt (n : DomNode) (i : Nat) : Option String :=
  match findCtxNode none n i with
  | some (_, .text _ v) => some v
  | _ => none

/-- The value of the given attribute on the element with the given id. -/
def attrValueAt (n : DomNode) (i : Nat) (a : String) : Option String :=
  (elemDataAt n i).bind (fun d => getAttr d.attrs a)

/-- Fixture element data: a plain element with given id, tag, attributes and
    optional shadow root id; not editable, no icon font, no pseudo content. -/
def mkElem (i : Nat) (tag : String) (attrs : AttrMap) (sid : Option Nat) : ElemData :=
  { id := i, tag := tag, attrs := attrs, editable := false, fontFamily := "",
    pseudoBefore := "none", pseudoAfter := "none", pseudoMarker := "none",
    classes := [], shadowId := sid }

/-- Exact behaviour of the observer callback on a single characterData record
    whose target resolves to a text node: the write happens iff the validity
    check passes (the dedup set was just cleared, so it cannot block a single
    record), and the recorded prior value o plays no role. -/
theorem observerCallback_charData (eff : ETFlags) (cb : String → String)
    (tid : Nat) (o : Option String) (body : DomNode) (st : ScanSt)
    (pc : ParentCtx) (j : Nat) (v : String)
    (hfind : findCtxNode none body tid = some (some pc, .text j v)) :
    observerCallback eff cb [.characterData tid o] body st =
      if validIn eff pc (.text j v) then
        (setTextAt body j (cb v),
         { st with processed := [j], log := st.log ++ [.textUnit j] })
      else (body, { st with processed := [] }) := by
  simp only [observerCallback, List.foldl, recordStep, hfind]
  cases hv : validIn eff pc (.text j v) <;> simp [hv]

/-- Fixture: a body with a single valid text child with value v. -/
def c3Body : DomNode := .element (mkElem 0 "BODY" [] none) [.text 1 "v"] []

/-- C3 counterexample: a characterData record whose recorded prior value
    equals the current value of the unit is still transformed: the claimed
    guard comparing current value to the recorded prior value does not exist
    in the code. -/
theorem c3_counterexample :
    textValueAt c3Body 1 = some "v"
    ∧ textValueAt (observerCallback defaultFlags (fun s => s ++ "!")
        [.characterData 1 (some "v")] c3Body coldSt).1 1 = some "v!" :=
  ⟨rfl, rfl⟩

/-- C3 as amended: for a characterData record resolving to a text node, the
    transform is applied iff the unit passes the validity check (the dedup set
    was cleared at batch start, so it cannot block the first application);
    the recorded prior value of the record is never consulted, and the
    observer configuration does not even request characterDataOldValue. -/
theorem c3_theorem (eff : ETFlags) (cb : String → String) (tid : Nat)
    (o o2 : Option String) (body : DomNode) (st : ScanSt) (pc : ParentCtx)
    (j : Nat) (v : String)
    (hfind : findCtxNode none body tid = some (some pc, .text j v)) :
    observerCallback eff cb [.characterData tid o] body st =
      observerCallback eff cb [.characterData tid o2] body st
    ∧ CONFIG.characterDataOldValue = none
    ∧ observerCallback eff cb [.characterData tid o] body st =
        (if validIn eff pc (.text j v) then
          (setTextAt body j (cb v),
           { st with processed := [j], log := st.log ++ [.textUnit j] })
        else (body, { st with processed := [] })) :=
  ⟨rfl, rfl, observerCallback_charData eff cb tid o body st pc j v hfind⟩

/-- C3 witness: the amended characterisation instantiated on the concrete
    fixture document. -/
theorem c3_witness :
    observerCallback defaultFlags (fun s => s ++ "!")
        [.characterData 1 (some "v")] c3Body coldSt =
      observerCallback defaultFlags (fun s => s ++ "!")
        [.characterData 1 none] c3Body coldSt
    ∧ CONFIG.characterDataOldValue = none
    ∧ observerCallback defaultFlags (fun s => s ++ "!")
        [.characterData 1 (some "v")] c3Body coldSt =
        (if validIn defaultFlags ⟨"BODY", false, ""⟩ (.text 1 "v") then
          (setTextAt c3Body 1 ((fun s => s ++ "!") "v"),
           { coldSt with processed := [1], log := coldSt.log ++ [.textUnit 1] })
        else (c3Body, { coldSt with processed := [] })) :=
  c3_theorem defaultFlags (fun s => s ++ "!") 1 (some "v") none c3Body coldSt
    ⟨"BODY", false, ""⟩ 1 "v" rfl

/-- Fixture: a body with a single valid text child with value hello. -/
def c4Body : DomNode := .element (mkElem 0 "BODY" [] none) [.text 1 "hello"] []

/-- C4 counterexample: a transform returning the exact empty string has its
    result written (the unit is blanked), not suppressed as claimed. -/
theorem c4_counterexample :
    textValueAt c4Body 1 = some "hello"
    ∧ textValueAt (observerCallback defaultFlags (fun _ => "")
        [.characterData 1 none] c4Body coldSt).1 1 = some "" :=
  ⟨rfl, rfl⟩

/-- Fixture: a body with one input child carrying placeholder value a. -/
def c1Body : DomNode :=
  .element (mkElem 0 "BODY" [] none)
    [.element (mkElem 2 "INPUT" [("placeholder", "a")] none) [] []] []

/-- C1 counterexample: a batch with two identical attribute-edit records for
    the same element and attribute applies the transform twice to that unit
    (the placeholder becomes a!! and the unit is logged twice), and the
    element is never marked visited by the attribute phase (the processed set
    is empty after the batch) — refuting both the exactly-once guarantee and
    the claimed marking of elements after their pending attributes are
    processed. -/
theorem c1_counterexample :
    (observerCallback defaultFlags (fun s => s ++ "!")
        [.attributes 2 "placeholder", .attributes 2 "placeholder"]
        c1Body coldSt).2.log
      = [.attrUnit 2 "placeholder", .attrUnit 2 "placeholder"]
    ∧ attrValueAt (observerCallback defaultFlags (fun s => s ++ "!")
        [.attributes 2 "placeholder", .attributes 2 "placeholder"]
        c1Body coldSt).1 2 "placeholder" = some "a!!"
    ∧ (observerCallback defaultFlags (fun s => s ++ "!")
        [.attributes 2 "placeholder", .attributes 2 "placeholder"]
        c1Body coldSt).2.processed = [] :=
  ⟨rfl, rfl, rfl⟩

mutual
/-- No element of this subtree (light part) has a shadow root attached. -/
def shadowFreeNode : DomNode → Bool
  | .element d ch _ => d.shadowId.isNone && shadowFreeList ch
  | _ => true
def shadowFreeList : List DomNode → Bool
  | [] => true
  | n :: ns => shadowFreeNode n && shadowFreeList ns
end

/-- The shadow-section walk over a shadow-free forest changes nothing: no
    walker node passes the shadow-root filter. -/
theorem sweepForest_shadowFree (eff : ETFlags) (cb : String → String) :
    ∀ (k : Nat) (ns : List DomNode), listCount ns ≤ k →
    shadowFreeList ns = true → ∀ st, sweepForest eff cb ns st = (ns, st) := by
  intro k
  induction k with
  | zero =>
    intro ns hle hsf st
    cases ns with
    | nil => simp [sweepForest, sweepListCore]
    | cons n rest =>
      exfalso
      have := nodeCount_pos n
      simp only [listCount] at hle
      omega
  | succ k ih =>
    intro ns hle hsf st
    match ns with
    | [] => simp [sweepForest, sweepListCore]
    | .element d ch sh :: rest =>
      simp only [shadowFreeList, shadowFreeNode, Bool.and_eq_true] at hsf
      have hnone : d.shadowId.isSome = false := by
        rcases hsf with ⟨⟨h1, _⟩, _⟩
        simp [Option.isNone_iff_eq_none] at h1
        simp [h1]
      simp only [listCount, nodeCount] at hle
      have hch := ih ch (by omega) hsf.1.2 st
      simp only [sweepForest] at hch
      have hrest := ih rest (by omega) hsf.2 st
      simp only [sweepForest] at hrest
      simp [sweepForest, sweepListCore, hnone, hch, hrest]
    | .text i v :: rest =>
      simp only [shadowFreeList, Bool.and_eq_true] at hsf
      simp only [listCount, nodeCount] at hle
      have hrest := ih rest (by omega) hsf.2 st
      simp only [sweepForest] at hrest
      simp only [sweepForest, sweepListCore, hrest]
    | .comment i v :: rest =>
      simp only [shadowFreeList, Bool.and_eq_true] at hsf
      simp only [listCount, nodeCount] at hle
      have hrest := ih rest (by omega) hsf.2 st
      simp only [sweepForest] at hrest
      simp only [sweepForest, sweepListCore, hrest]
    | .cdata i v :: rest =>
      simp only [shadowFreeList, Bool.and_eq_true] at hsf
      simp only [listCount, nodeCount] at hle
      have hrest := ih rest (by omega) hsf.2 st
      simp only [sweepForest] at hrest
      simp only [sweepForest, sweepListCore, hrest]
    | .pi i v :: rest =>
      simp only [shadowFreeList, Bool.and_eq_true] at hsf
      simp only [listCount, nodeCount] at hle
      have hrest := ih rest (by omega) hsf.2 st
      simp only [sweepForest] at hrest
      simp only [sweepForest, sweepListCore, hrest]

/-- processNodes on an element root with no own shadow whose rewritten
    descendants are shadow-free is exactly the three sections. -/
theorem processNodes_noShadowWalk (eff : ETFlags) (cb : String → String)
    (d : ElemData) (ch sh : List DomNode) (st : ScanSt)
    (hnone : d.shadowId = none)
    (hsf : shadowFreeList (passesForest eff cb (ctxOf d) ch st).1 = true) :
    processNodes eff cb (.element d ch sh) st =
      (.element d (passesForest eff cb (ctxOf d) ch st).1 sh,
       (passesForest eff cb (ctxOf d) ch st).2) := by
  have hsw := sweepForest_shadowFree eff cb
    (listCount (passesForest eff cb (ctxOf d) ch st).1)
    (passesForest eff cb (ctxOf d) ch st).1 (Nat.le_refl _) hsf
    (passesForest eff cb (ctxOf d) ch st).2
  simp only [sweepForest] at hsw
  cases hsh : eff.shadows with
  | false => simp [processNodes, processNodesCore, hsh]
  | true => simp [processNodes, processNodesCore, hsh, hnone, hsw]

/-- Fixture: a body with one input child whose placeholder is present but
    empty. -/
def c8Body : DomNode :=
  .element (mkElem 0 "BODY" [] none)
    [.element (mkElem 2 "INPUT" [("placeholder", "")] none) [] []] []

/-- C8 counterexample: on a cold scan, a matching element whose watched
    attribute is present with the empty-string value IS transformed and
    written back (the placeholder becomes the transform of the empty string),
    refuting the claimed non-empty condition for the scan attribute pass. -/
theorem c8_counterexample :
    attrValueAt c8Body 2 "placeholder" = some ""
    ∧ attrValueAt (processNodes defaultFlags (fun _ => "X") c8Body coldSt).1
        2 "placeholder" = some "X" := by
  refine ⟨rfl, ?_⟩
  show attrValueAt (processNodes defaultFlags (fun _ => "X")
    (.element (mkElem 0 "BODY" [] none)
      [.element (mkElem 2 "INPUT" [("placeholder", "")] none) [] []] []) coldSt).1
    2 "placeholder" = some "X"
  rw [processNodes_noShadowWalk defaultFlags (fun _ => "X") _ _ _ coldSt rfl (by rfl)]
  rfl

/-- The performanceOptions object as supplied by a caller: each key may be
    absent (none); an absent key reads as undefined, which is falsy. -/
structure PerfOptions where
  contentEditable : Option Bool
  attributes : Option Bool
  shadows : Option Bool
  iconFonts : Option Bool
  cssContent : Option Bool
deriving Repr, DecidableEq

/-- JS truthiness of an optional boolean property: undefined reads as false. -/
def flagOf (o : Option Bool) : Bool := o.getD false

/-- The effective flags actually observed by every flag read site. -/
def effOf (p : PerfOptions) : ETFlags :=
  ⟨flagOf p.contentEditable, flagOf p.attributes, flagOf p.shadows,
   flagOf p.iconFonts, flagOf p.cssContent⟩

/-- The default parameter object of the constructor (used only when the
    performanceOptions argument is omitted entirely). -/
def defaultPerfOptions : PerfOptions :=
  ⟨some true, some true, some true, some false, some false⟩

/-- One TextObserver instance: identity, callback, effective flags, targets
    and processed sets, lifecycle flags, the observer handle existence flag,
    whether its feed is currently delivering, and its queued records. -/
structure Watcher where
  wid : Nat
  cb : String → String
  eff : ETFlags
  targets : List Nat
  processed : List Nat
  connected : Bool
  hasObserver : Bool
  observing : Bool
  pending : List MutationRec

/-- The host document: title, optional body tree, and the accumulated
    injected style texts (the style elements appended to the head). -/
structure Doc where
  title : String
  body : Option DomNode
  styles : List String

/-- The whole modelled world: all constructed watchers, the ordered registry
    of observers (the static observers set), the document, the global
    transform log tagged by watcher id, and console warnings. -/
structure Sys where
  watchers : List Watcher
  registry : List Nat
  doc : Doc
  log : List (Nat × RewriteUnit)
  warnings : List String

def getW (sys : Sys) (wid : Nat) : Option Watcher :=
  sys.watchers.find? (fun w => w.wid == wid)

def setW (sys : Sys) (w : Watcher) : Sys :=
  { sys with watchers := sys.watchers.map (fun x => if x.wid == w.wid then w else x) }

def pendingOf (sys : Sys) (wid : Nat) : List MutationRec :=
  ((getW sys wid).map (·.pending)).getD []

/-- The scan state view of a watcher; the log and styles components start
    empty and collect this call's contributions. -/
def scanStOf (w : Watcher) : ScanSt :=
  { processed := w.processed, targets := w.targets, log := [], styles := [] }

/-- Put a finished scan state back: sets and styles into the watcher and the
    document, the log into the global log tagged with the watcher id. -/
def absorbScan (sys : Sys) (w : Watcher) (st : ScanSt) : Sys × Watcher :=
  ({ sys with log := sys.log ++ st.log.map (fun u => (w.wid, u)),
              doc := { sys.doc with styles := sys.doc.styles ++ st.styles } },
   { w with processed := st.processed, targets := st.targets })

/-- Run the observer callback of one watcher over a batch against the body. -/
def observerCallbackB (sys : Sys) (w : Watcher) (recs : List MutationRec) :
    Sys × Watcher :=
  match sys.doc.body with
  | none => (sys, w)
  | some b =>
    let r := observerCallback w.eff w.cb recs b (scanStOf w)
    absorbScan { sys with doc := { sys.doc with body := some r.1 } } w r.2

def runCallbackFor (sys : Sys) (wid : Nat) (recs : List MutationRec) : Sys :=
  match getW sys wid with
  | none => sys
  | some w =>
    let r := observerCallbackB sys w recs
    setW r.1 r.2

/-- The freeze phase: for each registered watcher in registry order, take its
    batch (per the supplied source: either its queued records, or the handed
    batch for the triggering watcher) and stop its feed, discarding the
    queue. -/
def freezeLoop (f : Nat → List MutationRec → List MutationRec) :
    List Nat → Sys → Sys × List (Nat × List MutationRec)
  | [], sys => (sys, [])
  | wid :: rest, sys =>
    match getW sys wid with
    | none =>
      let r := freezeLoop f rest sys
      (r.1, (wid, []) :: r.2)
    | some w =>
      let r := freezeLoop f rest (setW sys { w with pending := [], observing := false })
      (r.1, (wid, f wid w.pending) :: r.2)

def freezePhaseWith (sys : Sys) (f : Nat → List MutationRec → List MutationRec) :
    Sys × List (Nat × List MutationRec) :=
  freezeLoop f sys.registry sys

/-- The dispatch phase: run each watcher's observer callback on its collected
    batch, in the same registration order. -/
def dispatchLoop : List (Nat × List MutationRec) → Sys → Sys
  | [], sys => sys
  | (wid, recs) :: rest, sys => dispatchLoop rest (runCallbackFor sys wid recs)

/-- The resume phase: every registered watcher observes its targets again. -/
def reobserveAll (sys : Sys) : Sys :=
  { sys with watchers := sys.watchers.map (fun w =>
      if sys.registry.contains w.wid then { w with observing := true } else w) }

/-- TextObserver.flushAndSleepDuring: freeze all feeds, dispatch all pending
    batches, run the caller action, then resume all feeds. -/
def flushAndSleepDuring (sys : Sys) (action : Sys → Sys) : Sys :=
  let f := freezePhaseWith sys (fun _ p => p)
  reobserveAll (action (dispatchLoop f.2 f.1))

/-- The MutationObserver callback built in the constructor, entered when the
    host delivers a batch to the triggering watcher: like the flush cycle,
    but the trigger is handed exactly the delivered batch instead of a
    re-fetch of its queue. -/
def deliver (sys : Sys) (trig : Nat) (muts : List MutationRec) : Sys :=
  let f := freezePhaseWith sys (fun wid p => if wid == trig then muts else p)
  reobserveAll (dispatchLoop f.2 f.1)

/-- The target argument of the constructor. -/
inductive TargetSpec where
  | wholeDocument
  | node (id : Nat)
deriving Repr, DecidableEq

mutual
/-- Apply the scan entry point to one target id inside the body: the target
    is either a node (processNodes on it) or a shadow root, identified by the
    shadowId of its host (processNodes on the shadow root). -/
def applyTargetNode (eff : ETFlags) (cb : String → String) (tid : Nat)
    (n : DomNode) (st : ScanSt) : DomNode × ScanSt × Bool :=
  match n with
  | .element d ch sh =>
    if d.id = tid then
      let r := processNodes eff cb (.element d ch sh) st
      (r.1, r.2, true)
    else if d.shadowId == some tid then
      let r := processShadow eff cb sh st
      (.element d ch r.1, r.2, true)
    else
      let p := applyTargetList eff cb tid ch st
      if p.2.2 then (.element d p.1 sh, p.2.1, true)
      else if d.shadowId.isSome then
        let q := applyTargetList eff cb tid sh st
        (.element d ch q.1, q.2.1, q.2.2)
      else (.element d ch sh, st, false)
  | m =>
    if nodeId m = tid then
      let r := processNodes eff cb m st
      (r.1, r.2, true)
    else (m, st, false)
def applyTargetList (eff : ETFlags) (cb : String → String) (tid : Nat)
    (ns : List DomNode) (st : ScanSt) : List DomNode × ScanSt × Bool :=
  match ns with
  | [] => ([], st, false)
  | n :: rest =>
    let p := applyTargetNode eff cb tid n st
    if p.2.2 then (p.1 :: rest, p.2.1, true)
    else
      let q := applyTargetList eff cb tid rest st
      (n :: q.1, q.2.1, q.2.2)
end

def scanTarget (eff : ETFlags) (cb : String → String) (tid : Nat)
    (body : DomNode) (st : ScanSt) : DomNode × ScanSt :=
  let r := applyTargetNode eff cb tid body st
  (r.1, r.2.1)

/-- The targets.forEach(processNodes) loop: a JS Set forEach also visits
    entries added during the iteration, so the loop advances an index over
    the growing targets list; the fuel bounds the growth (targets can only
    gain ids present in the document, so any fuel at least that large is
    exact). When clearEach is set the processed set is cleared before every
    target, as in reconnect. -/
def scanLoop (eff : ETFlags) (cb : String → String) (clearEach : Bool) :
    Nat → Nat → DomNode → ScanSt → DomNode × ScanSt
  | 0, _, body, st => (body, st)
  | fuel + 1, i, body, st =>
    if i < st.targets.length then
      let tid := st.targets.getD i 0
      let st1 := if clearEach then { st with processed := [] } else st
      let r := scanTarget eff cb tid body st1
      scanLoop eff cb clearEach fuel (i + 1) r.1 r.2
    else (body, st)

/-- The tail of the constructor after target resolution: the optional
    flush-wrapped initial scan, then observer creation, feed start and
    registry insertion. -/
def constructRest (sys : Sys) (w0 : Watcher) (tid : Nat)
    (processExisting : Bool) : Sys × Watcher :=
  let w1 := { w0 with targets := [tid] }
  let p :=
    if processExisting then
      let f := freezePhaseWith sys (fun _ p => p)
      let s2 := dispatchLoop f.2 f.1
      match s2.doc.body with
      | some b =>
        let r := scanLoop w1.eff w1.cb false (nodeCount b * 2 + 2) 0 b (scanStOf w1)
        let sw := absorbScan { s2 with doc := { s2.doc with body := some r.1 } } w1 r.2
        (reobserveAll sw.1, sw.2)
      | none => (reobserveAll s2, w1)
    else (sys, w1)
  let w2 := { p.2 with hasObserver := true, observing := true }
  ({ p.1 with watchers := p.1.watchers ++ [w2],
              registry := p.1.registry ++ [w2.wid] }, w2)

/-- The TextObserver constructor. A whole-document target first transforms
    the title directly, then falls back to the body; when the body is missing
    it warns and returns without scanning, registering or observing (the
    instance is recorded among constructed watchers but joins nothing). -/
def construct (sys : Sys) (wid : Nat) (cb : String → String) (target : TargetSpec)
    (processExisting : Bool) (popts : Option PerfOptions) : Sys :=
  let eff := effOf (popts.getD defaultPerfOptions)
  let w0 : Watcher :=
    { wid := wid, cb := cb, eff := eff, targets := [], processed := [],
      connected := true, hasObserver := false, observing := false, pending := [] }
  match target with
  | .wholeDocument =>
    let sys1 := { sys with doc := { sys.doc with title := cb sys.doc.title },
                           log := sys.log ++ [(wid, RewriteUnit.titleUnit)] }
    match sys1.doc.body with
    | none =>
      { sys1 with
          warnings := sys1.warnings ++ ["Document body does not exist, exiting..."],
          watchers := sys1.watchers ++ [w0] }
    | some b => (constructRest sys1 w0 (nodeId b) processExisting).1
  | .node tid => (constructRest sys w0 tid processExisting).1

/-- The outcome of a lifecycle call: the new world, and whether the call
    ended in a thrown TypeError (accessing a method of an undefined
    observer handle). Side effects before the throw persist. -/
structure OpOut where
  sys : Sys
  threw : Bool

/-- The tail of TextObserver.disconnect after the optional flush: reading the
    observer handle throws when it was never created; otherwise the feed is
    stopped, the queue dropped and the instance leaves the registry. -/
def disconnectTail (sys2 : Sys) (wid : Nat) : OpOut :=
  match getW sys2 wid with
  | none => ⟨sys2, true⟩
  | some w2 =>
    if w2.hasObserver then
      let sys3 := setW sys2 { w2 with observing := false, pending := [] }
      ⟨{ sys3 with registry := sys3.registry.erase wid }, false⟩
    else ⟨sys2, true⟩

/-- TextObserver.disconnect. -/
def disconnectW (sys : Sys) (wid : Nat) (flush : Bool) : OpOut :=
  match getW sys wid with
  | none => ⟨sys, false⟩
  | some w =>
    if !w.connected then
      ⟨{ sys with warnings :=
           sys.warnings ++ ["This TextObserver instance is already disconnected!"] },
       false⟩
    else
      let sys1 := setW sys { w with connected := false }
      let sys2 := if flush then flushAndSleepDuring sys1 (fun s => s) else sys1
      disconnectTail sys2 wid

/-- The reprocess branch of TextObserver.reconnect: flush every feed, then
    rescan this watcher's targets with the processed set cleared per target. -/
def reprocessPhase (sys1 : Sys) (wid : Nat) : Sys :=
  let f := freezePhaseWith sys1 (fun _ p => p)
  let s2 := dispatchLoop f.2 f.1
  match getW s2 wid, s2.doc.body with
  | some w1, some b =>
    let r := scanLoop w1.eff w1.cb true
      (nodeCount b * 2 + w1.targets.length + 2) 0 b (scanStOf w1)
    let sw := absorbScan { s2 with doc := { s2.doc with body := some r.1 } } w1 r.2
    reobserveAll (setW sw.1 sw.2)
  | _, _ => reobserveAll s2

/-- The tail of TextObserver.reconnect: a watcher with targets but no
    observer handle throws; otherwise observation resumes and the instance
    rejoins the registry if absent. -/
def reconnectTail (sys2 : Sys) (wid : Nat) : OpOut :=
  match getW sys2 wid with
  | none => ⟨sys2, false⟩
  | some w2 =>
    if !w2.hasObserver && !w2.targets.isEmpty then
      ⟨sys2, true⟩
    else
      let sys3 := setW sys2 { w2 with observing := w2.observing || !w2.targets.isEmpty }
      ⟨{ sys3 with registry :=
           if sys3.registry.contains wid then sys3.registry
           else sys3.registry ++ [wid] }, false⟩

/-- TextObserver.reconnect. -/
def reconnectW (sys : Sys) (wid : Nat) (reprocess : Bool) : OpOut :=
  match getW sys wid with
  | none => ⟨sys, false⟩
  | some w =>
    if w.connected then
      ⟨{ sys with warnings :=
           sys.warnings ++ ["This TextObserver instance is already connected!"] },
       false⟩
    else
      let sys1 := setW sys { w with connected := true }
      let sys2 := if reprocess then reprocessPhase sys1 wid else sys1
      reconnectTail sys2 wid

/-- C7: disconnect on an already-suspended watcher and reconnect on an
    already-connected watcher are no-ops: the world is unchanged except for
    one appended console warning, nothing is thrown, and in particular the
    document, the registry and every watcher are untouched. -/
theorem c7_theorem (sys : Sys) (wid1 wid2 : Nat) (flush reprocess : Bool)
    (wa wb : Watcher)
    (hwa : getW sys wid1 = some wa) (hca : wa.connected = false)
    (hwb : getW sys wid2 = some wb) (hcb : wb.connected = true) :
    disconnectW sys wid1 flush =
      ⟨{ sys with warnings :=
           sys.warnings ++ ["This TextObserver instance is already disconnected!"] },
       false⟩
    ∧ reconnectW sys wid2 reprocess =
      ⟨{ sys with warnings :=
           sys.warnings ++ ["This TextObserver instance is already connected!"] },
       false⟩ := by
  constructor
  · simp [disconnectW, hwa, hca]
  · simp [reconnectW, hwb, hcb]

/-- Fixture: a suspended watcher. -/
def c7WA : Watcher :=
  { wid := 1, cb := fun s => s, eff := defaultFlags, targets := [5],
    processed := [], connected := false, hasObserver := true, observing := false,
    pending := [] }

/-- Fixture: a connected watcher. -/
def c7WB : Watcher :=
  { wid := 2, cb := fun s => s, eff := defaultFlags, targets := [5],
    processed := [], connected := true, hasObserver := true, observing := true,
    pending := [] }

/-- Fixture world for the lifecycle misuse claims. -/
def c7Sys : Sys :=
  { watchers := [c7WA, c7WB], registry := [2],
    doc := { title := "t", body := some (.element (mkElem 5 "BODY" [] none) [] []),
             styles := [] },
    log := [], warnings := [] }

/-- C7 witness: the no-op behaviour on a concrete world holding one suspended
    and one connected watcher. -/
theorem c7_witness :
    disconnectW c7Sys 1 true =
      ⟨{ c7Sys with warnings :=
           c7Sys.warnings ++ ["This TextObserver instance is already disconnected!"] },
       false⟩
    ∧ reconnectW c7Sys 2 true =
      ⟨{ c7Sys with warnings :=
           c7Sys.warnings ++ ["This TextObserver instance is already connected!"] },
       false⟩ :=
  c7_theorem c7Sys 1 2 true true c7WA c7WB rfl rfl rfl rfl

/-- The inert watcher recorded by a whole-document construction that found no
    body. -/
def inertW (wid : Nat) (cb : String → String) (popts : Option PerfOptions) : Watcher :=
  { wid := wid, cb := cb, eff := effOf (popts.getD defaultPerfOptions),
    targets := [], processed := [], connected := true, hasObserver := false,
    observing := false, pending := [] }

/-- C6 as amended: constructing on the whole-document target with no body
    transforms the title exactly once (one titleUnit log entry), logs the
    warning, performs no scan, and returns with the instance neither observing
    nor registered: the registry, the body and all other watchers are
    untouched. (The constructor path itself never registers the instance; see
    the counterexample for the disconnect-then-reconnect loophole that can
    later add it to the registry.) -/
theorem c6_theorem (sys : Sys) (wid : Nat) (cb : String → String)
    (pe : Bool) (popts : Option PerfOptions) (hbody : sys.doc.body = none) :
    construct sys wid cb .wholeDocument pe popts =
      { sys with
          doc := { sys.doc with title := cb sys.doc.title },
          log := sys.log ++ [(wid, RewriteUnit.titleUnit)],
          warnings := sys.warnings ++ ["Document body does not exist, exiting..."],
          watchers := sys.watchers ++ [inertW wid cb popts] } := by
  simp [construct, hbody, inertW]

/-- Fixture: a world whose document has no body. -/
def c6Sys0 : Sys :=
  { watchers := [], registry := [],
    doc := { title := "t", body := none, styles := [] }, log := [], warnings := [] }

/-- C6 witness: the inert construction on the concrete body-less world. -/
theorem c6_witness :
    construct c6Sys0 7 (fun s => s ++ "!") .wholeDocument true none =
      { c6Sys0 with
          doc := { c6Sys0.doc with title := (fun s => s ++ "!") c6Sys0.doc.title },
          log := c6Sys0.log ++ [(7, RewriteUnit.titleUnit)],
          warnings := c6Sys0.warnings ++ ["Document body does not exist, exiting..."],
          watchers := c6Sys0.watchers ++ [inertW 7 (fun s => s ++ "!") none] } :=
  c6_theorem c6Sys0 7 (fun s => s ++ "!") true none rfl

/-- C6 counterexample: the claim says the Watcher never joins the registry
    thereafter. But the inert instance is born with its connected flag set, so
    disconnect passes its guard, clears the flag and then throws a TypeError
    on the undefined observer handle; a subsequent reconnect then passes its
    guard and adds the inert instance to the registry. -/
theorem c6_counterexample :
    (construct c6Sys0 7 (fun s => s ++ "!") .wholeDocument true none).registry = []
    ∧ (disconnectW (construct c6Sys0 7 (fun s => s ++ "!") .wholeDocument true none)
        7 false).threw = true
    ∧ (reconnectW (disconnectW
        (construct c6Sys0 7 (fun s => s ++ "!") .wholeDocument true none) 7 false).sys
        7 false).sys.registry = [7]
    ∧ (reconnectW (disconnectW
        (construct c6Sys0 7 (fun s => s ++ "!") .wholeDocument true none) 7 false).sys
        7 false).threw = false :=
  ⟨rfl, rfl, rfl, rfl⟩

/-- The same options object with every key written out explicitly as its
    truthiness value: an omitted key becomes an explicit false. -/
def explicitize (p : PerfOptions) : PerfOptions :=
  ⟨some (flagOf p.contentEditable), some (flagOf p.attributes),
   some (flagOf p.shadows), some (flagOf p.iconFonts), some (flagOf p.cssContent)⟩

theorem effOf_explicitize (o : PerfOptions) : effOf (explicitize o) = effOf o := by
  simp [effOf, explicitize, flagOf]

/-- Fixture: a world with an empty registry and a trivial document. -/
def c10Sys : Sys :=
  { watchers := [], registry := [],
    doc := { title := "t", body := some (.element (mkElem 0 "BODY" [] none) [] []),
             styles := [] },
    log := [], warnings := [] }

/-- The all-keys-omitted options object. -/
def emptyPerfOptions : PerfOptions := ⟨none, none, none, none, none⟩

/-- C10: supplying a partial performanceOptions object makes every omitted key
    behave as false: construction with any supplied object behaves exactly as
    with the object whose keys are all written out as their truthiness values;
    the documented defaults apply only when the argument is omitted entirely.
    Concretely, the empty object yields all-off effective flags (including
    contentEditable, attributes and shadows, whose documented defaults are
    on), while the omitted argument yields the documented defaults, as
    witnessed by the effective flags stored on the constructed watcher. -/
theorem c10_theorem :
    (∀ (sys : Sys) (wid : Nat) (cb : String → String) (target : TargetSpec)
       (pe : Bool) (o : PerfOptions),
      construct sys wid cb target pe (some o) =
        construct sys wid cb target pe (some (explicitize o)))
    ∧ (∀ (sys : Sys) (wid : Nat) (cb : String → String) (target : TargetSpec)
       (pe : Bool),
      construct sys wid cb target pe none =
        construct sys wid cb target pe (some defaultPerfOptions))
    ∧ effOf emptyPerfOptions = ⟨false, false, false, false, false⟩
    ∧ effOf defaultPerfOptions = ⟨true, true, true, false, false⟩
    ∧ (getW (construct c10Sys 3 (fun s => s) (.node 99) false (some emptyPerfOptions)) 3).map
        (fun w => w.eff) = some ⟨false, false, false, false, false⟩
    ∧ (getW (construct c10Sys 3 (fun s => s) (.node 99) false none) 3).map
        (fun w => w.eff) = some ⟨true, true, true, false, false⟩ := by
  refine ⟨?_, ?_, rfl, rfl, rfl, rfl⟩
  · intro sys wid cb target pe o
    simp only [construct, Option.getD_some, effOf_explicitize]
  · intro sys wid cb target pe
    rfl

theorem find?_map_setW (w : Watcher) (v : Nat) (h : v ≠ w.wid) (l : List Watcher) :
    (l.map (fun x => if x.wid == w.wid then w else x)).find? (fun x => x.wid == v)
      = l.find? (fun x => x.wid == v) := by
  induction l with
  | nil => rfl
  | cons x xs ih =>
    rw [List.map_cons]
    by_cases hx : (x.wid == w.wid) = true
    · have hif : (if x.wid == w.wid then w else x) = w := by simp [hx]
      have hxw : x.wid = w.wid := by simpa using hx
      rw [hif]
      rw [@List.find?_cons_of_neg Watcher (fun y => y.wid == v) w _ (by simp [Ne.symm h]),
          @List.find?_cons_of_neg Watcher (fun y => y.wid == v) x _ (by simp [hxw, Ne.symm h])]
      exact ih
    · have hif : (if x.wid == w.wid then w else x) = x := by simp [hx]
      rw [hif]
      by_cases hv : (x.wid == v) = true
      · rw [@List.find?_cons_of_pos Watcher (fun y => y.wid == v) x _ hv,
            @List.find?_cons_of_pos Watcher (fun y => y.wid == v) x _ hv]
      · rw [@List.find?_cons_of_neg Watcher (fun y => y.wid == v) x _ hv,
            @List.find?_cons_of_neg Watcher (fun y => y.wid == v) x _ hv]
        exact ih

theorem getW_setW_ne (sys : Sys) (w : Watcher) (v : Nat) (h : v ≠ w.wid) :
    getW (setW sys w) v = getW sys v := by
  simp only [getW, setW]
  exact find?_map_setW w v h sys.watchers

theorem find?_map_setW_self (w : Watcher) (l : List Watcher)
    (h : (l.find? (fun x => x.wid == w.wid)).isSome) :
    (l.map (fun x => if x.wid == w.wid then w else x)).find?
      (fun x => x.wid == w.wid) = some w := by
  induction l with
  | nil => simp [List.find?] at h
  | cons x xs ih =>
    rw [List.map_cons]
    by_cases hx : (x.wid == w.wid) = true
    · have hif : (if x.wid == w.wid then w else x) = w := by simp [hx]
      rw [hif, @List.find?_cons_of_pos Watcher (fun y => y.wid == w.wid) w _ (by simp)]
    · have hif : (if x.wid == w.wid then w else x) = x := by simp [hx]
      rw [hif, @List.find?_cons_of_neg Watcher (fun y => y.wid == w.wid) x _ hx]
      rw [@List.find?_cons_of_neg Watcher (fun y => y.wid == w.wid) x _ hx] at h
      exact ih h

theorem getW_setW_self (sys : Sys) (w : Watcher)
    (h : (getW sys w.wid).isSome) : getW (setW sys w) w.wid = some w := by
  simp only [getW, setW] at *
  exact find?_map_setW_self w sys.watchers h

theorem getW_wid (sys : Sys) (wid : Nat) (w : Watcher)
    (h : getW sys wid = some w) : w.wid = wid := by
  have := List.find?_some h
  simpa using this

/-- setW changes only the watchers component. -/
theorem setW_fields (sys : Sys) (w : Watcher) :
    (setW sys w).doc = sys.doc ∧ (setW sys w).log = sys.log
    ∧ (setW sys w).registry = sys.registry
    ∧ (setW sys w).warnings = sys.warnings :=
  ⟨rfl, rfl, rfl, rfl⟩

/-- The freeze phase touches only the watchers component. -/
theorem freezeLoop_fields (f : Nat → List MutationRec → List MutationRec) :
    ∀ (wids : List Nat) (sys : Sys),
    (freezeLoop f wids sys).1.doc = sys.doc
    ∧ (freezeLoop f wids sys).1.log = sys.log
    ∧ (freezeLoop f wids sys).1.registry = sys.registry
    ∧ (freezeLoop f wids sys).1.warnings = sys.warnings
  | [], sys => ⟨rfl, rfl, rfl, rfl⟩
  | wid :: rest, sys => by
    simp only [freezeLoop]
    cases h : getW sys wid with
    | none => simpa using freezeLoop_fields f rest sys
    | some w => simpa using freezeLoop_fields f rest _

/-- Watchers outside the frozen registry segment are untouched. -/
theorem freezeLoop_getW_notMem (f : Nat → List MutationRec → List MutationRec) :
    ∀ (wids : List Nat) (sys : Sys) (v : Nat), v ∉ wids →
    getW (freezeLoop f wids sys).1 v = getW sys v
  | [], _, _, _ => rfl
  | wid :: rest, sys, v, hv => by
    have hvw : v ≠ wid := by intro h; exact hv (h ▸ List.mem_cons_self wid rest)
    have hvr : v ∉ rest := fun h => hv (List.mem_cons_of_mem wid h)
    simp only [freezeLoop]
    cases h : getW sys wid with
    | none => simpa using freezeLoop_getW_notMem f rest sys v hvr
    | some w =>
      have hw : w.wid = wid := getW_wid sys wid w h
      have := freezeLoop_getW_notMem f rest
        (setW sys { w with pending := [], observing := false }) v hvr
      simp only [this]
      exact getW_setW_ne sys _ v (by simpa [hw] using hvw)

/-- Characterisation of the freeze phase on a duplicate-free registry whose
    watchers all exist: the collected batches are, in registration order, the
    supplied source applied to each watcher's queue, and afterwards every
    registered watcher has a stopped feed and an empty queue. -/
theorem freezeLoop_spec (f : Nat → List MutationRec → List MutationRec) :
    ∀ (wids : List Nat) (sys : Sys), wids.Nodup →
    (∀ wid ∈ wids, (getW sys wid).isSome) →
    (freezeLoop f wids sys).2
      = wids.map (fun wid => (wid, f wid (pendingOf sys wid)))
    ∧ (∀ wid ∈ wids, ∃ w0, getW sys wid = some w0 ∧
        getW (freezeLoop f wids sys).1 wid
          = some { w0 with pending := [], observing := false })
  | [], sys, _, _ => by simp [freezeLoop]
  | wid :: rest, sys, hnd, hall => by
    have hsome := hall wid (List.mem_cons_self wid rest)
    cases h : getW sys wid with
    | none => rw [h] at hsome; simp at hsome
    | some w =>
      have hw : w.wid = wid := getW_wid sys wid w h
      have hnotmem : wid ∉ rest := by
        have := List.nodup_cons.mp hnd
        exact this.1
      have hndr : rest.Nodup := (List.nodup_cons.mp hnd).2
      have hallr : ∀ v ∈ rest,
          (getW (setW sys { w with pending := [], observing := false }) v).isSome := by
        intro v hv
        have hne : v ≠ wid := fun he => hnotmem (he ▸ hv)
        rw [getW_setW_ne sys _ v (by simpa [hw] using hne)]
        exact hall v (List.mem_cons_of_mem wid hv)
      have ih := freezeLoop_spec f rest
        (setW sys { w with pending := [], observing := false }) hndr hallr
      constructor
      · simp only [freezeLoop, h, List.map, ih.1]
        have hpend : pendingOf sys wid = w.pending := by simp [pendingOf, h]
        rw [hpend]
        congr 1
        apply List.map_congr_left
        intro v hv
        have hne : v ≠ wid := fun he => hnotmem (he ▸ hv)
        simp only [pendingOf]
        rw [getW_setW_ne sys _ v (by simpa [hw] using hne)]
      · intro v hv
        rcases List.mem_cons.mp hv with he | hr
        · subst he
          refine ⟨w, h, ?_⟩
          simp only [freezeLoop, h]
          rw [freezeLoop_getW_notMem f rest _ v hnotmem]
          have : (getW sys w.wid).isSome := by rw [hw, h]; rfl
          simpa [hw] using getW_setW_self sys { w with pending := [], observing := false }
            (by simpa using this)
        · obtain ⟨w0, hw0, hw0f⟩ := ih.2 v hr
          have hne : v ≠ wid := fun he => hnotmem (he ▸ hr)
          refine ⟨w0, ?_, ?_⟩
          · rw [← getW_setW_ne sys { w with pending := [], observing := false } v
              (by simpa [hw] using hne)]
            exact hw0
          · simp only [freezeLoop, h]
            exact hw0f

/-- Concatenation of per-watcher log segments, each tagged with its watcher,
    in registration order. -/
def taggedJoin (wids : List Nat) (exts : List (List RewriteUnit)) :
    List (Nat × RewriteUnit) :=
  match wids, exts with
  | w :: ws, e :: es => e.map (fun u => (w, u)) ++ taggedJoin ws es
  | _, _ => []

/-- One dispatched callback appends only log entries tagged with its own
    watcher id. -/
theorem runCallbackFor_log (sys : Sys) (wid : Nat) (recs : List MutationRec) :
    ∃ ext : List RewriteUnit,
      (runCallbackFor sys wid recs).log = sys.log ++ ext.map (fun u => (wid, u)) := by
  unfold runCallbackFor
  cases h : getW sys wid with
  | none => exact ⟨[], by simp⟩
  | some w =>
    have hw : w.wid = wid := getW_wid sys wid w h
    unfold observerCallbackB
    cases hb : sys.doc.body with
    | none => exact ⟨[], by simp [setW]⟩
    | some b =>
      refine ⟨(observerCallback w.eff w.cb recs b (scanStOf w)).2.log, ?_⟩
      simp [absorbScan, setW, hw]

/-- The dispatch loop appends the per-watcher segments in batch order. -/
theorem dispatchLoop_log :
    ∀ (batches : List (Nat × List MutationRec)) (sys : Sys),
    ∃ exts : List (List RewriteUnit),
      exts.length = batches.length
      ∧ (dispatchLoop batches sys).log
          = sys.log ++ taggedJoin (batches.map (·.1)) exts
  | [], sys => ⟨[], rfl, by simp [dispatchLoop, taggedJoin]⟩
  | (wid, recs) :: rest, sys => by
    obtain ⟨ext0, h0⟩ := runCallbackFor_log sys wid recs
    obtain ⟨exts, hlen, hlog⟩ := dispatchLoop_log rest (runCallbackFor sys wid recs)
    refine ⟨ext0 :: exts, by simp [hlen], ?_⟩
    simp only [dispatchLoop, hlog, h0, List.map, taggedJoin]
    simp [List.append_assoc]

theorem reobserveAll_log (sys : Sys) : (reobserveAll sys).log = sys.log := rfl

/-- C2: whenever a batch cycle runs, first every registered watcher's pending
    records are taken and its feed stopped, in registration order; only then
    does each watcher's batch processor run, in the same order, so the global
    log grows by one per-watcher segment per registered watcher, in
    registration order: every transform application of an earlier-registered
    watcher precedes every one of a later-registered watcher. The triggering
    watcher of a delivery is handed exactly the delivered batch, not a
    re-fetch of its queue; all others get exactly their taken queues. The same
    segment structure holds for the dispatch part of a synchronous drain. -/
theorem c2_theorem (sys : Sys) (trig : Nat) (muts : List MutationRec)
    (hnd : sys.registry.Nodup)
    (hall : ∀ wid ∈ sys.registry, (getW sys wid).isSome) :
    (freezePhaseWith sys (fun wid p => if wid == trig then muts else p)).2
      = sys.registry.map
          (fun wid => (wid, if wid == trig then muts else pendingOf sys wid))
    ∧ (∀ wid ∈ sys.registry, ∃ w0, getW sys wid = some w0 ∧
        getW (freezePhaseWith sys (fun wid p => if wid == trig then muts else p)).1 wid
          = some { w0 with pending := [], observing := false })
    ∧ (∃ exts : List (List RewriteUnit), exts.length = sys.registry.length ∧
        (deliver sys trig muts).log = sys.log ++ taggedJoin sys.registry exts)
    ∧ (∃ exts : List (List RewriteUnit), exts.length = sys.registry.length ∧
        (dispatchLoop (freezePhaseWith sys (fun _ p => p)).2
          (freezePhaseWith sys (fun _ p => p)).1).log
          = sys.log ++ taggedJoin sys.registry exts) := by
  have hspec := freezeLoop_spec (fun wid p => if wid == trig then muts else p)
    sys.registry sys hnd hall
  have hspec2 := freezeLoop_spec (fun _ p => p) sys.registry sys hnd hall
  simp only [freezePhaseWith]
  refine ⟨hspec.1, hspec.2, ?_, ?_⟩
  · obtain ⟨exts, hlen, hlog⟩ := dispatchLoop_log
      (freezePhaseWith sys (fun wid p => if wid == trig then muts else p)).2
      (freezePhaseWith sys (fun wid p => if wid == trig then muts else p)).1
    have hwids : ((freezePhaseWith sys
        (fun wid p => if wid == trig then muts else p)).2).map (·.1) = sys.registry := by
      simp only [freezePhaseWith]
      rw [hspec.1]
      rw [List.map_map]
      refine Eq.trans ?_ (List.map_id sys.registry)
      apply List.map_congr_left
      intro v hv
      rfl
    have hflog : (freezePhaseWith sys
        (fun wid p => if wid == trig then muts else p)).1.log = sys.log :=
      (freezeLoop_fields _ sys.registry sys).2.1
    refine ⟨exts, by simp only [freezePhaseWith] at hlen; rw [hlen, hspec.1]; simp, ?_⟩
    show (reobserveAll _).log = _
    rw [reobserveAll_log, hlog, hwids, hflog]
  · obtain ⟨exts, hlen, hlog⟩ := dispatchLoop_log
      (freezePhaseWith sys (fun _ p => p)).2
      (freezePhaseWith sys (fun _ p => p)).1
    have hwids : ((freezePhaseWith sys (fun _ p => p)).2).map (·.1) = sys.registry := by
      simp only [freezePhaseWith]
      rw [hspec2.1]
      rw [List.map_map]
      refine Eq.trans ?_ (List.map_id sys.registry)
      apply List.map_congr_left
      intro v hv
      rfl
    have hflog : (freezePhaseWith sys (fun _ p => p)).1.log = sys.log :=
      (freezeLoop_fields _ sys.registry sys).2.1
    refine ⟨exts, by simp only [freezePhaseWith] at hlen; rw [hlen, hspec2.1]; simp, ?_⟩
    simp only [freezePhaseWith] at hlog hwids hflog ⊢
    rw [hlog, hwids, hflog]

/-- Fixture watcher builder for the ordering claim. -/
def c2W (wid : Nat) (tid : Nat) (pending : List MutationRec) : Watcher :=
  { wid := wid, cb := fun s => s ++ "!", eff := defaultFlags, targets := [tid],
    processed := [], connected := true, hasObserver := true, observing := true,
    pending := pending }

/-- Fixture world: two connected watchers registered in the order 1 then 2. -/
def c2Sys : Sys :=
  { watchers := [c2W 1 0 [.characterData 1 none], c2W 2 0 []],
    registry := [1, 2],
    doc := { title := "t",
             body := some (.element (mkElem 0 "BODY" [] none) [.text 1 "v"] []),
             styles := [] },
    log := [], warnings := [] }

/-- C2 witness: the freeze-then-dispatch characterisation on a concrete world
    with two registered watchers, watcher 2 triggering a delivery. -/
theorem c2_witness :
    (freezePhaseWith c2Sys (fun wid p => if wid == 2 then [] else p)).2
      = c2Sys.registry.map
          (fun wid => (wid, if wid == 2 then [] else pendingOf c2Sys wid))
    ∧ (∀ wid ∈ c2Sys.registry, ∃ w0, getW c2Sys wid = some w0 ∧
        getW (freezePhaseWith c2Sys (fun wid p => if wid == 2 then [] else p)).1 wid
          = some { w0 with pending := [], observing := false })
    ∧ (∃ exts : List (List RewriteUnit), exts.length = c2Sys.registry.length ∧
        (deliver c2Sys 2 []).log = c2Sys.log ++ taggedJoin c2Sys.registry exts)
    ∧ (∃ exts : List (List RewriteUnit), exts.length = c2Sys.registry.length ∧
        (dispatchLoop (freezePhaseWith c2Sys (fun _ p => p)).2
          (freezePhaseWith c2Sys (fun _ p => p)).1).log
          = c2Sys.log ++ taggedJoin c2Sys.registry exts) :=
  c2_theorem c2Sys 2 [] (by decide)
    (by intro wid hw; fin_cases hw <;> rfl)

theorem setAttr_self (m : AttrMap) (a v : String)
    (h : getAttr m a = some v) : setAttr m a v = m := by
  induction m with
  | nil => simp [getAttr, List.find?] at h
  | cons p rest ih =>
    by_cases hp : (p.1 == a) = true
    · simp only [getAttr] at h
      rw [@List.find?_cons_of_pos (String × String) (fun q => q.1 == a) p rest hp] at h
      simp at h
      have ha : p.1 = a := by simpa using hp
      simp only [setAttr, hp, if_true]
      rw [← ha, ← h]
    · simp only [getAttr] at h
      rw [@List.find?_cons_of_neg (String × String) (fun q => q.1 == a) p rest hp] at h
      simp only [setAttr, hp]
      simp only [Bool.false_eq_true, if_false, List.cons.injEq, true_and]
      exact ih h

mutual
/-- The tree with every class list erased: the content view for the identity
    claim, which speaks of text units and watched attributes only. -/
def stripClassesN : DomNode → DomNode
  | .element d ch sh => .element { d with classes := [] } (stripClassesL ch) (stripClassesL sh)
  | n => n
def stripClassesL : List DomNode → List DomNode
  | [] => []
  | n :: ns => stripClassesN n :: stripClassesL ns
end

/-- The observable content of the document for the identity claim: the title
    and the body up to class lists. -/
def docContent (d : Doc) : String × Option DomNode := (d.title, d.body.map stripClassesN)

mutual
theorem textPassNode_id (eff : ETFlags) (pc : ParentCtx) (n : DomNode) (st : ScanSt) :
    (textPassNode eff (fun s => s) pc n st).1 = n := by
  cases n with
  | text i v =>
    simp only [textPassNode]
    split <;> rfl
  | element d ch sh =>
    simp only [textPassNode]
    rw [textPassList_id eff (ctxOf d) ch st]
  | comment i v => rfl
  | cdata i v => rfl
  | pi i v => rfl
theorem textPassList_id (eff : ETFlags) (pc : ParentCtx) (ns : List DomNode) (st : ScanSt) :
    (textPassList eff (fun s => s) pc ns st).1 = ns := by
  cases ns with
  | nil => rfl
  | cons n rest =>
    simp only [textPassList]
    rw [textPassNode_id eff pc n st, textPassList_id eff pc rest]
end

mutual
theorem attrPassNode_id (aname : String) (sels : List Sel) (n : DomNode)
    (acc : ScanSt × List Nat) : (attrPassNode (fun s => s) aname sels n acc).1 = n := by
  cases n with
  | element d ch sh =>
    cases acc with
    | mk st temp =>
      simp only [attrPassNode]
      rw [attrPassList_id aname sels ch]
      split
      · split
        next v hv => simp [setAttr_self d.attrs aname v hv]
        next hv => rfl
      · rfl
  | text i v => rfl
  | comment i v => rfl
  | cdata i v => rfl
  | pi i v => rfl
theorem attrPassList_id (aname : String) (sels : List Sel) (ns : List DomNode)
    (acc : ScanSt × List Nat) : (attrPassList (fun s => s) aname sels ns acc).1 = ns := by
  cases ns with
  | nil => rfl
  | cons n rest =>
    simp only [attrPassList]
    rw [attrPassNode_id aname sels n acc, attrPassList_id aname sels rest]
end

theorem attrPassAll_id : ∀ (pairs : List (String × List Sel))
    (ns : List DomNode) (acc : ScanSt × List Nat),
    (attrPassAll (fun s => s) pairs ns acc).1 = ns
  | [], _, _ => rfl
  | (a, sels) :: rest, ns, acc => by
    simp only [attrPassAll]
    rw [attrPassAll_id rest, attrPassList_id a sels ns acc]

/-- The element data produced by the CSS slot loop differs from its input only
    in the class list. -/
theorem cssSlotFold_classesOnly (cb : String → String) (i : Nat) :
    ∀ (slots : List String) (d : ElemData) (acc : ScanSt × List Nat),
    { (cssSlotFold cb i slots d acc).1 with classes := [] } = { d with classes := [] }
  | [], _, _ => rfl
  | slot :: rest, d, (st, temp) => by
    simp only [cssSlotFold]
    by_cases hq : isQuoted (pseudoOf d slot) = true
    · simp only [hq, if_true]
      rw [cssSlotFold_classesOnly cb i rest]
    · simp only [hq]
      simp only [Bool.false_eq_true, if_false]
      rw [cssSlotFold_classesOnly cb i rest]

mutual
theorem cssPassNode_strip (cb : String → String) (n : DomNode)
    (acc : ScanSt × List Nat × Nat) :
    stripClassesN (cssPassNode cb n acc).1 = stripClassesN n := by
  cases n with
  | element d ch sh =>
    obtain ⟨st, temp, i⟩ := acc
    simp only [cssPassNode, stripClassesN]
    rw [cssPassList_strip cb ch]
    split
    · have hcls := cssSlotFold_classesOnly cb i WATCHED_CSS d (st, temp)
      simp only [hcls]
    · rfl
  | text i v => rfl
  | comment i v => rfl
  | cdata i v => rfl
  | pi i v => rfl
theorem cssPassList_strip (cb : String → String) (ns : List DomNode)
    (acc : ScanSt × List Nat × Nat) :
    stripClassesL (cssPassList cb ns acc).1 = stripClassesL ns := by
  cases ns with
  | nil => rfl
  | cons n rest =>
    simp only [cssPassList, stripClassesL]
    rw [cssPassNode_strip cb n acc, cssPassList_strip cb rest]
end

/-- The three sections of a scan with the identity transform change the tree
    only in class lists. -/
theorem passesForest_id_strip (eff : ETFlags) (pc : ParentCtx)
    (ns : List DomNode) (st : ScanSt) :
    stripClassesL (passesForest eff (fun s => s) pc ns st).1 = stripClassesL ns := by
  simp only [passesForest]
  split <;> split <;>
    simp only [cssPassList_strip, attrPassAll_id, textPassList_id]

theorem listCount_zero (ns : List DomNode) (h : listCount ns = 0) : ns = [] := by
  cases ns with
  | nil => rfl
  | cons n rest =>
    exfalso
    have := nodeCount_pos n
    simp [listCount] at h
    omega

/-- Through the whole scan (all four sections, recursively through shadow
    subtrees), the identity transform changes the tree only in class lists. -/
theorem scan_id_strip (eff : ETFlags) : ∀ (k : Nat),
    (∀ (root : DomNode) (st : ScanSt), nodeCount root ≤ k →
      stripClassesN (processNodes eff (fun s => s) root st).1 = stripClassesN root)
    ∧ (∀ (ns : List DomNode) (st : ScanSt), listCount ns ≤ k →
      stripClassesL (sweepForest eff (fun s => s) ns st).1 = stripClassesL ns)
    ∧ (∀ (kids : List DomNode) (st : ScanSt), listCount kids ≤ k →
      stripClassesL (processShadow eff (fun s => s) kids st).1 = stripClassesL kids) := by
  intro k
  induction k with
  | zero =>
    refine ⟨?_, ?_, ?_⟩
    · intro root st hle
      exact absurd hle (by have := nodeCount_pos root; omega)
    · intro ns st hle
      have h0 : (sweepForest eff (fun s => s) ns st).1 = [] :=
        listCount_zero _ (by rw [sweepForest_count]; omega)
      have h1 : ns = [] := listCount_zero ns (by omega)
      rw [h0, h1]
    · intro kids st hle
      have h0 : (processShadow eff (fun s => s) kids st).1 = [] :=
        listCount_zero _ (by rw [processShadow_count]; omega)
      have h1 : kids = [] := listCount_zero kids (by omega)
      rw [h0, h1]
  | succ k ih =>
    obtain ⟨ihPN, ihSW, ihPS⟩ := ih
    have hPN : ∀ (root : DomNode) (st : ScanSt), nodeCount root ≤ k + 1 →
        stripClassesN (processNodes eff (fun s => s) root st).1 = stripClassesN root := by
      intro root st hle
      cases root with
      | element d ch sh =>
        have hcnt : 1 + listCount ch + listCount sh ≤ k + 1 := by
          simpa [nodeCount] using hle
        have hch : listCount ch ≤ k := by omega
        have hsh2 : listCount sh ≤ k := by omega
        have hpr : listCount (passesForest eff (fun s => s) (ctxOf d) ch st).1
            = listCount ch := passesForest_count eff (fun s => s) (ctxOf d) ch st
        have hprs : stripClassesL (passesForest eff (fun s => s) (ctxOf d) ch st).1
            = stripClassesL ch := passesForest_id_strip eff (ctxOf d) ch st
        simp only [processNodes, processNodesCore]
        cases hs : eff.shadows with
        | false =>
          simp only [Bool.false_eq_true, if_false, stripClassesN, hprs]
        | true =>
          simp only [if_true]
          split
          · split
            · have hsw := ihSW (passesForest eff (fun s => s) (ctxOf d) ch st).1
                (passesForest eff (fun s => s) (ctxOf d) ch st).2 (by omega)
              simp only [sweepForest] at hsw
              simp only [stripClassesN, hsw, hprs]
            · rename_i sid hsid hnt
              have hps := ihPS sh
                { (passesForest eff (fun s => s) (ctxOf d) ch st).2 with
                    targets := (passesForest eff (fun s => s) (ctxOf d) ch st).2.targets
                      ++ [sid] } (by omega)
              simp only [processShadow] at hps
              have hsw := ihSW (passesForest eff (fun s => s) (ctxOf d) ch st).1
                (processShadowCore eff (fun s => s) sh
                  { (passesForest eff (fun s => s) (ctxOf d) ch st).2 with
                      targets := (passesForest eff (fun s => s) (ctxOf d) ch st).2.targets
                        ++ [sid] }).val.2 (by omega)
              simp only [sweepForest] at hsw
              simp only [stripClassesN, hsw, hprs, hps]
          · have hsw := ihSW (passesForest eff (fun s => s) (ctxOf d) ch st).1
              (passesForest eff (fun s => s) (ctxOf d) ch st).2 (by omega)
            simp only [sweepForest] at hsw
            simp only [stripClassesN, hsw, hprs]
      | text i v => simp [processNodes, processNodesCore]
      | comment i v => simp [processNodes, processNodesCore]
      | cdata i v => simp [processNodes, processNodesCore]
      | pi i v => simp [processNodes, processNodesCore]
    have hSW : ∀ (ns : List DomNode) (st : ScanSt), listCount ns ≤ k + 1 →
        stripClassesL (sweepForest eff (fun s => s) ns st).1 = stripClassesL ns := by
      intro ns st hle
      cases ns with
      | nil =>
        have h0 : (sweepForest eff (fun s => s) [] st).1 = [] :=
          listCount_zero _ (by rw [sweepForest_count]; rfl)
        rw [h0]
      | cons n rest =>
        have hrest : listCount rest ≤ k := by
          have := nodeCount_pos n
          simp only [listCount] at hle
          omega
        cases n with
        | element d ch sh =>
          have hcnt : 1 + listCount ch + listCount sh + listCount rest ≤ k + 1 := by
            simpa [listCount, nodeCount] using hle
          simp only [sweepForest, sweepListCore]
          split
          · -- accepted host: process it, then walk into its children and the rest
            have hq2 := (processNodesCore eff (fun s => s) (.element d ch sh)
              { st with targets := st.targets ++ [d.id] }).property
            have hpn := hPN (.element d ch sh)
              { st with targets := st.targets ++ [d.id] }
              (by simp only [nodeCount]; omega)
            simp only [processNodes] at hpn
            split
            · rename_i d2 ch2 sh2 hq
              rw [hq] at hpn hq2
              simp only [nodeCount] at hq2
              simp only [stripClassesN, DomNode.element.injEq] at hpn
              obtain ⟨hd2, hch2, hsh2s⟩ := hpn
              have hsw1 := ihSW ch2
                (processNodesCore eff (fun s => s) (.element d ch sh)
                  { st with targets := st.targets ++ [d.id] }).val.2 (by omega)
              simp only [sweepForest] at hsw1
              have hsw2 := ihSW rest
                (sweepListCore eff (fun s => s) ch2
                  (processNodesCore eff (fun s => s) (.element d ch sh)
                    { st with targets := st.targets ++ [d.id] }).val.2).val.2 (by omega)
              simp only [sweepForest] at hsw2
              simp only [stripClassesL, stripClassesN, hsw1, hsw2, hch2, hsh2s, hd2]
            · have hsw2 := ihSW rest
                (processNodesCore eff (fun s => s) (.element d ch sh)
                  { st with targets := st.targets ++ [d.id] }).val.2 (by omega)
              simp only [sweepForest] at hsw2
              simp only [stripClassesL, hsw2, hpn]
          · -- rejected host or plain element: walk children then rest
            have hsw1 := ihSW ch st (by omega)
            simp only [sweepForest] at hsw1
            have hsw2 := ihSW rest (sweepListCore eff (fun s => s) ch st).val.2 (by omega)
            simp only [sweepForest] at hsw2
            simp only [stripClassesL, stripClassesN, hsw1, hsw2]
        | text i v =>
          have hsw2 := ihSW rest st (by omega)
          simp only [sweepForest] at hsw2
          simp only [sweepForest, sweepListCore, stripClassesL, hsw2]
        | comment i v =>
          have hsw2 := ihSW rest st (by omega)
          simp only [sweepForest] at hsw2
          simp only [sweepForest, sweepListCore, stripClassesL, hsw2]
        | cdata i v =>
          have hsw2 := ihSW rest st (by omega)
          simp only [sweepForest] at hsw2
          simp only [sweepForest, sweepListCore, stripClassesL, hsw2]
        | pi i v =>
          have hsw2 := ihSW rest st (by omega)
          simp only [sweepForest] at hsw2
          simp only [sweepForest, sweepListCore, stripClassesL, hsw2]
    have hPS : ∀ (kids : List DomNode) (st : ScanSt), listCount kids ≤ k + 1 →
        stripClassesL (processShadow eff (fun s => s) kids st).1 = stripClassesL kids := by
      intro kids st hle
      have hpr : listCount (passesForest eff (fun s => s) shadowCtx kids st).1
          = listCount kids := passesForest_count eff (fun s => s) shadowCtx kids st
      have hprs : stripClassesL (passesForest eff (fun s => s) shadowCtx kids st).1
          = stripClassesL kids := passesForest_id_strip eff shadowCtx kids st
      simp only [processShadow, processShadowCore]
      cases hs : eff.shadows with
      | false => simp only [Bool.false_eq_true, if_false, hprs]
      | true =>
        have hsw := hSW (passesForest eff (fun s => s) shadowCtx kids st).1
          (passesForest eff (fun s => s) shadowCtx kids st).2 (by omega)
        simp only [sweepForest] at hsw
        simp only [if_true, hsw, hprs]
    exact ⟨hPN, hSW, hPS⟩

theorem processNodes_id_strip (eff : ETFlags) (root : DomNode) (st : ScanSt) :
    stripClassesN (processNodes eff (fun s => s) root st).1 = stripClassesN root :=
  (scan_id_strip eff (nodeCount root)).1 root st (Nat.le_refl _)

theorem processShadow_id_strip (eff : ETFlags) (kids : List DomNode) (st : ScanSt) :
    stripClassesL (processShadow eff (fun s => s) kids st).1 = stripClassesL kids :=
  (scan_id_strip eff (listCount kids)).2.2 kids st (Nat.le_refl _)

mutual
/-- A node reference that does not resolve is not written by the nodeValue
    assignment: the write helper reports not-found and leaves the tree. -/
theorem setTextAtN_notFound (pc : Option ParentCtx) (n : DomNode) (i : Nat)
    (nv : String) (h : findCtxNode pc n i = none) : setTextAtN n i nv = (n, false) := by
  cases n with
  | text j v =>
    simp only [findCtxNode, nodeId] at h
    by_cases hj : j = i
    · simp [hj] at h
    · simp [setTextAtN, hj]
  | element d ch sh =>
    simp only [findCtxNode, nodeId] at h
    by_cases hd : d.id = i
    · simp [hd] at h
    · simp only [hd, if_false] at h
      cases hch : findCtxList (some (ctxOf d)) ch i with
      | some r => simp [hch] at h
      | none =>
        simp only [hch] at h
        cases hsid : d.shadowId.isSome with
        | false =>
          simp [setTextAtN, setTextAtNList_notFound (some (ctxOf d)) ch i nv hch, hsid]
        | true =>
          simp only [hsid, if_true] at h
          simp [setTextAtN, setTextAtNList_notFound (some (ctxOf d)) ch i nv hch, hsid,
                setTextAtNList_notFound (some shadowCtx) sh i nv h]
  | comment j v =>
    simp only [findCtxNode, nodeId] at h
    by_cases hj : j = i
    · simp [hj] at h
    · simp [setTextAtN]
  | cdata j v =>
    simp only [findCtxNode, nodeId] at h
    by_cases hj : j = i
    · simp [hj] at h
    · simp [setTextAtN]
  | pi j v =>
    simp only [findCtxNode, nodeId] at h
    by_cases hj : j = i
    · simp [hj] at h
    · simp [setTextAtN]
theorem setTextAtNList_notFound (pc : Option ParentCtx) (ns : List DomNode) (i : Nat)
    (nv : String) (h : findCtxList pc ns i = none) :
    setTextAtNList ns i nv = (ns, false) := by
  cases ns with
  | nil => rfl
  | cons n rest =>
    simp only [findCtxList] at h
    cases hn : findCtxNode pc n i with
    | some r => simp [hn] at h
    | none =>
      simp only [hn] at h
      simp [setTextAtNList, setTextAtN_notFound pc n i nv hn,
            setTextAtNList_notFound pc rest i nv h]
end

mutual
/-- A resolved node reference carries the requested id. -/
theorem findCtxNode_id (pc : Option ParentCtx) (n : DomNode) (i : Nat)
    (r : Option ParentCtx × DomNode) (h : findCtxNode pc n i = some r) :
    nodeId r.2 = i := by
  cases n with
  | element d ch sh =>
    simp only [findCtxNode, nodeId] at h
    by_cases hid : d.id = i
    · simp only [hid, if_true] at h
      cases h
      simpa [nodeId] using hid
    · simp only [hid, if_false] at h
      cases hch : findCtxList (some (ctxOf d)) ch i with
      | some q =>
        simp only [hch] at h
        cases h
        exact findCtxList_id (some (ctxOf d)) ch i r hch
      | none =>
        simp only [hch] at h
        cases hsid : d.shadowId.isSome with
        | false => simp [hsid] at h
        | true =>
          simp only [hsid, if_true] at h
          exact findCtxList_id (some shadowCtx) sh i r h
  | text j v =>
    simp only [findCtxNode, nodeId] at h
    by_cases hj : j = i
    · simp only [hj, if_true] at h
      cases h
      simpa [nodeId] using hj
    · simp [hj] at h
  | comment j v =>
    simp only [findCtxNode, nodeId] at h
    by_cases hj : j = i
    · simp only [hj, if_true] at h
      cases h
      simpa [nodeId] using hj
    · simp [hj] at h
  | cdata j v =>
    simp only [findCtxNode, nodeId] at h
    by_cases hj : j = i
    · simp only [hj, if_true] at h
      cases h
      simpa [nodeId] using hj
    · simp [hj] at h
  | pi j v =>
    simp only [findCtxNode, nodeId] at h
    by_cases hj : j = i
    · simp only [hj, if_true] at h
      cases h
      simpa [nodeId] using hj
    · simp [hj] at h
theorem findCtxList_id (pc : Option ParentCtx) (ns : List DomNode) (i : Nat)
    (r : Option ParentCtx × DomNode) (h : findCtxList pc ns i = some r) :
    nodeId r.2 = i := by
  cases ns with
  | nil => simp [findCtxList] at h
  | cons n rest =>
    simp only [findCtxList] at h
    cases hn : findCtxNode pc n i with
    | some q =>
      simp only [hn] at h
      cases h
      exact findCtxNode_id pc n i r hn
    | none =>
      simp only [hn] at h
      exact findCtxList_id pc rest i r h
end

mutual
/-- Writing back the very value a resolved text reference already holds
    leaves the tree unchanged (the setter still reports found). -/
theorem setTextAtN_found (pc : Option ParentCtx) (n : DomNode) (i : Nat)
    (c : Option ParentCtx) (v : String)
    (h : findCtxNode pc n i = some (c, .text i v)) : setTextAtN n i v = (n, true) := by
  cases n with
  | text j v0 =>
    simp only [findCtxNode, nodeId] at h
    by_cases hj : j = i
    · simp only [hj, if_true] at h
      cases h
      simp [setTextAtN, hj]
    · simp [hj] at h
  | element d ch sh =>
    simp only [findCtxNode, nodeId] at h
    by_cases hid : d.id = i
    · simp only [hid, if_true] at h
      cases h
    · simp only [hid, if_false] at h
      cases hch : findCtxList (some (ctxOf d)) ch i with
      | some q =>
        simp only [hch] at h
        cases h
        simp [setTextAtN, setTextAtNList_found (some (ctxOf d)) ch i c v hch]
      | none =>
        simp only [hch] at h
        cases hsid : d.shadowId.isSome with
        | false => simp [hsid] at h
        | true =>
          simp only [hsid, if_true] at h
          simp [setTextAtN, setTextAtNList_notFound (some (ctxOf d)) ch i v hch,
                hsid, setTextAtNList_found (some shadowCtx) sh i c v h]
  | comment j v0 =>
    simp only [findCtxNode, nodeId] at h
    by_cases hj : j = i
    · simp only [hj, if_true] at h
      cases h
    · simp [hj] at h
  | cdata j v0 =>
    simp only [findCtxNode, nodeId] at h
    by_cases hj : j = i
    · simp only [hj, if_true] at h
      cases h
    · simp [hj] at h
  | pi j v0 =>
    simp only [findCtxNode, nodeId] at h
    by_cases hj : j = i
    · simp only [hj, if_true] at h
      cases h
    · simp [hj] at h
theorem setTextAtNList_found (pc : Option ParentCtx) (ns : List DomNode) (i : Nat)
    (c : Option ParentCtx) (v : String)
    (h : findCtxList pc ns i = some (c, .text i v)) :
    setTextAtNList ns i v = (ns, true) := by
  cases ns with
  | nil => simp [findCtxList] at h
  | cons n rest =>
    simp only [findCtxList] at h
    cases hn : findCtxNode pc n i with
    | some q =>
      simp only [hn] at h
      cases h
      simp [setTextAtNList, setTextAtN_found pc n i c v hn]
    | none =>
      simp only [hn] at h
      simp [setTextAtNList, setTextAtN_notFound pc n i v hn,
            setTextAtNList_found pc rest i c v h]
end

mutual
/-- A resolved element reference carries the requested id. -/
theorem elemDataAt_id (n : DomNode) (i : Nat) (d : ElemData)
    (h : elemDataAt n i = some d) : d.id = i := by
  cases n with
  | element d0 ch sh =>
    simp only [elemDataAt] at h
    by_cases hid : d0.id = i
    · simp only [hid, if_true] at h
      cases h
      exact hid
    · simp only [hid, if_false] at h
      cases hch : elemDataAtList ch i with
      | some q =>
        simp only [hch] at h
        cases h
        exact elemDataAtList_id ch i d hch
      | none =>
        simp only [hch] at h
        cases hsid : d0.shadowId.isSome with
        | false => simp [hsid] at h
        | true =>
          simp only [hsid, if_true] at h
          exact elemDataAtList_id sh i d h
  | text j v => simp [elemDataAt] at h
  | comment j v => simp [elemDataAt] at h
  | cdata j v => simp [elemDataAt] at h
  | pi j v => simp [elemDataAt] at h
theorem elemDataAtList_id (ns : List DomNode) (i : Nat) (d : ElemData)
    (h : elemDataAtList ns i = some d) : d.id = i := by
  cases ns with
  | nil => simp [elemDataAtList] at h
  | cons n rest =>
    simp only [elemDataAtList] at h
    cases hn : elemDataAt n i with
    | some q =>
      simp only [hn] at h
      cases h
      exact elemDataAt_id n i d hn
    | none =>
      simp only [hn] at h
      exact elemDataAtList_id rest i d h
end

mutual
/-- An element reference that does not resolve is not written by the
    setAttribute helper. -/
theorem setAttrAtN_notFound (n : DomNode) (i : Nat) (a v : String)
    (h : elemDataAt n i = none) : setAttrAtN n i a v = (n, false) := by
  cases n with
  | element d ch sh =>
    simp only [elemDataAt] at h
    by_cases hid : d.id = i
    · simp [hid] at h
    · simp only [hid, if_false] at h
      cases hch : elemDataAtList ch i with
      | some q => simp [hch] at h
      | none =>
        simp only [hch] at h
        cases hsid : d.shadowId.isSome with
        | false => simp [setAttrAtN, hid, setAttrAtNList_notFound ch i a v hch, hsid]
        | true =>
          simp only [hsid, if_true] at h
          simp [setAttrAtN, hid, setAttrAtNList_notFound ch i a v hch, hsid,
                setAttrAtNList_notFound sh i a v h]
  | text j w => simp [setAttrAtN]
  | comment j w => simp [setAttrAtN]
  | cdata j w => simp [setAttrAtN]
  | pi j w => simp [setAttrAtN]
theorem setAttrAtNList_notFound (ns : List DomNode) (i : Nat) (a v : String)
    (h : elemDataAtList ns i = none) : setAttrAtNList ns i a v = (ns, false) := by
  cases ns with
  | nil => rfl
  | cons n rest =>
    simp only [elemDataAtList] at h
    cases hn : elemDataAt n i with
    | some q => simp [hn] at h
    | none =>
      simp only [hn] at h
      simp [setAttrAtNList, setAttrAtN_notFound n i a v hn,
            setAttrAtNList_notFound rest i a v h]
end

mutual
/-- Setting an attribute back to the very value the resolved element already
    holds leaves the tree unchanged (the setter still reports found). -/
theorem setAttrAtN_found (n : DomNode) (i : Nat) (a v : String) (d : ElemData)
    (hd : elemDataAt n i = some d) (hv : getAttr d.attrs a = some v) :
    setAttrAtN n i a v = (n, true) := by
  cases n with
  | element d0 ch sh =>
    simp only [elemDataAt] at hd
    by_cases hid : d0.id = i
    · simp only [hid, if_true] at hd
      cases hd
      simp only [setAttrAtN]
      rw [if_pos hid, setAttr_self d.attrs a v hv]
    · simp only [hid, if_false] at hd
      cases hch : elemDataAtList ch i with
      | some q =>
        simp only [hch] at hd
        cases hd
        simp [setAttrAtN, hid, setAttrAtNList_found ch i a v d hch hv]
      | none =>
        simp only [hch] at hd
        cases hsid : d0.shadowId.isSome with
        | false => simp [hsid] at hd
        | true =>
          simp only [hsid, if_true] at hd
          simp [setAttrAtN, hid, setAttrAtNList_notFound ch i a v hch, hsid,
                setAttrAtNList_found sh i a v d hd hv]
  | text j w => simp [elemDataAt] at hd
  | comment j w => simp [elemDataAt] at hd
  | cdata j w => simp [elemDataAt] at hd
  | pi j w => simp [elemDataAt] at hd
theorem setAttrAtNList_found (ns : List DomNode) (i : Nat) (a v : String)
    (d : ElemData) (hd : elemDataAtList ns i = some d)
    (hv : getAttr d.attrs a = some v) : setAttrAtNList ns i a v = (ns, true) := by
  cases ns with
  | nil => simp [elemDataAtList] at hd
  | cons n rest =>
    simp only [elemDataAtList] at hd
    cases hn : elemDataAt n i with
    | some q =>
      simp only [hn] at hd
      cases hd
      simp [setAttrAtNList, setAttrAtN_found n i a v d hn hv]
    | none =>
      simp only [hn] at hd
      simp [setAttrAtNList, setAttrAtN_notFound n i a v hn,
            setAttrAtNList_found rest i a v d hd hv]
end

mutual
/-- A targeted in-place rewrite whose rewriter preserves the tree up to class
    lists preserves the whole tree up to class lists. -/
theorem applyAtNode_strip (f : DomNode → ScanSt → DomNode × ScanSt)
    (hf : ∀ m st, stripClassesN (f m st).1 = stripClassesN m) (n : DomNode)
    (i : Nat) (st : ScanSt) :
    stripClassesN (applyAtNode f n i st).1 = stripClassesN n := by
  cases n with
  | element d ch sh =>
    simp only [applyAtNode]
    split
    · exact hf _ st
    · split
      · simp [stripClassesN, applyAtList_strip f hf ch i st]
      · split
        · simp [stripClassesN, applyAtList_strip f hf sh i st]
        · rfl
  | text j v =>
    simp only [applyAtNode]
    split
    · exact hf _ st
    · rfl
  | comment j v =>
    simp only [applyAtNode]
    split
    · exact hf _ st
    · rfl
  | cdata j v =>
    simp only [applyAtNode]
    split
    · exact hf _ st
    · rfl
  | pi j v =>
    simp only [applyAtNode]
    split
    · exact hf _ st
    · rfl
theorem applyAtList_strip (f : DomNode → ScanSt → DomNode × ScanSt)
    (hf : ∀ m st, stripClassesN (f m st).1 = stripClassesN m) (ns : List DomNode)
    (i : Nat) (st : ScanSt) :
    stripClassesL (applyAtList f ns i st).1 = stripClassesL ns := by
  cases ns with
  | nil => rfl
  | cons n rest =>
    simp only [applyAtList]
    split
    · simp [stripClassesL, applyAtNode_strip f hf n i st]
    · simp [stripClassesL, applyAtList_strip f hf rest i st]
end

/-- A fold whose step preserves the tree component up to class lists
    preserves it over the whole list. -/
theorem foldl_strip {σ α : Type} (pr : σ → DomNode) (g : σ → α → σ)
    (hg : ∀ acc a, stripClassesN (pr (g acc a)) = stripClassesN (pr acc)) :
    ∀ (l : List α) (acc : σ),
      stripClassesN (pr (l.foldl g acc)) = stripClassesN (pr acc)
  | [], _ => rfl
  | a :: l, acc => by
    simp only [List.foldl]
    rw [foldl_strip pr g hg l (g acc a), hg acc a]

/-- One added node processed with the identity transform leaves the tree
    unchanged up to class lists. -/
theorem processAddedNode_id_strip (eff : ETFlags) (acc : DomNode × ScanSt)
    (nid : Nat) :
    stripClassesN (processAddedNode eff (fun s => s) acc nid).1 = stripClassesN acc.1 := by
  simp only [processAddedNode]
  split
  · rename_i pc j v heq
    split
    · rename_i hok
      have hj : j = nid := by
        simpa [nodeId] using findCtxNode_id none acc.1 nid _ heq
      subst hj
      have hset : setTextAtN acc.1 j v = (acc.1, true) :=
        setTextAtN_found none acc.1 j pc v heq
      simp [setTextAt, hset]
    · rfl
  · rfl
  · rfl
  · rfl
  · exact applyAtNode_strip _ (fun m st => processNodes_id_strip eff m st) acc.1 nid acc.2
  · rfl

/-- One deferred attribute mutation processed with the identity transform
    leaves the tree literally unchanged. -/
theorem processAttrMutation_id (acc : DomNode × ScanSt) (m : Nat × String) :
    (processAttrMutation (fun s => s) acc m).1 = acc.1 := by
  simp only [processAttrMutation]
  split
  · rename_i d hd
    split
    · rename_i v hv
      split
      · have hset : setAttrAtN acc.1 m.1 m.2 v = (acc.1, true) :=
          setAttrAtN_found acc.1 m.1 m.2 v d hd hv
        simp [setAttrAt, hset]
      · rfl
    · rfl
  · rfl

/-- One record-loop step with the identity transform leaves the tree
    unchanged up to class lists. -/
theorem recordStep_id_strip (eff : ETFlags)
    (acc : DomNode × ScanSt × List (Nat × String)) (r : MutationRec) :
    stripClassesN (recordStep eff (fun s => s) acc r).1 = stripClassesN acc.1 := by
  cases r with
  | childList added =>
    simp only [recordStep]
    exact foldl_strip (·.1) (processAddedNode eff (fun s => s))
      (fun a2 x => processAddedNode_id_strip eff a2 x) added (acc.1, acc.2.1)
  | characterData tid o =>
    simp only [recordStep]
    split
    · rename_i pc j v heq
      split
      · rename_i hok
        have hj : j = tid := by
          simpa [nodeId] using findCtxNode_id none acc.1 tid _ heq
        subst hj
        have hset : setTextAtN acc.1 j v = (acc.1, true) :=
          setTextAtN_found none acc.1 j pc v heq
        simp [setTextAt, hset]
      · rfl
    · rfl
  | attributes tid aname =>
    simp only [recordStep]
    split <;> rfl

/-- The observer callback with the identity transform leaves the body
    unchanged up to class lists. -/
theorem observerCallback_id_strip (eff : ETFlags) (recs : List MutationRec)
    (body : DomNode) (st0 : ScanSt) :
    stripClassesN (observerCallback eff (fun s => s) recs body st0).1 =
      stripClassesN body := by
  simp only [observerCallback]
  have h1 : stripClassesN (List.foldl (recordStep eff (fun s => s))
      (body, { st0 with processed := [] }, []) recs).1 = stripClassesN body :=
    foldl_strip (·.1) (recordStep eff (fun s => s))
      (fun a2 r => recordStep_id_strip eff a2 r) recs (body, { st0 with processed := [] }, [])
  have h2 : stripClassesN ((List.foldl (recordStep eff (fun s => s))
        (body, { st0 with processed := [] }, []) recs).2.2.foldl
        (processAttrMutation (fun s => s))
        ((List.foldl (recordStep eff (fun s => s))
          (body, { st0 with processed := [] }, []) recs).1,
         (List.foldl (recordStep eff (fun s => s))
          (body, { st0 with processed := [] }, []) recs).2.1)).1 =
      stripClassesN (List.foldl (recordStep eff (fun s => s))
        (body, { st0 with processed := [] }, []) recs).1 :=
    foldl_strip (·.1) (processAttrMutation (fun s => s))
      (fun a2 m => by simp only [processAttrMutation_id a2 m]) _ _
  exact h2.trans h1

mutual
/-- Scanning one target with the identity transform leaves the tree
    unchanged up to class lists, wherever the target sits. -/
theorem applyTargetNode_id_strip (eff : ETFlags) (tid : Nat) (n : DomNode)
    (st : ScanSt) :
    stripClassesN (applyTargetNode eff (fun s => s) tid n st).1 = stripClassesN n := by
  cases n with
  | element d ch sh =>
    simp only [applyTargetNode]
    split
    · exact processNodes_id_strip eff _ st
    · split
      · simp [stripClassesN, processShadow_id_strip eff sh st]
      · split
        · simp [stripClassesN, applyTargetList_id_strip eff tid ch st]
        · split
          · simp [stripClassesN, applyTargetList_id_strip eff tid sh st]
          · rfl
  | text j v =>
    simp only [applyTargetNode]
    split
    · exact processNodes_id_strip eff _ st
    · rfl
  | comment j v =>
    simp only [applyTargetNode]
    split
    · exact processNodes_id_strip eff _ st
    · rfl
  | cdata j v =>
    simp only [applyTargetNode]
    split
    · exact processNodes_id_strip eff _ st
    · rfl
  | pi j v =>
    simp only [applyTargetNode]
    split
    · exact processNodes_id_strip eff _ st
    · rfl
theorem applyTargetList_id_strip (eff : ETFlags) (tid : Nat) (ns : List DomNode)
    (st : ScanSt) :
    stripClassesL (applyTargetList eff (fun s => s) tid ns st).1 = stripClassesL ns := by
  cases ns with
  | nil => rfl
  | cons n rest =>
    simp only [applyTargetList]
    split
    · simp [stripClassesL, applyTargetNode_id_strip eff tid n st]
    · simp [stripClassesL, applyTargetList_id_strip eff tid rest st]
end

/-- scanTarget with the identity transform, up to class lists. -/
theorem scanTarget_id_strip (eff : ETFlags) (tid : Nat) (body : DomNode)
    (st : ScanSt) :
    stripClassesN (scanTarget eff (fun s => s) tid body st).1 = stripClassesN body := by
  simp only [scanTarget]
  exact applyTargetNode_id_strip eff tid body st

/-- The whole targets loop with the identity transform, up to class lists. -/
theorem scanLoop_id_strip (eff : ETFlags) (clearEach : Bool) :
    ∀ (fuel i : Nat) (body : DomNode) (st : ScanSt),
      stripClassesN (scanLoop eff (fun s => s) clearEach fuel i body st).1 =
        stripClassesN body
  | 0, _, _, _ => rfl
  | fuel + 1, i, body, st => by
    simp only [scanLoop]
    split
    · exact (scanLoop_id_strip eff clearEach fuel (i + 1) _ _).trans
        (scanTarget_id_strip eff _ body _)
    · rfl

/-- Every constructed watcher carries the identity transform. -/
def sysCbId (sys : Sys) : Prop := ∀ w ∈ sys.watchers, w.cb = fun s => s

theorem getW_mem (sys : Sys) (wid : Nat) (w : Watcher) (h : getW sys wid = some w) :
    w ∈ sys.watchers := List.mem_of_find?_eq_some h

theorem sysCbId_setW (sys : Sys) (w : Watcher) (hs : sysCbId sys)
    (hw : w.cb = fun s => s) : sysCbId (setW sys w) := by
  intro x hx
  simp only [setW, List.mem_map] at hx
  obtain ⟨y, hy, hxy⟩ := hx
  subst hxy
  split
  · exact hw
  · exact hs y hy

theorem observerCallbackB_doc (sys : Sys) (w : Watcher) (recs : List MutationRec)
    (hw : w.cb = fun s => s) :
    docContent (observerCallbackB sys w recs).1.doc = docContent sys.doc := by
  simp only [observerCallbackB]
  split
  · rfl
  · rename_i b heq
    rw [hw]
    simp [docContent, absorbScan, heq, observerCallback_id_strip]

theorem observerCallbackB_watchers (sys : Sys) (w : Watcher)
    (recs : List MutationRec) :
    (observerCallbackB sys w recs).1.watchers = sys.watchers ∧
    (observerCallbackB sys w recs).2.cb = w.cb := by
  simp only [observerCallbackB]
  split
  · exact ⟨rfl, rfl⟩
  · exact ⟨rfl, rfl⟩

theorem runCallbackFor_pres (sys : Sys) (wid : Nat) (recs : List MutationRec)
    (hs : sysCbId sys) :
    docContent (runCallbackFor sys wid recs).doc = docContent sys.doc ∧
    sysCbId (runCallbackFor sys wid recs) := by
  simp only [runCallbackFor]
  split
  · exact ⟨rfl, hs⟩
  · rename_i w hw
    have hcb : w.cb = fun s => s := hs w (getW_mem sys wid w hw)
    constructor
    · exact observerCallbackB_doc sys w recs hcb
    · apply sysCbId_setW
      · intro x hx
        rw [(observerCallbackB_watchers sys w recs).1] at hx
        exact hs x hx
      · rw [(observerCallbackB_watchers sys w recs).2]
        exact hcb

theorem freezeLoop_cbId (f : Nat → List MutationRec → List MutationRec) :
    ∀ (wids : List Nat) (sys : Sys), sysCbId sys → sysCbId (freezeLoop f wids sys).1
  | [], _, hs => hs
  | wid :: rest, sys, hs => by
    simp only [freezeLoop]
    cases h : getW sys wid with
    | none => exact freezeLoop_cbId f rest sys hs
    | some w =>
      exact freezeLoop_cbId f rest _
        (sysCbId_setW sys _ hs (hs w (getW_mem sys wid w h)))

theorem dispatchLoop_pres :
    ∀ (l : List (Nat × List MutationRec)) (sys : Sys), sysCbId sys →
      docContent (dispatchLoop l sys).doc = docContent sys.doc ∧
      sysCbId (dispatchLoop l sys)
  | [], _, hs => ⟨rfl, hs⟩
  | (wid, recs) :: rest, sys, hs => by
    simp only [dispatchLoop]
    have h1 := runCallbackFor_pres sys wid recs hs
    have h2 := dispatchLoop_pres rest (runCallbackFor sys wid recs) h1.2
    exact ⟨h2.1.trans h1.1, h2.2⟩

theorem reobserveAll_pres (sys : Sys) (hs : sysCbId sys) :
    docContent (reobserveAll sys).doc = docContent sys.doc ∧
    sysCbId (reobserveAll sys) := by
  refine ⟨rfl, ?_⟩
  intro x hx
  simp only [reobserveAll, List.mem_map] at hx
  obtain ⟨y, hy, hxy⟩ := hx
  subst hxy
  split
  · exact hs y hy
  · exact hs y hy

theorem freezeDispatch_pres (sys : Sys)
    (f : Nat → List MutationRec → List MutationRec) (hs : sysCbId sys) :
    docContent (dispatchLoop (freezePhaseWith sys f).2 (freezePhaseWith sys f).1).doc =
      docContent sys.doc ∧
    sysCbId (dispatchLoop (freezePhaseWith sys f).2 (freezePhaseWith sys f).1) := by
  simp only [freezePhaseWith]
  have hfd : (freezeLoop f sys.registry sys).1.doc = sys.doc :=
    (freezeLoop_fields f sys.registry sys).1
  have hfc := freezeLoop_cbId f sys.registry sys hs
  have hd := dispatchLoop_pres (freezeLoop f sys.registry sys).2
    (freezeLoop f sys.registry sys).1 hfc
  exact ⟨hd.1.trans (by rw [hfd]), hd.2⟩

theorem deliver_pres (sys : Sys) (trig : Nat) (muts : List MutationRec)
    (hs : sysCbId sys) :
    docContent (deliver sys trig muts).doc = docContent sys.doc ∧
    sysCbId (deliver sys trig muts) := by
  simp only [deliver]
  have hd := freezeDispatch_pres sys (fun wid p => if wid == trig then muts else p) hs
  have hr := reobserveAll_pres _ hd.2
  exact ⟨hr.1.trans hd.1, hr.2⟩

theorem flushId_pres (sys : Sys) (hs : sysCbId sys) :
    docContent (flushAndSleepDuring sys (fun s => s)).doc = docContent sys.doc ∧
    sysCbId (flushAndSleepDuring sys (fun s => s)) := by
  simp only [flushAndSleepDuring]
  have hd := freezeDispatch_pres sys (fun _ p => p) hs
  have hr := reobserveAll_pres _ hd.2
  exact ⟨hr.1.trans hd.1, hr.2⟩

/-- Absorbing an identity-transform scan of the body leaves the document
    content unchanged. -/
theorem scanAbsorb_doc (s2 : Sys) (w1 : Watcher) (b : DomNode) (fuel : Nat)
    (clear : Bool) (hb : s2.doc.body = some b) (hw : w1.cb = fun s => s) :
    docContent (absorbScan
        { s2 with doc := { s2.doc with
            body := some (scanLoop w1.eff w1.cb clear fuel 0 b (scanStOf w1)).1 } }
        w1 (scanLoop w1.eff w1.cb clear fuel 0 b (scanStOf w1)).2).1.doc
      = docContent s2.doc := by
  simp [absorbScan, docContent, hb, hw, scanLoop_id_strip]

theorem constructRest_pres (sys : Sys) (w0 : Watcher) (tid : Nat) (pe : Bool)
    (hs : sysCbId sys) (hw : w0.cb = fun s => s) :
    docContent (constructRest sys w0 tid pe).1.doc = docContent sys.doc ∧
    sysCbId (constructRest sys w0 tid pe).1 := by
  simp only [constructRest]
  split
  · have hd := freezeDispatch_pres sys (fun _ q => q) hs
    split
    · rename_i b heq
      constructor
      · exact (scanAbsorb_doc _ { w0 with targets := [tid] } b _ false heq hw).trans hd.1
      · intro x hx
        rcases List.mem_append.mp hx with h | h
        · exact (reobserveAll_pres _ hd.2).2 x h
        · rw [List.mem_singleton.mp h]
          exact hw
    · constructor
      · exact hd.1
      · intro x hx
        rcases List.mem_append.mp hx with h | h
        · exact (reobserveAll_pres _ hd.2).2 x h
        · rw [List.mem_singleton.mp h]
          exact hw
  · constructor
    · rfl
    · intro x hx
      rcases List.mem_append.mp hx with h | h
      · exact hs x h
      · rw [List.mem_singleton.mp h]
        exact hw

theorem construct_pres (sys : Sys) (wid : Nat) (target : TargetSpec) (pe : Bool)
    (popts : Option PerfOptions) (hs : sysCbId sys) :
    docContent (construct sys wid (fun s => s) target pe popts).doc =
      docContent sys.doc ∧
    sysCbId (construct sys wid (fun s => s) target pe popts) := by
  cases target with
  | node tid =>
    simp only [construct]
    exact constructRest_pres sys _ tid pe hs rfl
  | wholeDocument =>
    simp only [construct]
    split
    · constructor
      · rfl
      · intro x hx
        rcases List.mem_append.mp hx with h | h
        · exact hs x h
        · rw [List.mem_singleton.mp h]
    · exact constructRest_pres _ _ _ pe hs rfl

theorem sysCbId_map (ws : List Watcher) (v : Nat) (w : Watcher)
    (hs : ∀ x ∈ ws, x.cb = fun s => s) (hw : w.cb = fun s => s) :
    ∀ x ∈ ws.map (fun y => if y.wid == v then w else y), x.cb = fun s => s := by
  intro x hx
  simp only [List.mem_map] at hx
  obtain ⟨z, hz, rfl⟩ := hx
  split
  · exact hw
  · exact hs z hz

theorem sysCbId_mapIf (ws : List Watcher) (reg : List Nat) (v : Nat) (w : Watcher)
    (hs : ∀ x ∈ ws, x.cb = fun s => s) (hw : w.cb = fun s => s) :
    ∀ x ∈ (ws.map (fun y => if y.wid == v then w else y)).map
        (fun y => if reg.contains y.wid then { y with observing := true } else y),
      x.cb = fun s => s := by
  intro x hx
  simp only [List.mem_map] at hx
  obtain ⟨y, ⟨z, hz, rfl⟩, rfl⟩ := hx
  split
  · split
    · exact hw
    · exact hw
  · split
    · exact hs z hz
    · exact hs z hz

theorem disconnectTail_pres (sys2 : Sys) (wid : Nat) (hc : sysCbId sys2) :
    docContent (disconnectTail sys2 wid).sys.doc = docContent sys2.doc ∧
    sysCbId (disconnectTail sys2 wid).sys := by
  simp only [disconnectTail]
  split
  · exact ⟨rfl, fun x hx => hc x hx⟩
  · rename_i w2 hgw
    split
    · refine ⟨rfl, fun x hx => ?_⟩
      refine sysCbId_map _ _ _ ?_ ?_ x hx
      · exact fun y hy => hc y hy
      · exact hc w2 (getW_mem _ wid w2 hgw)
    · exact ⟨rfl, fun x hx => hc x hx⟩

theorem reconnectTail_pres (sys2 : Sys) (wid : Nat) (hc : sysCbId sys2) :
    docContent (reconnectTail sys2 wid).sys.doc = docContent sys2.doc ∧
    sysCbId (reconnectTail sys2 wid).sys := by
  simp only [reconnectTail]
  split
  · exact ⟨rfl, fun x hx => hc x hx⟩
  · rename_i w2 hgw
    split
    · exact ⟨rfl, fun x hx => hc x hx⟩
    · refine ⟨rfl, fun x hx => ?_⟩
      refine sysCbId_map _ _ _ ?_ ?_ x hx
      · exact fun y hy => hc y hy
      · exact hc w2 (getW_mem _ wid w2 hgw)

theorem reprocessPhase_pres (sys1 : Sys) (wid : Nat) (hs1 : sysCbId sys1) :
    docContent (reprocessPhase sys1 wid).doc = docContent sys1.doc ∧
    sysCbId (reprocessPhase sys1 wid) := by
  simp only [reprocessPhase]
  have hd := freezeDispatch_pres sys1 (fun _ q => q) hs1
  split
  · rename_i w1 b hw1 hb
    have hcb1 : w1.cb = fun s => s := hd.2 w1 (getW_mem _ wid w1 hw1)
    refine ⟨(scanAbsorb_doc _ w1 b _ true hb hcb1).trans hd.1, fun x hx => ?_⟩
    refine sysCbId_mapIf _ _ _ _ ?_ ?_ x hx
    · exact fun y hy => hd.2 y hy
    · exact hcb1
  · exact ⟨hd.1, fun x hx => (reobserveAll_pres _ (fun y hy => hd.2 y hy)).2 x hx⟩

theorem disconnectW_pres (sys : Sys) (wid : Nat) (flush : Bool) (hs : sysCbId sys) :
    docContent (disconnectW sys wid flush).sys.doc = docContent sys.doc ∧
    sysCbId (disconnectW sys wid flush).sys := by
  simp only [disconnectW]
  split
  · exact ⟨rfl, hs⟩
  · rename_i w hw
    split
    · exact ⟨rfl, fun x hx => hs x hx⟩
    · have hcb := hs w (getW_mem sys wid w hw)
      have hs1 : sysCbId (setW sys { w with connected := false }) :=
        sysCbId_setW sys _ hs hcb
      cases flush with
      | true =>
        have h2 := flushId_pres _ hs1
        have ht := disconnectTail_pres _ wid h2.2
        exact ⟨ht.1.trans h2.1, ht.2⟩
      | false =>
        have ht := disconnectTail_pres _ wid hs1
        exact ⟨ht.1, ht.2⟩

theorem reconnectW_pres (sys : Sys) (wid : Nat) (rp : Bool) (hs : sysCbId sys) :
    docContent (reconnectW sys wid rp).sys.doc = docContent sys.doc ∧
    sysCbId (reconnectW sys wid rp).sys := by
  simp only [reconnectW]
  split
  · exact ⟨rfl, hs⟩
  · rename_i w hw
    split
    · exact ⟨rfl, fun x hx => hs x hx⟩
    · have hcb := hs w (getW_mem sys wid w hw)
      have hs1 : sysCbId (setW sys { w with connected := true }) :=
        sysCbId_setW sys _ hs hcb
      cases rp with
      | false =>
        have ht := reconnectTail_pres _ wid hs1
        exact ⟨ht.1, ht.2⟩
      | true =>
        have hp := reprocessPhase_pres (setW sys { w with connected := true }) wid hs1
        have ht := reconnectTail_pres _ wid hp.2
        exact ⟨ht.1.trans hp.1, ht.2⟩

/-- One public operation on the world, the caller-supplied transform fixed to
    the identity function on strings. -/
inductive SysOp where
  | construct (wid : Nat) (target : TargetSpec) (processExisting : Bool)
      (popts : Option PerfOptions)
  | deliver (trig : Nat) (muts : List MutationRec)
  | disconnect (wid : Nat) (flush : Bool)
  | reconnect (wid : Nat) (reprocess : Bool)

/-- Apply one operation to the world. -/
def applyOp (sys : Sys) : SysOp → Sys
  | .construct wid target pe popts => construct sys wid (fun s => s) target pe popts
  | .deliver trig muts => deliver sys trig muts
  | .disconnect wid flush => (disconnectW sys wid flush).sys
  | .reconnect wid rp => (reconnectW sys wid rp).sys

/-- Run a sequence of operations left to right. -/
def runOps (sys : Sys) : List SysOp → Sys
  | [] => sys
  | op :: rest => runOps (applyOp sys op) rest

theorem applyOp_pres (sys : Sys) (op : SysOp) (hs : sysCbId sys) :
    docContent (applyOp sys op).doc = docContent sys.doc ∧
    sysCbId (applyOp sys op) := by
  cases op with
  | construct wid target pe popts => exact construct_pres sys wid target pe popts hs
  | deliver trig muts => exact deliver_pres sys trig muts hs
  | disconnect wid flush => exact disconnectW_pres sys wid flush hs
  | reconnect wid rp => exact reconnectW_pres sys wid rp hs

/-- C9: if the caller-supplied transform is the identity function on strings
    (for every constructed watcher), then after any sequence of operations —
    construction with initial scan, batch deliveries, disconnect, reconnect —
    the document content is observably unchanged: the title and every text
    unit and watched attribute of the body tree keep their values (the tree
    is compared up to the cosmetic marker class lists of the CSS section). -/
theorem c9_theorem (sys : Sys) (ops : List SysOp) (hs : sysCbId sys) :
    docContent (runOps sys ops).doc = docContent sys.doc := by
  induction ops generalizing sys with
  | nil => rfl
  | cons op rest ih =>
    have h := applyOp_pres sys op hs
    exact (ih (applyOp sys op) h.2).trans h.1

/-- Fixture: a fresh world with a body holding a text unit and a watched
    attribute, no watchers yet. -/
def c9Sys0 : Sys :=
  { watchers := [], registry := [],
    doc := { title := "Title",
             body := some (.element (mkElem 0 "BODY" [] none)
               [.text 1 "hello",
                .element (mkElem 2 "INPUT" [("placeholder", "hi")] none) [] []] []),
             styles := [] },
    log := [], warnings := [] }

/-- Fixture: construct with initial scan, deliver a batch, disconnect with
    flush, reconnect with reprocess. -/
def c9Ops : List SysOp :=
  [.construct 7 .wholeDocument true none,
   .deliver 7 [.characterData 1 none, .attributes 2 "placeholder"],
   .disconnect 7 true,
   .reconnect 7 true]

theorem c9_witness :
    sysCbId c9Sys0 ∧
    docContent (runOps c9Sys0 c9Ops).doc = docContent c9Sys0.doc := by
  have hyp : sysCbId c9Sys0 := by
    intro w hw
    simp [c9Sys0] at hw
  exact ⟨hyp, c9_theorem c9Sys0 c9Ops hyp⟩

/-- The attribute names of the static watch table. -/
def watchedNames : List String := WATCHED_ATTRIBUTES.map (·.1)

/-- A selector consults, besides tag names, only attributes outside the watch
    table (true of every selector in the static table). -/
def selOk : Sel → Bool
  | .tagSel _ => true
  | .tagAttrSel _ a _ => !(watchedNames.contains a)
  | .attrValSel a _ => !(watchedNames.contains a)
  | .univ => true

def selOkL (sels : List Sel) : Bool := sels.all selOk

def tableOk (pairs : List (String × List Sel)) : Bool :=
  pairs.all (fun p => watchedNames.contains p.1 && selOkL p.2)

/-- The scan view of an element: watched attribute values erased (they are
    the only element fields a css-free scan rewrites). -/
def maskVal (p : String × String) : String × String :=
  (p.1, if watchedNames.contains p.1 then "" else p.2)

def viewD (d : ElemData) : ElemData := { d with attrs := d.attrs.map maskVal }

mutual
/-- The scan view of a tree: text values and watched attribute values erased;
    everything a css-free scan can rewrite is masked, everything it reads is
    kept. -/
def viewN : DomNode → DomNode
  | .text i _ => .text i ""
  | .element d ch sh => .element (viewD d) (viewL ch) (viewL sh)
  | n => n
def viewL : List DomNode → List DomNode
  | [] => []
  | n :: ns => viewN n :: viewL ns
end

mutual
/-- The ids of the valid text units of a forest of siblings under a parent
    with context pc, in tree-walker order. -/
def textUnitsN (eff : ETFlags) (pc : ParentCtx) : DomNode → List Nat
  | .text i v => if validIn eff pc (.text i v) then [i] else []
  | .element d ch _ => textUnitsL eff (ctxOf d) ch
  | _ => []
def textUnitsL (eff : ETFlags) (pc : ParentCtx) : List DomNode → List Nat
  | [] => []
  | n :: ns => textUnitsN eff pc n ++ textUnitsL eff pc ns
end

/-- The watched-attribute unit an element contributes for one table entry:
    present iff the element matches the entry's selectors and carries the
    attribute (empty value included). -/
def attrUnitsOfElem (a : String) (sels : List Sel) (d : ElemData) : List RewriteUnit :=
  if matchesAny d sels then
    match getAttr d.attrs a with
    | some _ => [.attrUnit d.id a]
    | none => []
  else []

mutual
/-- The watched-attribute units of one table entry over a node and its light
    descendants, in document order. -/
def attrUnitsN (a : String) (sels : List Sel) : DomNode → List RewriteUnit
  | .element d ch _ => attrUnitsOfElem a sels d ++ attrUnitsL a sels ch
  | _ => []
def attrUnitsL (a : String) (sels : List Sel) : List DomNode → List RewriteUnit
  | [] => []
  | n :: ns => attrUnitsN a sels n ++ attrUnitsL a sels ns
end

/-- The watched-attribute units of a forest, one table entry after another. -/
def attrUnitsAll (pairs : List (String × List Sel)) (ns : List DomNode) :
    List RewriteUnit :=
  match pairs with
  | [] => []
  | (a, sels) :: rest => attrUnitsL a sels ns ++ attrUnitsAll rest ns

mutual
/-- The element ids of a node and its light descendants. -/
def elemIdsN : DomNode → List Nat
  | .element d ch _ => d.id :: elemIdsL ch
  | _ => []
def elemIdsL : List DomNode → List Nat
  | [] => []
  | n :: ns => elemIdsN n ++ elemIdsL ns
end

mutual
/-- The ids of the elements matching a selector list, light, document order. -/
def matchIdsN (sels : List Sel) : DomNode → List Nat
  | .element d ch _ =>
    (if matchesAny d sels then [d.id] else []) ++ matchIdsL sels ch
  | _ => []
def matchIdsL (sels : List Sel) : List DomNode → List Nat
  | [] => []
  | n :: ns => matchIdsN sels n ++ matchIdsL sels ns
end

mutual
/-- Every id of a subtree: node ids, shadow root ids and shadow content. -/
def allIdsN : DomNode → List Nat
  | .text i _ => [i]
  | .comment i _ => [i]
  | .cdata i _ => [i]
  | .pi i _ => [i]
  | .element d ch sh =>
    d.id :: ((match d.shadowId with | some sid => [sid] | none => []) ++
      (allIdsL ch ++ allIdsL sh))
def allIdsL : List DomNode → List Nat
  | [] => []
  | n :: ns => allIdsN n ++ allIdsL ns
end

mutual
/-- The ids of the shadow hosts of the light tree (the elements the shadow
    walker accepts). -/
def hostIdsN : DomNode → List Nat
  | .element d ch _ =>
    (if d.shadowId.isSome then [d.id] else []) ++ hostIdsL ch
  | _ => []
def hostIdsL : List DomNode → List Nat
  | [] => []
  | n :: ns => hostIdsN n ++ hostIdsL ns
end

mutual
/-- Every id that lives inside a shadow subtree of a light-reachable host. -/
def shadowIdsN : DomNode → List Nat
  | .element d ch sh =>
    (match d.shadowId with | some sid => sid :: allIdsL sh | none => []) ++
      shadowIdsL ch
  | _ => []
def shadowIdsL : List DomNode → List Nat
  | [] => []
  | n :: ns => shadowIdsN n ++ shadowIdsL ns
end

mutual
/-- The transform invocations contributed by the shadow section's walk over a
    forest: for each host, its shadow subtree's own text, attribute and
    nested-shadow units in scan order. -/
def sweepUnitsN (eff : ETFlags) : DomNode → List RewriteUnit
  | .element d ch sh =>
    (match d.shadowId with
     | some _ =>
       (textUnitsL eff shadowCtx sh).map .textUnit
       ++ attrUnitsAll WATCHED_ATTRIBUTES sh
       ++ sweepUnitsL eff sh
     | none => []) ++ sweepUnitsL eff ch
  | _ => []
def sweepUnitsL (eff : ETFlags) : List DomNode → List RewriteUnit
  | [] => []
  | n :: ns => sweepUnitsN eff n ++ sweepUnitsL eff ns
end

/-- The exact transform-invocation list of a cold scan: the valid text units
    of the root's descendants, then the watched-attribute units of the strict
    descendants, then the root's own shadow units, then the nested shadow
    subtrees found by the walk. -/
def scanUnitsRoot (eff : ETFlags) : DomNode → List RewriteUnit
  | .element d ch sh =>
    (textUnitsL eff (ctxOf d) ch).map .textUnit
    ++ attrUnitsAll WATCHED_ATTRIBUTES ch
    ++ (match d.shadowId with
        | some _ =>
          (textUnitsL eff shadowCtx sh).map .textUnit
          ++ attrUnitsAll WATCHED_ATTRIBUTES sh
          ++ sweepUnitsL eff sh
        | none => [])
    ++ sweepUnitsL eff ch
  | _ => []

/-- The reading of the claim with the root included among the reachable
    attribute-bearing elements (the spec counts every unit reachable from the
    root). -/
def specAttrUnitsAll (pairs : List (String × List Sel)) (root : DomNode) :
    List RewriteUnit :=
  match pairs with
  | [] => []
  | (a, sels) :: rest => attrUnitsN a sels root ++ specAttrUnitsAll rest root

/-- The spec-side unit list of a cold scan, counting the root's own watched
    attributes among the reachable units. -/
def specScanUnits (eff : ETFlags) (root : DomNode) : List RewriteUnit :=
  match root with
  | .element d ch sh =>
    (textUnitsL eff (ctxOf d) ch).map .textUnit
    ++ specAttrUnitsAll WATCHED_ATTRIBUTES (.element d ch sh)
    ++ (match d.shadowId with
        | some _ =>
          (textUnitsL eff shadowCtx sh).map .textUnit
          ++ attrUnitsAll WATCHED_ATTRIBUTES sh
          ++ sweepUnitsL eff sh
        | none => [])
    ++ sweepUnitsL eff ch
  | _ => []

/-- Common bookkeeping of one scan phase: the log grows by exactly the given
    units, styles are untouched, and the processed and targets sets only grow,
    by ids drawn from the given bound. -/
structure stepOk (a b : ScanSt) (units : List RewriteUnit) (bound : List Nat) : Prop where
  logEq : b.log = a.log ++ units
  stylesEq : b.styles = a.styles
  procMono : ∀ i ∈ a.processed, i ∈ b.processed
  procBound : ∀ i ∈ b.processed, i ∈ a.processed ∨ i ∈ bound
  tgtMono : ∀ i ∈ a.targets, i ∈ b.targets
  tgtBound : ∀ i ∈ b.targets, i ∈ a.targets ∨ i ∈ bound

theorem stepOk_refl (a : ScanSt) (bound : List Nat) : stepOk a a [] bound :=
  ⟨(List.append_nil _).symm, rfl, fun _ h => h, fun _ h => Or.inl h,
   fun _ h => h, fun _ h => Or.inl h⟩

theorem stepOk_trans {a b c : ScanSt} {l1 l2 : List RewriteUnit}
    {b1 b2 : List Nat} (h1 : stepOk a b l1 b1) (h2 : stepOk b c l2 b2) :
    stepOk a c (l1 ++ l2) (b1 ++ b2) := by
  obtain ⟨hl1, hs1, hpm1, hpu1, htm1, htu1⟩ := h1
  obtain ⟨hl2, hs2, hpm2, hpu2, htm2, htu2⟩ := h2
  refine ⟨by rw [hl2, hl1, List.append_assoc], hs2.trans hs1,
    fun i h => hpm2 i (hpm1 i h), ?_, fun i h => htm2 i (htm1 i h), ?_⟩
  · intro i h
    rcases hpu2 i h with h' | h'
    · rcases hpu1 i h' with h'' | h''
      · exact Or.inl h''
      · exact Or.inr (List.mem_append.mpr (Or.inl h''))
    · exact Or.inr (List.mem_append.mpr (Or.inr h'))
  · intro i h
    rcases htu2 i h with h' | h'
    · rcases htu1 i h' with h'' | h''
      · exact Or.inl h''
      · exact Or.inr (List.mem_append.mpr (Or.inl h''))
    · exact Or.inr (List.mem_append.mpr (Or.inr h'))

theorem stepOk_bound {a b : ScanSt} {l : List RewriteUnit} {b1 b2 : List Nat}
    (h : stepOk a b l b1) (hb : ∀ i ∈ b1, i ∈ b2) : stepOk a b l b2 := by
  obtain ⟨hl, hs, hpm, hpu, htm, htu⟩ := h
  refine ⟨hl, hs, hpm, fun i hi => ?_, htm, fun i hi => ?_⟩
  · rcases hpu i hi with h' | h'
    · exact Or.inl h'
    · exact Or.inr (hb i h')
  · rcases htu i hi with h' | h'
    · exact Or.inl h'
    · exact Or.inr (hb i h')

theorem getAttr_mask (m : AttrMap) (a : String) :
    getAttr (m.map maskVal) a =
      (getAttr m a).map (fun v => if watchedNames.contains a then "" else v) := by
  induction m with
  | nil => rfl
  | cons p rest ih =>
    by_cases hp : (p.1 == a) = true
    · have ha : p.1 = a := by simpa using hp
      simp [getAttr, List.find?, maskVal, hp, ha]
    · simp only [List.map, getAttr, List.find?, maskVal] at *
      simp only [hp]
      exact ih

theorem getAttr_mask_notWatched (m : AttrMap) (a : String)
    (h : watchedNames.contains a = false) :
    getAttr (m.map maskVal) a = getAttr m a := by
  rw [getAttr_mask, h]
  cases getAttr m a <;> rfl

theorem getAttr_mask_isSome (m : AttrMap) (a : String) :
    (getAttr (m.map maskVal) a).isSome = (getAttr m a).isSome := by
  rw [getAttr_mask]
  cases getAttr m a <;> rfl

theorem ctxOf_viewD (d : ElemData) : ctxOf (viewD d) = ctxOf d := rfl

theorem viewD_id (d : ElemData) : (viewD d).id = d.id := rfl

theorem viewD_shadowId (d : ElemData) : (viewD d).shadowId = d.shadowId := rfl

theorem viewD_attrs (d : ElemData) : (viewD d).attrs = d.attrs.map maskVal := rfl

theorem matchesSel_viewD (d : ElemData) (s : Sel) (hs : selOk s = true) :
    matchesSel (viewD d) s = matchesSel d s := by
  cases s with
  | tagSel t => rfl
  | univ => rfl
  | tagAttrSel t a v =>
    simp only [selOk, Bool.not_eq_true'] at hs
    simp only [matchesSel, viewD]
    rw [getAttr_mask_notWatched d.attrs a hs]
  | attrValSel a v =>
    simp only [selOk, Bool.not_eq_true'] at hs
    simp only [matchesSel, viewD]
    rw [getAttr_mask_notWatched d.attrs a hs]

theorem matchesAny_viewD (d : ElemData) (sels : List Sel)
    (hs : selOkL sels = true) : matchesAny (viewD d) sels = matchesAny d sels := by
  simp only [selOkL, List.all_eq_true] at hs
  simp only [matchesAny]
  induction sels with
  | nil => rfl
  | cons x xs ih =>
    simp only [List.any]
    rw [matchesSel_viewD d x (hs x (by simp)), ih (fun y hy => hs y (by simp [hy]))]

theorem attrUnitsOfElem_viewD (a : String) (sels : List Sel) (d : ElemData)
    (hs : selOkL sels = true) :
    attrUnitsOfElem a sels (viewD d) = attrUnitsOfElem a sels d := by
  simp only [attrUnitsOfElem, matchesAny_viewD d sels hs, viewD_id, viewD_attrs]
  rw [getAttr_mask d.attrs a]
  cases getAttr d.attrs a <;> rfl

mutual
theorem textUnitsN_view (eff : ETFlags) (pc : ParentCtx) (n : DomNode) :
    textUnitsN eff pc (viewN n) = textUnitsN eff pc n := by
  cases n with
  | text i v => simp [viewN, textUnitsN, validIn, nodeTypeIgnored]
  | element d ch sh =>
    simp only [viewN, textUnitsN, ctxOf_viewD]
    exact textUnitsL_view eff (ctxOf d) ch
  | comment i v => rfl
  | cdata i v => rfl
  | pi i v => rfl
theorem textUnitsL_view (eff : ETFlags) (pc : ParentCtx) (ns : List DomNode) :
    textUnitsL eff pc (viewL ns) = textUnitsL eff pc ns := by
  cases ns with
  | nil => rfl
  | cons n rest =>
    simp only [viewL, textUnitsL]
    rw [textUnitsN_view eff pc n, textUnitsL_view eff pc rest]
end

mutual
theorem attrUnitsN_view (a : String) (sels : List Sel) (n : DomNode)
    (hs : selOkL sels = true) :
    attrUnitsN a sels (viewN n) = attrUnitsN a sels n := by
  cases n with
  | element d ch sh =>
    simp only [viewN, attrUnitsN]
    rw [attrUnitsOfElem_viewD a sels d hs, attrUnitsL_view a sels ch hs]
  | text i v => rfl
  | comment i v => rfl
  | cdata i v => rfl
  | pi i v => rfl
theorem attrUnitsL_view (a : String) (sels : List Sel) (ns : List DomNode)
    (hs : selOkL sels = true) :
    attrUnitsL a sels (viewL ns) = attrUnitsL a sels ns := by
  cases ns with
  | nil => rfl
  | cons n rest =>
    simp only [viewL, attrUnitsL]
    rw [attrUnitsN_view a sels n hs, attrUnitsL_view a sels rest hs]
end

theorem attrUnitsAll_view (pairs : List (String × List Sel)) (ns : List DomNode)
    (ht : tableOk pairs = true) :
    attrUnitsAll pairs (viewL ns) = attrUnitsAll pairs ns := by
  induction pairs with
  | nil => rfl
  | cons p rest ih =>
    simp only [tableOk, List.all_eq_true] at ht
    obtain ⟨a, sels⟩ := p
    simp only [attrUnitsAll]
    have hp := ht (a, sels) (by simp)
    simp only [Bool.and_eq_true] at hp
    rw [attrUnitsL_view a sels ns hp.2]
    congr 1
    apply ih
    simp only [tableOk, List.all_eq_true]
    intro q hq
    exact ht q (by simp [hq])

mutual
theorem elemIdsN_view (n : DomNode) : elemIdsN (viewN n) = elemIdsN n := by
  cases n with
  | element d ch sh =>
    simp only [viewN, elemIdsN, viewD_id]
    rw [elemIdsL_view ch]
  | text i v => rfl
  | comment i v => rfl
  | cdata i v => rfl
  | pi i v => rfl
theorem elemIdsL_view (ns : List DomNode) : elemIdsL (viewL ns) = elemIdsL ns := by
  cases ns with
  | nil => rfl
  | cons n rest =>
    simp only [viewL, elemIdsL]
    rw [elemIdsN_view n, elemIdsL_view rest]
end

mutual
theorem allIdsN_view (n : DomNode) : allIdsN (viewN n) = allIdsN n := by
  cases n with
  | element d ch sh =>
    simp only [viewN, allIdsN, viewD_id, viewD_shadowId]
    rw [allIdsL_view ch, allIdsL_view sh]
  | text i v => rfl
  | comment i v => rfl
  | cdata i v => rfl
  | pi i v => rfl
theorem allIdsL_view (ns : List DomNode) : allIdsL (viewL ns) = allIdsL ns := by
  cases ns with
  | nil => rfl
  | cons n rest =>
    simp only [viewL, allIdsL]
    rw [allIdsN_view n, allIdsL_view rest]
end

mutual
theorem hostIdsN_view (n : DomNode) : hostIdsN (viewN n) = hostIdsN n := by
  cases n with
  | element d ch sh =>
    simp only [viewN, hostIdsN, viewD_id, viewD_shadowId]
    rw [hostIdsL_view ch]
  | text i v => rfl
  | comment i v => rfl
  | cdata i v => rfl
  | pi i v => rfl
theorem hostIdsL_view (ns : List DomNode) : hostIdsL (viewL ns) = hostIdsL ns := by
  cases ns with
  | nil => rfl
  | cons n rest =>
    simp only [viewL, hostIdsL]
    rw [hostIdsN_view n, hostIdsL_view rest]
end

mutual
theorem shadowIdsN_view (n : DomNode) : shadowIdsN (viewN n) = shadowIdsN n := by
  cases n with
  | element d ch sh =>
    simp only [viewN, shadowIdsN, viewD_shadowId]
    rw [allIdsL_view sh, shadowIdsL_view ch]
  | text i v => rfl
  | comment i v => rfl
  | cdata i v => rfl
  | pi i v => rfl
theorem shadowIdsL_view (ns : List DomNode) : shadowIdsL (viewL ns) = shadowIdsL ns := by
  cases ns with
  | nil => rfl
  | cons n rest =>
    simp only [viewL, shadowIdsL]
    rw [shadowIdsN_view n, shadowIdsL_view rest]
end

mutual
theorem matchIdsN_view (sels : List Sel) (n : DomNode) (hs : selOkL sels = true) :
    matchIdsN sels (viewN n) = matchIdsN sels n := by
  cases n with
  | element d ch sh =>
    simp only [viewN, matchIdsN, viewD_id]
    rw [matchesAny_viewD d sels hs, matchIdsL_view sels ch hs]
  | text i v => rfl
  | comment i v => rfl
  | cdata i v => rfl
  | pi i v => rfl
theorem matchIdsL_view (sels : List Sel) (ns : List DomNode) (hs : selOkL sels = true) :
    matchIdsL sels (viewL ns) = matchIdsL sels ns := by
  cases ns with
  | nil => rfl
  | cons n rest =>
    simp only [viewL, matchIdsL]
    rw [matchIdsN_view sels n hs, matchIdsL_view sels rest hs]
end

mutual
theorem sweepUnitsN_view (eff : ETFlags) (n : DomNode) :
    sweepUnitsN eff (viewN n) = sweepUnitsN eff n := by
  cases n with
  | element d ch sh =>
    simp only [viewN, sweepUnitsN]
    have hsid : (viewD d).shadowId = d.shadowId := rfl
    rw [hsid, sweepUnitsL_view eff ch]
    congr 1
    cases d.shadowId with
    | none => rfl
    | some sid =>
      rw [textUnitsL_view eff shadowCtx sh,
          attrUnitsAll_view WATCHED_ATTRIBUTES sh (by decide),
          sweepUnitsL_view eff sh]
  | text i v => rfl
  | comment i v => rfl
  | cdata i v => rfl
  | pi i v => rfl
theorem sweepUnitsL_view (eff : ETFlags) (ns : List DomNode) :
    sweepUnitsL eff (viewL ns) = sweepUnitsL eff ns := by
  cases ns with
  | nil => rfl
  | cons n rest =>
    simp only [viewL, sweepUnitsL]
    rw [sweepUnitsN_view eff n, sweepUnitsL_view eff rest]
end

theorem contains_iff (l : List Nat) (x : Nat) : l.contains x = true ↔ x ∈ l :=
  List.elem_iff

theorem containsS_iff (l : List String) (x : String) : l.contains x = true ↔ x ∈ l :=
  List.elem_iff

mutual
/-- The text walk is the identity when every valid text unit in range is
    already in the processed set. -/
theorem textPassNode_covered (eff : ETFlags) (cb : String → String)
    (pc : ParentCtx) (n : DomNode) (st : ScanSt)
    (h : ∀ i ∈ textUnitsN eff pc n, i ∈ st.processed) :
    textPassNode eff cb pc n st = (n, st) := by
  cases n with
  | text i v =>
    simp only [textPassNode]
    by_cases hv : validIn eff pc (.text i v) = true
    · have hm : i ∈ st.processed := h i (by simp [textUnitsN, hv])
      have hi : st.processed.contains i = true := (contains_iff _ _).mpr hm
      simp [hv, hi, hm]
    · simp [hv]
  | element d ch sh =>
    simp only [textPassNode]
    rw [textPassList_covered eff cb (ctxOf d) ch st
      (fun i hi => h i (by simpa [textUnitsN] using hi))]
  | comment i v => rfl
  | cdata i v => rfl
  | pi i v => rfl
theorem textPassList_covered (eff : ETFlags) (cb : String → String)
    (pc : ParentCtx) (ns : List DomNode) (st : ScanSt)
    (h : ∀ i ∈ textUnitsL eff pc ns, i ∈ st.processed) :
    textPassList eff cb pc ns st = (ns, st) := by
  cases ns with
  | nil => rfl
  | cons n rest =>
    simp only [textPassList]
    rw [textPassNode_covered eff cb pc n st
      (fun i hi => h i (by simp [textUnitsL, hi])),
      textPassList_covered eff cb pc rest st
      (fun i hi => h i (by simp [textUnitsL, hi]))]
end

mutual
/-- The text walk over fresh units: every valid unprocessed text unit is
    rewritten, logged and marked, in tree-walker order; the tree changes only
    in text values. -/
theorem textPassNode_fresh (eff : ETFlags) (cb : String → String)
    (pc : ParentCtx) (n : DomNode) (st : ScanSt)
    (hdisj : ∀ i ∈ textUnitsN eff pc n, i ∉ st.processed)
    (hnd : (textUnitsN eff pc n).Nodup) :
    viewN (textPassNode eff cb pc n st).1 = viewN n
    ∧ (textPassNode eff cb pc n st).2 =
        { st with processed := st.processed ++ textUnitsN eff pc n,
                  log := st.log ++ (textUnitsN eff pc n).map .textUnit } := by
  cases n with
  | text i v =>
    simp only [textPassNode]
    by_cases hv : validIn eff pc (.text i v) = true
    · have hi : i ∉ st.processed := hdisj i (by simp [textUnitsN, hv])
      have hc : st.processed.contains i = false := by
        cases hcc : st.processed.contains i with
        | false => rfl
        | true => exact absurd ((contains_iff _ _).mp hcc) hi
      simp [hv, hc, hi, textUnitsN, viewN]
    · simp [hv, textPassNode, textUnitsN]
  | element d ch sh =>
    simp only [textPassNode]
    have h := textPassList_fresh eff cb (ctxOf d) ch st
      (fun i hi => hdisj i (by simpa [textUnitsN] using hi))
      (by simpa [textUnitsN] using hnd)
    exact ⟨by simp only [viewN]; rw [h.1], by rw [h.2]; rfl⟩
  | comment i v => exact ⟨rfl, by simp [textPassNode, textUnitsN]⟩
  | cdata i v => exact ⟨rfl, by simp [textPassNode, textUnitsN]⟩
  | pi i v => exact ⟨rfl, by simp [textPassNode, textUnitsN]⟩
theorem textPassList_fresh (eff : ETFlags) (cb : String → String)
    (pc : ParentCtx) (ns : List DomNode) (st : ScanSt)
    (hdisj : ∀ i ∈ textUnitsL eff pc ns, i ∉ st.processed)
    (hnd : (textUnitsL eff pc ns).Nodup) :
    viewL (textPassList eff cb pc ns st).1 = viewL ns
    ∧ (textPassList eff cb pc ns st).2 =
        { st with processed := st.processed ++ textUnitsL eff pc ns,
                  log := st.log ++ (textUnitsL eff pc ns).map .textUnit } := by
  cases ns with
  | nil => exact ⟨rfl, by simp [textPassList, textUnitsL]⟩
  | cons n rest =>
    simp only [textPassList]
    have hndp := (List.nodup_append.mp (by simpa [textUnitsL] using hnd))
    have h1 := textPassNode_fresh eff cb pc n st
      (fun i hi => hdisj i (by simp [textUnitsL, hi])) hndp.1
    have h2 := textPassList_fresh eff cb pc rest (textPassNode eff cb pc n st).2
      (by
        rw [h1.2]
        intro i hi
        simp only [List.mem_append]
        push_neg
        exact ⟨hdisj i (by simp [textUnitsL, hi]),
          fun hin => hndp.2.2 hin hi⟩)
      hndp.2.1
    constructor
    · simp only [viewL]
      rw [h1.1, h2.1]
    · rw [h2.2, h1.2]
      simp [textUnitsL, List.append_assoc]
end

theorem addOnce_mem (l : List Nat) (y x : Nat) : x ∈ addOnce l y ↔ x ∈ l ∨ x = y := by
  simp only [addOnce]
  split
  · rename_i h
    constructor
    · exact Or.inl
    · rintro (h' | rfl)
      · exact h'
      · exact (contains_iff _ _).mp h
  · simp

theorem mask_setAttr (m : AttrMap) (a v : String)
    (hw : watchedNames.contains a = true)
    (hp : (getAttr m a).isSome = true) :
    (setAttr m a v).map maskVal = m.map maskVal := by
  induction m with
  | nil => simp [getAttr] at hp
  | cons p rest ih =>
    by_cases hpa : (p.1 == a) = true
    · have ha : p.1 = a := by simpa using hpa
      simp [setAttr, hpa, maskVal, ha, hw, (containsS_iff _ _).mp hw]
    · simp only [setAttr, hpa, Bool.false_eq_true, if_false, List.map_cons,
        List.cons.injEq, true_and]
      apply ih
      simp only [getAttr, List.find?] at hp
      simp only [hpa] at hp
      exact hp

mutual
/-- One attribute pass is the identity when every element in range is in the
    processed set. -/
theorem attrPassNode_covered (cb : String → String) (aname : String)
    (sels : List Sel) (n : DomNode) (st : ScanSt) (temp : List Nat)
    (h : ∀ i ∈ elemIdsN n, i ∈ st.processed) :
    attrPassNode cb aname sels n (st, temp) = (n, (st, temp)) := by
  cases n with
  | element d ch sh =>
    have hc : st.processed.contains d.id = true :=
      (contains_iff _ _).mpr (h d.id (by simp [elemIdsN]))
    simp only [attrPassNode, hc, Bool.not_true, Bool.and_false, Bool.false_eq_true,
      if_false]
    rw [attrPassList_covered cb aname sels ch st temp
      (fun i hi => h i (by simp [elemIdsN, hi]))]
  | text i v => rfl
  | comment i v => rfl
  | cdata i v => rfl
  | pi i v => rfl
theorem attrPassList_covered (cb : String → String) (aname : String)
    (sels : List Sel) (ns : List DomNode) (st : ScanSt) (temp : List Nat)
    (h : ∀ i ∈ elemIdsL ns, i ∈ st.processed) :
    attrPassList cb aname sels ns (st, temp) = (ns, (st, temp)) := by
  cases ns with
  | nil => rfl
  | cons n rest =>
    simp only [attrPassList]
    rw [attrPassNode_covered cb aname sels n st temp
      (fun i hi => h i (by simp [elemIdsL, hi]))]
    rw [attrPassList_covered cb aname sels rest st temp
      (fun i hi => h i (by simp [elemIdsL, hi]))]
end

mutual
/-- One attribute pass over fresh elements: the attribute of every matching
    element is rewritten and logged when present, every matching element is
    collected into the temporary set, and the tree changes only in watched
    attribute values. -/
theorem attrPassNode_fresh (cb : String → String) (aname : String)
    (sels : List Sel) (n : DomNode) (st : ScanSt) (temp : List Nat)
    (hw : watchedNames.contains aname = true) (hs : selOkL sels = true)
    (hdisj : ∀ i ∈ elemIdsN n, i ∉ st.processed) :
    viewN (attrPassNode cb aname sels n (st, temp)).1 = viewN n
    ∧ (attrPassNode cb aname sels n (st, temp)).2.1 =
        { st with log := st.log ++ attrUnitsN aname sels n }
    ∧ (∀ x, x ∈ (attrPassNode cb aname sels n (st, temp)).2.2 ↔
        x ∈ temp ∨ x ∈ matchIdsN sels n) := by
  cases n with
  | element d ch sh =>
    have hid : d.id ∉ st.processed := hdisj d.id (by simp [elemIdsN])
    have hc : st.processed.contains d.id = false := by
      cases hcc : st.processed.contains d.id with
      | false => rfl
      | true => exact absurd ((contains_iff _ _).mp hcc) hid
    simp only [attrPassNode, hc, Bool.not_false, Bool.and_true]
    cases hm : matchesAny d sels with
    | false =>
      simp only [Bool.false_eq_true, if_false]
      have hrec := attrPassList_fresh cb aname sels ch st temp hw hs
        (fun i hi => hdisj i (by simp [elemIdsN, hi]))
      refine ⟨?_, ?_, ?_⟩
      · simp only [viewN]
        rw [hrec.1]
      · rw [hrec.2.1]
        simp [attrUnitsN, attrUnitsOfElem, hm]
      · intro x
        rw [hrec.2.2 x]
        simp [matchIdsN, hm]
    | true =>
      simp only [if_true]
      cases hg : getAttr d.attrs aname with
      | some v =>
        have hrec := attrPassList_fresh cb aname sels ch
          { st with log := st.log ++ [.attrUnit d.id aname] } (addOnce temp d.id)
          hw hs (fun i hi => hdisj i (by simp [elemIdsN, hi]))
        refine ⟨?_, ?_, ?_⟩
        · simp only [viewN]
          rw [hrec.1]
          simp only [viewD]
          rw [mask_setAttr d.attrs aname (cb v) hw (by rw [hg]; rfl)]
        · rw [hrec.2.1]
          simp [attrUnitsN, attrUnitsOfElem, hm, hg]
        · intro x
          rw [hrec.2.2 x, addOnce_mem]
          simp only [matchIdsN, hm, if_true, List.mem_append, List.mem_singleton]
          tauto
      | none =>
        have hrec := attrPassList_fresh cb aname sels ch st (addOnce temp d.id)
          hw hs (fun i hi => hdisj i (by simp [elemIdsN, hi]))
        refine ⟨?_, ?_, ?_⟩
        · simp only [viewN]
          rw [hrec.1]
        · rw [hrec.2.1]
          simp [attrUnitsN, attrUnitsOfElem, hm, hg]
        · intro x
          rw [hrec.2.2 x, addOnce_mem]
          simp only [matchIdsN, hm, if_true, List.mem_append, List.mem_singleton]
          tauto
  | text i v => exact ⟨rfl, by simp [attrPassNode, attrUnitsN], by simp [attrPassNode, matchIdsN]⟩
  | comment i v => exact ⟨rfl, by simp [attrPassNode, attrUnitsN], by simp [attrPassNode, matchIdsN]⟩
  | cdata i v => exact ⟨rfl, by simp [attrPassNode, attrUnitsN], by simp [attrPassNode, matchIdsN]⟩
  | pi i v => exact ⟨rfl, by simp [attrPassNode, attrUnitsN], by simp [attrPassNode, matchIdsN]⟩
theorem attrPassList_fresh (cb : String → String) (aname : String)
    (sels : List Sel) (ns : List DomNode) (st : ScanSt) (temp : List Nat)
    (hw : watchedNames.contains aname = true) (hs : selOkL sels = true)
    (hdisj : ∀ i ∈ elemIdsL ns, i ∉ st.processed) :
    viewL (attrPassList cb aname sels ns (st, temp)).1 = viewL ns
    ∧ (attrPassList cb aname sels ns (st, temp)).2.1 =
        { st with log := st.log ++ attrUnitsL aname sels ns }
    ∧ (∀ x, x ∈ (attrPassList cb aname sels ns (st, temp)).2.2 ↔
        x ∈ temp ∨ x ∈ matchIdsL sels ns) := by
  cases ns with
  | nil => exact ⟨rfl, by simp [attrPassList, attrUnitsL], by simp [attrPassList, matchIdsL]⟩
  | cons n rest =>
    simp only [attrPassList]
    have h1 := attrPassNode_fresh cb aname sels n st temp hw hs
      (fun i hi => hdisj i (by simp [elemIdsL, hi]))
    have hmid : (attrPassNode cb aname sels n (st, temp)).2 =
        ((attrPassNode cb aname sels n (st, temp)).2.1,
         (attrPassNode cb aname sels n (st, temp)).2.2) := rfl
    have h2 := attrPassList_fresh cb aname sels rest
      (attrPassNode cb aname sels n (st, temp)).2.1
      (attrPassNode cb aname sels n (st, temp)).2.2 hw hs
      (by
        rw [h1.2.1]
        intro i hi
        exact hdisj i (by simp [elemIdsL, hi]))
    refine ⟨?_, ?_, ?_⟩
    · simp only [viewL]
      rw [h1.1]
      rw [hmid] at h2 ⊢
      rw [h2.1]
    · rw [hmid]
      rw [h2.2.1, h1.2.1]
      simp [attrUnitsL, List.append_assoc]
    · intro x
      rw [hmid]
      rw [h2.2.2 x, h1.2.2 x]
      simp only [matchIdsL, List.mem_append]
      tauto
end

theorem textUnitsL_congr (eff : ETFlags) (pc : ParentCtx) {xs ys : List DomNode}
    (h : viewL xs = viewL ys) : textUnitsL eff pc xs = textUnitsL eff pc ys := by
  rw [← textUnitsL_view eff pc xs, h, textUnitsL_view]

theorem elemIdsL_congr {xs ys : List DomNode} (h : viewL xs = viewL ys) :
    elemIdsL xs = elemIdsL ys := by
  rw [← elemIdsL_view xs, h, elemIdsL_view]

theorem allIdsL_congr {xs ys : List DomNode} (h : viewL xs = viewL ys) :
    allIdsL xs = allIdsL ys := by
  rw [← allIdsL_view xs, h, allIdsL_view]

theorem hostIdsL_congr {xs ys : List DomNode} (h : viewL xs = viewL ys) :
    hostIdsL xs = hostIdsL ys := by
  rw [← hostIdsL_view xs, h, hostIdsL_view]

theorem shadowIdsL_congr {xs ys : List DomNode} (h : viewL xs = viewL ys) :
    shadowIdsL xs = shadowIdsL ys := by
  rw [← shadowIdsL_view xs, h, shadowIdsL_view]

theorem matchIdsL_congr (sels : List Sel) (hs : selOkL sels = true)
    {xs ys : List DomNode} (h : viewL xs = viewL ys) :
    matchIdsL sels xs = matchIdsL sels ys := by
  rw [← matchIdsL_view sels xs hs, h, matchIdsL_view sels ys hs]

theorem attrUnitsL_congr (a : String) (sels : List Sel) (hs : selOkL sels = true)
    {xs ys : List DomNode} (h : viewL xs = viewL ys) :
    attrUnitsL a sels xs = attrUnitsL a sels ys := by
  rw [← attrUnitsL_view a sels xs hs, h, attrUnitsL_view a sels ys hs]

theorem attrUnitsAll_congr (pairs : List (String × List Sel))
    (ht : tableOk pairs = true) {xs ys : List DomNode}
    (h : viewL xs = viewL ys) : attrUnitsAll pairs xs = attrUnitsAll pairs ys := by
  rw [← attrUnitsAll_view pairs xs ht, h, attrUnitsAll_view pairs ys ht]

theorem sweepUnitsL_congr (eff : ETFlags) {xs ys : List DomNode}
    (h : viewL xs = viewL ys) : sweepUnitsL eff xs = sweepUnitsL eff ys := by
  rw [← sweepUnitsL_view eff xs, h, sweepUnitsL_view]

/-- The whole attribute section is the identity on covered forests. -/
theorem attrPassAll_covered (cb : String → String)
    (pairs : List (String × List Sel)) (ns : List DomNode) (st : ScanSt)
    (temp : List Nat) (h : ∀ i ∈ elemIdsL ns, i ∈ st.processed) :
    attrPassAll cb pairs ns (st, temp) = (ns, (st, temp)) := by
  induction pairs with
  | nil => rfl
  | cons p rest ih =>
    obtain ⟨a, sels⟩ := p
    simp only [attrPassAll]
    rw [attrPassList_covered cb a sels ns st temp h]
    exact ih

/-- The whole attribute section over fresh elements: each table entry logs
    exactly its units of the original forest in table order; the processed
    set is untouched and the temporary set collects exactly the matching
    elements of the entries. -/
theorem attrPassAll_fresh (cb : String → String) :
    ∀ (pairs : List (String × List Sel)) (ns : List DomNode) (st : ScanSt)
      (temp : List Nat), tableOk pairs = true →
      (∀ i ∈ elemIdsL ns, i ∉ st.processed) →
      viewL (attrPassAll cb pairs ns (st, temp)).1 = viewL ns
      ∧ (attrPassAll cb pairs ns (st, temp)).2.1 =
          { st with log := st.log ++ attrUnitsAll pairs ns }
      ∧ (∀ x, x ∈ (attrPassAll cb pairs ns (st, temp)).2.2 ↔
          x ∈ temp ∨ ∃ p ∈ pairs, x ∈ matchIdsL p.2 ns) := by
  intro pairs
  induction pairs with
  | nil =>
    intro ns st temp ht hdisj
    refine ⟨rfl, by simp [attrPassAll, attrUnitsAll], ?_⟩
    intro x
    simp [attrPassAll]
  | cons p rest ih =>
    intro ns st temp ht hdisj
    obtain ⟨a, sels⟩ := p
    have htok : (watchedNames.contains a && selOkL sels) = true := by
      simp only [tableOk, List.all_eq_true] at ht
      exact ht (a, sels) (by simp)
    simp only [Bool.and_eq_true] at htok
    have htr : tableOk rest = true := by
      simp only [tableOk, List.all_eq_true] at ht ⊢
      intro q hq
      exact ht q (by simp [hq])
    simp only [attrPassAll]
    have h1 := attrPassList_fresh cb a sels ns st temp htok.1 htok.2 hdisj
    have hmid : (attrPassList cb a sels ns (st, temp)).2 =
        ((attrPassList cb a sels ns (st, temp)).2.1,
         (attrPassList cb a sels ns (st, temp)).2.2) := rfl
    rw [hmid]
    have h2 := ih (attrPassList cb a sels ns (st, temp)).1
      (attrPassList cb a sels ns (st, temp)).2.1
      (attrPassList cb a sels ns (st, temp)).2.2 htr
      (by
        rw [h1.2.1]
        intro i hi
        rw [elemIdsL_congr h1.1] at hi
        exact hdisj i hi)
    refine ⟨?_, ?_, ?_⟩
    · rw [h2.1, h1.1]
    · rw [h2.2.1, h1.2.1]
      simp only [attrUnitsAll]
      rw [attrUnitsAll_congr rest htr h1.1]
      simp [List.append_assoc]
    · intro x
      rw [h2.2.2 x, h1.2.2 x]
      constructor
      · rintro ((hx | hx) | ⟨q, hq, hx⟩)
        · exact Or.inl hx
        · exact Or.inr ⟨(a, sels), by simp, hx⟩
        · rw [matchIdsL_congr q.2 ?_ h1.1] at hx
          · exact Or.inr ⟨q, by simp [hq], hx⟩
          · simp only [tableOk, List.all_eq_true] at htr
            have := htr q hq
            simp only [Bool.and_eq_true] at this
            exact this.2
      · rintro (hx | ⟨q, hq, hx⟩)
        · exact Or.inl (Or.inl hx)
        · rcases List.mem_cons.mp hq with heq | hq'
          · subst heq
            exact Or.inl (Or.inr hx)
          · refine Or.inr ⟨q, hq', ?_⟩
            rw [matchIdsL_congr q.2 ?_ h1.1]
            · exact hx
            · simp only [tableOk, List.all_eq_true] at htr
              have := htr q hq'
              simp only [Bool.and_eq_true] at this
              exact this.2

theorem foldl_addOnce_mem (l : List Nat) (acc : List Nat) (x : Nat) :
    x ∈ l.foldl addOnce acc ↔ x ∈ acc ∨ x ∈ l := by
  induction l generalizing acc with
  | nil => simp
  | cons y ys ih =>
    simp only [List.foldl, ih, addOnce_mem, List.mem_cons]
    tauto

mutual
theorem matchIdsN_univ (n : DomNode) : matchIdsN [Sel.univ] n = elemIdsN n := by
  cases n with
  | element d ch sh =>
    simp [matchIdsN, elemIdsN, matchesAny, matchesSel, matchIdsL_univ ch]
  | text i v => rfl
  | comment i v => rfl
  | cdata i v => rfl
  | pi i v => rfl
theorem matchIdsL_univ (ns : List DomNode) : matchIdsL [Sel.univ] ns = elemIdsL ns := by
  cases ns with
  | nil => rfl
  | cons n rest =>
    simp only [matchIdsL, elemIdsL]
    rw [matchIdsN_univ n, matchIdsL_univ rest]
end

mutual
theorem matchIdsN_subset (sels : List Sel) (n : DomNode) :
    ∀ x ∈ matchIdsN sels n, x ∈ elemIdsN n := by
  cases n with
  | element d ch sh =>
    intro x hx
    simp only [matchIdsN, List.mem_append] at hx
    simp only [elemIdsN, List.mem_cons]
    rcases hx with hx | hx
    · left
      rcases hm : matchesAny d sels with _ | _ <;> rw [hm] at hx <;> simpa using hx
    · exact Or.inr (matchIdsL_subset sels ch x hx)
  | text i v => intro x hx; exact absurd hx (by simp [matchIdsN])
  | comment i v => intro x hx; exact absurd hx (by simp [matchIdsN])
  | cdata i v => intro x hx; exact absurd hx (by simp [matchIdsN])
  | pi i v => intro x hx; exact absurd hx (by simp [matchIdsN])
theorem matchIdsL_subset (sels : List Sel) (ns : List DomNode) :
    ∀ x ∈ matchIdsL sels ns, x ∈ elemIdsL ns := by
  cases ns with
  | nil => intro x hx; exact absurd hx (by simp [matchIdsL])
  | cons n rest =>
    intro x hx
    simp only [matchIdsL, List.mem_append] at hx
    simp only [elemIdsL, List.mem_append]
    rcases hx with hx | hx
    · exact Or.inl (matchIdsN_subset sels n x hx)
    · exact Or.inr (matchIdsL_subset sels rest x hx)
end

/-- The three sections are the identity on a covered forest: every valid text
    unit and every element id already processed, CSS section off. -/
theorem passesForest_covered (eff : ETFlags) (cb : String → String)
    (pc : ParentCtx) (ns : List DomNode) (st : ScanSt)
    (hC : eff.cssContent = false)
    (hcovT : ∀ i ∈ textUnitsL eff pc ns, i ∈ st.processed)
    (hcovE : ∀ i ∈ elemIdsL ns, i ∈ st.processed) :
    passesForest eff cb pc ns st = (ns, st) := by
  simp only [passesForest, textPassList_covered eff cb pc ns st hcovT, hC,
    Bool.false_eq_true, if_false]
  cases hA : eff.attributes with
  | true =>
    simp only [if_true, attrPassAll_covered cb WATCHED_ATTRIBUTES ns st [] hcovE]
    rfl
  | false =>
    simp only [Bool.false_eq_true, if_false]
    rfl

/-- The three sections on fresh units with the attribute section on and the
    CSS section off: the text walk logs and marks the valid text units, the
    attribute passes log the watched-attribute units in table order, and the
    merge puts every element id into the processed set. -/
theorem passesForest_fresh (eff : ETFlags) (cb : String → String)
    (pc : ParentCtx) (ns : List DomNode) (st : ScanSt)
    (hA : eff.attributes = true) (hC : eff.cssContent = false)
    (hdT : ∀ i ∈ textUnitsL eff pc ns, i ∉ st.processed)
    (hdE : ∀ i ∈ elemIdsL ns, i ∉ st.processed)
    (hTE : ∀ i ∈ elemIdsL ns, i ∉ textUnitsL eff pc ns)
    (hndT : (textUnitsL eff pc ns).Nodup) :
    viewL (passesForest eff cb pc ns st).1 = viewL ns
    ∧ (passesForest eff cb pc ns st).2.log =
        st.log ++ ((textUnitsL eff pc ns).map .textUnit
          ++ attrUnitsAll WATCHED_ATTRIBUTES ns)
    ∧ (passesForest eff cb pc ns st).2.targets = st.targets
    ∧ (passesForest eff cb pc ns st).2.styles = st.styles
    ∧ (∀ i ∈ st.processed, i ∈ (passesForest eff cb pc ns st).2.processed)
    ∧ (∀ i ∈ textUnitsL eff pc ns, i ∈ (passesForest eff cb pc ns st).2.processed)
    ∧ (∀ i ∈ elemIdsL ns, i ∈ (passesForest eff cb pc ns st).2.processed)
    ∧ (∀ i ∈ (passesForest eff cb pc ns st).2.processed,
        i ∈ st.processed ∨ i ∈ textUnitsL eff pc ns ∨ i ∈ elemIdsL ns) := by
  have h1 := textPassList_fresh eff cb pc ns st hdT hndT
  have h2 := attrPassAll_fresh cb WATCHED_ATTRIBUTES
    (textPassList eff cb pc ns st).1 (textPassList eff cb pc ns st).2 []
    (by decide)
    (by
      rw [h1.2]
      intro i hi
      rw [elemIdsL_congr h1.1] at hi
      simp only [List.mem_append]
      push_neg
      exact ⟨hdE i hi, hTE i hi⟩)
  simp only [passesForest, hA, hC, if_true, Bool.false_eq_true, if_false]
  have hAw : attrUnitsAll WATCHED_ATTRIBUTES (textPassList eff cb pc ns st).1 =
      attrUnitsAll WATCHED_ATTRIBUTES ns := attrUnitsAll_congr _ (by decide) h1.1
  have hview : viewL (attrPassAll cb WATCHED_ATTRIBUTES
      (textPassList eff cb pc ns st).1 ((textPassList eff cb pc ns st).2, [])).1 =
      viewL ns := by rw [h2.1, h1.1]
  refine ⟨hview, ?_, ?_, ?_, ?_, ?_, ?_, ?_⟩
  · show (attrPassAll cb WATCHED_ATTRIBUTES (textPassList eff cb pc ns st).1
      ((textPassList eff cb pc ns st).2, [])).2.1.log = _
    rw [h2.2.1, h1.2]
    simp [List.append_assoc, hAw]
  · show (attrPassAll cb WATCHED_ATTRIBUTES (textPassList eff cb pc ns st).1
      ((textPassList eff cb pc ns st).2, [])).2.1.targets = _
    rw [h2.2.1, h1.2]
  · show (attrPassAll cb WATCHED_ATTRIBUTES (textPassList eff cb pc ns st).1
      ((textPassList eff cb pc ns st).2, [])).2.1.styles = _
    rw [h2.2.1, h1.2]
  · intro i hi
    simp only [foldl_addOnce_mem]
    left
    rw [h2.2.1, h1.2]
    simp [hi]
  · intro i hi
    simp only [foldl_addOnce_mem]
    left
    rw [h2.2.1, h1.2]
    simp [hi]
  · intro i hi
    simp only [foldl_addOnce_mem]
    right
    rw [h2.2.2 i]
    right
    refine ⟨("title", [Sel.univ]), by decide, ?_⟩
    rw [matchIdsL_congr [Sel.univ] (by decide) h1.1, matchIdsL_univ]
    exact hi
  · intro i hi
    simp only [foldl_addOnce_mem] at hi
    rcases hi with hi | hi
    · rw [h2.2.1, h1.2] at hi
      simp only [List.mem_append] at hi
      tauto
    · rw [h2.2.2 i] at hi
      rcases hi with hi | ⟨q, hq, hi⟩
      · exact absurd hi (by simp)
      · right; right
        have hsub := matchIdsL_subset q.2 (textPassList eff cb pc ns st).1 i hi
        rw [elemIdsL_congr h1.1] at hsub
        exact hsub

/-- The shadow-section walk contributes nothing on a forest all of whose
    hosts are already targeted: it returns the forest and state untouched. -/
theorem sweepCovered (eff : ETFlags) (cb : String → String) :
    ∀ (k : Nat) (ns : List DomNode) (st : ScanSt), listCount ns ≤ k →
      (∀ i ∈ hostIdsL ns, i ∈ st.targets) →
      (sweepListCore eff cb ns st).val = (ns, st) := by
  intro k
  induction k with
  | zero =>
    intro ns st hk hcov
    have hz : listCount ns = 0 := Nat.le_zero.mp hk
    rw [listCount_zero ns hz]
    simp [sweepListCore]
  | succ k ih =>
    intro ns st hk hcov
    cases ns with
    | nil => simp [sweepListCore]
    | cons n rest =>
      cases n with
      | element d ch sh =>
        have hcond : (d.shadowId.isSome && !(st.targets.contains d.id)) = false := by
          cases hsid : d.shadowId.isSome with
          | false => rfl
          | true =>
            have hmem : d.id ∈ st.targets := hcov d.id (by simp [hostIdsL, hostIdsN, hsid])
            have : st.targets.contains d.id = true := (contains_iff _ _).mpr hmem
            simp [hsid, this, hmem]
        simp only [sweepListCore, hcond, Bool.false_eq_true, if_false]
        have hsw := ih ch st
          (by simp only [listCount, nodeCount] at hk ⊢; omega)
          (fun i hi => hcov i (by simp [hostIdsL, hostIdsN, hi]))
        have hswr := ih rest st
          (by simp only [listCount, nodeCount] at hk ⊢; omega)
          (fun i hi => hcov i (by simp [hostIdsL, hi]))
        simp [hsw, hswr]
      | text i v =>
        simp only [sweepListCore]
        have hswr := ih rest st
          (by simp only [listCount, nodeCount] at hk ⊢; omega)
          (fun i hi => hcov i (by simp [hostIdsL, hostIdsN, hi]))
        rw [hswr]
      | comment i v =>
        simp only [sweepListCore]
        have hswr := ih rest st
          (by simp only [listCount, nodeCount] at hk ⊢; omega)
          (fun i hi => hcov i (by simp [hostIdsL, hostIdsN, hi]))
        rw [hswr]
      | cdata i v =>
        simp only [sweepListCore]
        have hswr := ih rest st
          (by simp only [listCount, nodeCount] at hk ⊢; omega)
          (fun i hi => hcov i (by simp [hostIdsL, hostIdsN, hi]))
        rw [hswr]
      | pi i v =>
        simp only [sweepListCore]
        have hswr := ih rest st
          (by simp only [listCount, nodeCount] at hk ⊢; omega)
          (fun i hi => hcov i (by simp [hostIdsL, hostIdsN, hi]))
        rw [hswr]

mutual
theorem textUnits_sub_allIds (eff : ETFlags) (pc : ParentCtx) (n : DomNode) :
    ∀ i ∈ textUnitsN eff pc n, i ∈ allIdsN n := by
  cases n with
  | text j v =>
    intro i hi
    simp only [textUnitsN] at hi
    split at hi
    · simp only [List.mem_singleton] at hi
      simp [allIdsN, hi]
    · exact absurd hi (by simp)
  | element d ch sh =>
    intro i hi
    simp only [textUnitsN] at hi
    have := textUnitsL_sub_allIds eff (ctxOf d) ch i hi
    simp [allIdsN, this]
  | comment j v => intro i hi; exact absurd hi (by simp [textUnitsN])
  | cdata j v => intro i hi; exact absurd hi (by simp [textUnitsN])
  | pi j v => intro i hi; exact absurd hi (by simp [textUnitsN])
theorem textUnitsL_sub_allIds (eff : ETFlags) (pc : ParentCtx) (ns : List DomNode) :
    ∀ i ∈ textUnitsL eff pc ns, i ∈ allIdsL ns := by
  cases ns with
  | nil => intro i hi; exact absurd hi (by simp [textUnitsL])
  | cons n rest =>
    intro i hi
    simp only [textUnitsL, List.mem_append] at hi
    simp only [allIdsL, List.mem_append]
    rcases hi with hi | hi
    · exact Or.inl (textUnits_sub_allIds eff pc n i hi)
    · exact Or.inr (textUnitsL_sub_allIds eff pc rest i hi)
end

mutual
theorem elemIds_sub_allIds (n : DomNode) : ∀ i ∈ elemIdsN n, i ∈ allIdsN n := by
  cases n with
  | element d ch sh =>
    intro i hi
    simp only [elemIdsN, List.mem_cons] at hi
    rcases hi with rfl | hi
    · simp [allIdsN]
    · have := elemIdsL_sub_allIds ch i hi
      simp [allIdsN, this]
  | text j v => intro i hi; exact absurd hi (by simp [elemIdsN])
  | comment j v => intro i hi; exact absurd hi (by simp [elemIdsN])
  | cdata j v => intro i hi; exact absurd hi (by simp [elemIdsN])
  | pi j v => intro i hi; exact absurd hi (by simp [elemIdsN])
theorem elemIdsL_sub_allIds (ns : List DomNode) : ∀ i ∈ elemIdsL ns, i ∈ allIdsL ns := by
  cases ns with
  | nil => intro i hi; exact absurd hi (by simp [elemIdsL])
  | cons n rest =>
    intro i hi
    simp only [elemIdsL, List.mem_append] at hi
    simp only [allIdsL, List.mem_append]
    rcases hi with hi | hi
    · exact Or.inl (elemIds_sub_allIds n i hi)
    · exact Or.inr (elemIdsL_sub_allIds rest i hi)
end

mutual
theorem shadowIds_sub_allIds (n : DomNode) : ∀ i ∈ shadowIdsN n, i ∈ allIdsN n := by
  cases n with
  | element d ch sh =>
    intro i hi
    simp only [shadowIdsN, List.mem_append] at hi
    rcases hi with hi | hi
    · cases hsid : d.shadowId with
      | none => rw [hsid] at hi; exact absurd hi (by simp)
      | some sid =>
        rw [hsid] at hi
        simp only [List.mem_cons] at hi
        simp only [allIdsN, hsid, List.mem_cons, List.mem_append, List.mem_singleton]
        tauto
    · have := shadowIdsL_sub_allIds ch i hi
      simp only [allIdsN, List.mem_cons, List.mem_append]
      tauto
  | text j v => intro i hi; exact absurd hi (by simp [shadowIdsN])
  | comment j v => intro i hi; exact absurd hi (by simp [shadowIdsN])
  | cdata j v => intro i hi; exact absurd hi (by simp [shadowIdsN])
  | pi j v => intro i hi; exact absurd hi (by simp [shadowIdsN])
theorem shadowIdsL_sub_allIds (ns : List DomNode) :
    ∀ i ∈ shadowIdsL ns, i ∈ allIdsL ns := by
  cases ns with
  | nil => intro i hi; exact absurd hi (by simp [shadowIdsL])
  | cons n rest =>
    intro i hi
    simp only [shadowIdsL, List.mem_append] at hi
    simp only [allIdsL, List.mem_append]
    rcases hi with hi | hi
    · exact Or.inl (shadowIds_sub_allIds n i hi)
    · exact Or.inr (shadowIdsL_sub_allIds rest i hi)
end

mutual
theorem hostIds_sub_elemIds (n : DomNode) : ∀ i ∈ hostIdsN n, i ∈ elemIdsN n := by
  cases n with
  | element d ch sh =>
    intro i hi
    simp only [hostIdsN, List.mem_append] at hi
    simp only [elemIdsN, List.mem_cons]
    rcases hi with hi | hi
    · split at hi
      · simp only [List.mem_singleton] at hi
        exact Or.inl hi
      · exact absurd hi (by simp)
    · exact Or.inr (hostIdsL_sub_elemIds ch i hi)
  | text j v => intro i hi; exact absurd hi (by simp [hostIdsN])
  | comment j v => intro i hi; exact absurd hi (by simp [hostIdsN])
  | cdata j v => intro i hi; exact absurd hi (by simp [hostIdsN])
  | pi j v => intro i hi; exact absurd hi (by simp [hostIdsN])
theorem hostIdsL_sub_elemIds (ns : List DomNode) :
    ∀ i ∈ hostIdsL ns, i ∈ elemIdsL ns := by
  cases ns with
  | nil => intro i hi; exact absurd hi (by simp [hostIdsL])
  | cons n rest =>
    intro i hi
    simp only [hostIdsL, List.mem_append] at hi
    simp only [elemIdsL, List.mem_append]
    rcases hi with hi | hi
    · exact Or.inl (hostIds_sub_elemIds n i hi)
    · exact Or.inr (hostIdsL_sub_elemIds rest i hi)
end

/-- Decomposition of the no-duplicate-ids invariant at one element. -/
theorem nodup_element {d : ElemData} {ch sh : List DomNode}
    (h : (allIdsN (.element d ch sh)).Nodup) :
    (allIdsL ch).Nodup ∧ (allIdsL sh).Nodup
    ∧ (∀ i ∈ allIdsL ch, i ∉ allIdsL sh)
    ∧ d.id ∉ allIdsL ch ∧ d.id ∉ allIdsL sh
    ∧ (∀ sid, d.shadowId = some sid →
        sid ∉ allIdsL ch ∧ sid ∉ allIdsL sh ∧ sid ≠ d.id) := by
  cases hsid : d.shadowId with
  | none =>
    rw [show allIdsN (.element d ch sh) =
      d.id :: ((match d.shadowId with | some s => [s] | none => []) ++
        (allIdsL ch ++ allIdsL sh)) from rfl, hsid] at h
    simp only [List.nil_append, List.nodup_cons, List.nodup_append,
      List.mem_append] at h
    push_neg at h
    refine ⟨h.2.1, h.2.2.1, fun i hi => h.2.2.2 hi, h.1.1, h.1.2, ?_⟩
    intro sid hs
    cases hs
  | some sid =>
    rw [show allIdsN (.element d ch sh) =
      d.id :: ((match d.shadowId with | some s => [s] | none => []) ++
        (allIdsL ch ++ allIdsL sh)) from rfl, hsid] at h
    simp only [List.cons_append, List.singleton_append, List.nodup_cons,
      List.nodup_append, List.mem_cons, List.mem_append] at h
    push_neg at h
    refine ⟨h.2.2.2.1.1, h.2.2.2.1.2.1, fun i hi => h.2.2.2.1.2.2 hi,
      h.1.2.2.1, h.1.2.2.2, ?_⟩
    intro sid2 hs
    cases hs
    exact ⟨h.2.1.2.1, h.2.1.2.2, fun hq => h.1.1 hq.symm⟩

/-- Decomposition of the no-duplicate-ids invariant at a cons. -/
theorem nodup_cons_forest {n : DomNode} {rest : List DomNode}
    (h : (allIdsL (n :: rest)).Nodup) :
    (allIdsN n).Nodup ∧ (allIdsL rest).Nodup
    ∧ (∀ i ∈ allIdsN n, i ∉ allIdsL rest) := by
  simp only [allIdsL, List.nodup_append] at h
  exact ⟨h.1, h.2.1, fun i hi => h.2.2 hi⟩

mutual
/-- Distinct ids give: distinct text units, and pairwise disjointness of the
    element, text and shadow id families. -/
theorem idFacts_node (eff : ETFlags) (n : DomNode) (h : (allIdsN n).Nodup) :
    (∀ pc, (textUnitsN eff pc n).Nodup)
    ∧ (∀ pc i, i ∈ elemIdsN n → i ∉ textUnitsN eff pc n)
    ∧ (∀ pc i, i ∈ shadowIdsN n → i ∉ textUnitsN eff pc n)
    ∧ (∀ i, i ∈ shadowIdsN n → i ∉ elemIdsN n) := by
  cases n with
  | element d ch sh =>
    have D := nodup_element h
    have IH := idFacts_list eff ch D.1
    refine ⟨fun pc => IH.1 (ctxOf d), ?_, ?_, ?_⟩
    · intro pc i hi
      simp only [elemIdsN, List.mem_cons] at hi
      simp only [textUnitsN]
      rcases hi with rfl | hi
      · intro hmem
        exact D.2.2.2.1 (textUnitsL_sub_allIds eff (ctxOf d) ch d.id hmem)
      · exact IH.2.1 (ctxOf d) i hi
    · intro pc i hi
      simp only [shadowIdsN, List.mem_append] at hi
      simp only [textUnitsN]
      intro hmem
      have hich : i ∈ allIdsL ch := textUnitsL_sub_allIds eff (ctxOf d) ch i hmem
      rcases hi with hi | hi
      · cases hsid : d.shadowId with
        | none => rw [hsid] at hi; exact absurd hi (by simp)
        | some sid =>
          rw [hsid] at hi
          simp only [List.mem_cons] at hi
          rcases hi with rfl | hi
          · exact (D.2.2.2.2.2 i hsid).1 hich
          · exact D.2.2.1 i hich hi
      · exact IH.2.2.1 (ctxOf d) i hi hmem
    · intro i hi
      simp only [shadowIdsN, List.mem_append] at hi
      simp only [elemIdsN, List.mem_cons]
      push_neg
      rcases hi with hi | hi
      · cases hsid : d.shadowId with
        | none => rw [hsid] at hi; exact absurd hi (by simp)
        | some sid =>
          rw [hsid] at hi
          simp only [List.mem_cons] at hi
          rcases hi with rfl | hi
          · exact ⟨(D.2.2.2.2.2 i hsid).2.2,
              fun hmem => (D.2.2.2.2.2 i hsid).1 (elemIdsL_sub_allIds ch i hmem)⟩
          · exact ⟨fun hq => D.2.2.2.2.1 (hq ▸ hi),
              fun hmem => D.2.2.1 i (elemIdsL_sub_allIds ch i hmem) hi⟩
      · refine ⟨?_, IH.2.2.2 i hi⟩
        intro hq
        exact D.2.2.2.1 (hq ▸ shadowIdsL_sub_allIds ch i hi)
  | text j v =>
    refine ⟨fun pc => ?_, fun pc i hi => ?_, fun pc i hi => ?_, fun i hi => ?_⟩
    · simp only [textUnitsN]
      split <;> simp
    · exact absurd hi (by simp [elemIdsN])
    · exact absurd hi (by simp [shadowIdsN])
    · exact absurd hi (by simp [shadowIdsN])
  | comment j v =>
    refine ⟨fun pc => by simp [textUnitsN], fun pc i hi => ?_, fun pc i hi => ?_,
      fun i hi => ?_⟩
    · exact absurd hi (by simp [elemIdsN])
    · exact absurd hi (by simp [shadowIdsN])
    · exact absurd hi (by simp [shadowIdsN])
  | cdata j v =>
    refine ⟨fun pc => by simp [textUnitsN], fun pc i hi => ?_, fun pc i hi => ?_,
      fun i hi => ?_⟩
    · exact absurd hi (by simp [elemIdsN])
    · exact absurd hi (by simp [shadowIdsN])
    · exact absurd hi (by simp [shadowIdsN])
  | pi j v =>
    refine ⟨fun pc => by simp [textUnitsN], fun pc i hi => ?_, fun pc i hi => ?_,
      fun i hi => ?_⟩
    · exact absurd hi (by simp [elemIdsN])
    · exact absurd hi (by simp [shadowIdsN])
    · exact absurd hi (by simp [shadowIdsN])
theorem idFacts_list (eff : ETFlags) (ns : List DomNode) (h : (allIdsL ns).Nodup) :
    (∀ pc, (textUnitsL eff pc ns).Nodup)
    ∧ (∀ pc i, i ∈ elemIdsL ns → i ∉ textUnitsL eff pc ns)
    ∧ (∀ pc i, i ∈ shadowIdsL ns → i ∉ textUnitsL eff pc ns)
    ∧ (∀ i, i ∈ shadowIdsL ns → i ∉ elemIdsL ns) := by
  cases ns with
  | nil =>
    refine ⟨fun pc => by simp [textUnitsL], fun pc i hi => ?_, fun pc i hi => ?_,
      fun i hi => ?_⟩
    · exact absurd hi (by simp [elemIdsL])
    · exact absurd hi (by simp [shadowIdsL])
    · exact absurd hi (by simp [shadowIdsL])
  | cons n rest =>
    have C := nodup_cons_forest h
    have IHn := idFacts_node eff n C.1
    have IHr := idFacts_list eff rest C.2.1
    refine ⟨fun pc => ?_, fun pc i hi => ?_, fun pc i hi => ?_, fun i hi => ?_⟩
    · simp only [textUnitsL]
      rw [List.nodup_append]
      refine ⟨IHn.1 pc, IHr.1 pc, fun x hx hx2 => ?_⟩
      exact C.2.2 x (textUnits_sub_allIds eff pc n x hx)
        (textUnitsL_sub_allIds eff pc rest x hx2)
    · simp only [elemIdsL, List.mem_append] at hi
      simp only [textUnitsL, List.mem_append]
      push_neg
      rcases hi with hi | hi
      · exact ⟨IHn.2.1 pc i hi, fun hmem => C.2.2 i
          (elemIds_sub_allIds n i hi) (textUnitsL_sub_allIds eff pc rest i hmem)⟩
      · exact ⟨fun hmem => C.2.2 i (textUnits_sub_allIds eff pc n i hmem)
          (elemIdsL_sub_allIds rest i hi), IHr.2.1 pc i hi⟩
    · simp only [shadowIdsL, List.mem_append] at hi
      simp only [textUnitsL, List.mem_append]
      push_neg
      rcases hi with hi | hi
      · exact ⟨IHn.2.2.1 pc i hi, fun hmem => C.2.2 i
          (shadowIds_sub_allIds n i hi) (textUnitsL_sub_allIds eff pc rest i hmem)⟩
      · exact ⟨fun hmem => C.2.2 i (textUnits_sub_allIds eff pc n i hmem)
          (shadowIdsL_sub_allIds rest i hi), IHr.2.2.1 pc i hi⟩
    · simp only [shadowIdsL, List.mem_append] at hi
      simp only [elemIdsL, List.mem_append]
      push_neg
      rcases hi with hi | hi
      · exact ⟨IHn.2.2.2 i hi, fun hmem => C.2.2 i
          (shadowIds_sub_allIds n i hi) (elemIdsL_sub_allIds rest i hmem)⟩
      · exact ⟨fun hmem => C.2.2 i (elemIds_sub_allIds n i hmem)
          (shadowIdsL_sub_allIds rest i hi), IHr.2.2.2 i hi⟩
end

theorem notMem_contains_false {l : List Nat} {x : Nat} (h : x ∉ l) :
    l.contains x = false := by
  cases hc : l.contains x with
  | false => rfl
  | true => exact absurd ((contains_iff _ _).mp hc) h

theorem stepOk_push (st : ScanSt) (x : Nat) :
    stepOk st { st with targets := st.targets ++ [x] } [] [x] := by
  refine ⟨by simp, rfl, fun i h => h, fun i h => Or.inl h,
    fun i h => by simp [h], ?_⟩
  intro i h
  rcases List.mem_append.mp h with h | h
  · exact Or.inl h
  · exact Or.inr h

theorem viewN_element_inv {x : DomNode} {d : ElemData} {ch sh : List DomNode}
    (h : viewN x = viewN (.element d ch sh)) :
    ∃ d2 ch2 sh2, x = .element d2 ch2 sh2 ∧ viewD d2 = viewD d
      ∧ viewL ch2 = viewL ch ∧ viewL sh2 = viewL sh := by
  cases x with
  | element d2 ch2 sh2 =>
    simp only [viewN, DomNode.element.injEq] at h
    exact ⟨d2, ch2, sh2, rfl, h.1, h.2.1, h.2.2⟩
  | text i v => exact absurd h (by simp [viewN])
  | comment i v => exact absurd h (by simp [viewN])
  | cdata i v => exact absurd h (by simp [viewN])
  | pi i v => exact absurd h (by simp [viewN])

theorem viewD_eq_id {a b : ElemData} (h : viewD a = viewD b) : a.id = b.id := by
  have := congrArg ElemData.id h
  simpa [viewD] using this

theorem viewD_eq_shadowId {a b : ElemData} (h : viewD a = viewD b) :
    a.shadowId = b.shadowId := by
  have := congrArg ElemData.shadowId h
  simpa [viewD] using this

theorem attrUnitsAll_nilF (pairs : List (String × List Sel)) :
    attrUnitsAll pairs [] = [] := by
  induction pairs with
  | nil => rfl
  | cons p rest ih =>
    obtain ⟨a, sels⟩ := p
    simp [attrUnitsAll, attrUnitsL, ih]

/-- Exact accounting of the shadow-aware scan: a covered-host processNodes
    logs exactly the host's shadow-walk units, the walk over a fresh
    forest logs exactly its sweep units, and a fresh shadow subtree logs
    exactly its own text, attribute and nested units — each with the
    processed and targets sets growing only by ids of the subtree walked. -/
theorem scanExact (eff : ETFlags) (cb : String → String)
    (hA : eff.attributes = true) (hS : eff.shadows = true)
    (hC : eff.cssContent = false) : ∀ (k : Nat),
    (∀ (d : ElemData) (ch sh : List DomNode) (sid : Nat) (st : ScanSt),
      nodeCount (.element d ch sh) ≤ k → d.shadowId = some sid →
      (∀ i ∈ textUnitsL eff (ctxOf d) ch, i ∈ st.processed) →
      (∀ i ∈ elemIdsL ch, i ∈ st.processed) →
      (∀ i ∈ allIdsL sh, i ∉ st.processed) →
      (∀ i ∈ shadowIdsL ch, i ∉ st.processed) →
      sid ∉ st.targets →
      (∀ i ∈ allIdsL ch, i ∉ st.targets) →
      (∀ i ∈ allIdsL sh, i ∉ st.targets) →
      (allIdsN (.element d ch sh)).Nodup →
      viewN (processNodesCore eff cb (.element d ch sh) st).val.1 =
        viewN (.element d ch sh)
      ∧ stepOk st (processNodesCore eff cb (.element d ch sh) st).val.2
          (sweepUnitsN eff (.element d ch sh)) (allIdsN (.element d ch sh))
      ∧ (∀ i ∈ hostIdsL ch,
          i ∈ (processNodesCore eff cb (.element d ch sh) st).val.2.targets))
    ∧ (∀ (pc : ParentCtx) (ns : List DomNode) (st : ScanSt),
      listCount ns ≤ k →
      (∀ i ∈ textUnitsL eff pc ns, i ∈ st.processed) →
      (∀ i ∈ elemIdsL ns, i ∈ st.processed) →
      (∀ i ∈ shadowIdsL ns, i ∉ st.processed) →
      (∀ i ∈ allIdsL ns, i ∉ st.targets) →
      (allIdsL ns).Nodup →
      viewL (sweepListCore eff cb ns st).val.1 = viewL ns
      ∧ stepOk st (sweepListCore eff cb ns st).val.2 (sweepUnitsL eff ns)
          (allIdsL ns)
      ∧ (∀ i ∈ hostIdsL ns, i ∈ (sweepListCore eff cb ns st).val.2.targets))
    ∧ (∀ (kids : List DomNode) (st : ScanSt),
      listCount kids ≤ k →
      (∀ i ∈ allIdsL kids, i ∉ st.processed) →
      (∀ i ∈ allIdsL kids, i ∉ st.targets) →
      (allIdsL kids).Nodup →
      viewL (processShadowCore eff cb kids st).val.1 = viewL kids
      ∧ stepOk st (processShadowCore eff cb kids st).val.2
          ((textUnitsL eff shadowCtx kids).map .textUnit
            ++ (attrUnitsAll WATCHED_ATTRIBUTES kids ++ sweepUnitsL eff kids))
          (allIdsL kids)) := by
  intro k
  induction k with
  | zero =>
    refine ⟨?_, ?_, ?_⟩
    · intro d ch sh sid st hle
      exact absurd hle (by have := nodeCount_pos (.element d ch sh); omega)
    · intro pc ns st hle hcovT hcovE hfr htg hnd
      have hns : ns = [] := listCount_zero ns (Nat.le_zero.mp hle)
      subst hns
      refine ⟨by simp [sweepListCore], ?_, by simp [hostIdsL]⟩
      have : (sweepListCore eff cb [] st).val.2 = st := by simp [sweepListCore]
      rw [this]
      simpa [sweepUnitsL] using stepOk_refl st (allIdsL [])
    · intro kids st hle hfr htg hnd
      have hk : kids = [] := listCount_zero kids (Nat.le_zero.mp hle)
      subst hk
      have hpf : passesForest eff cb shadowCtx [] st = ([], st) :=
        passesForest_covered eff cb shadowCtx [] st hC
          (by intro i hi; exact absurd hi (by simp [textUnitsL]))
          (by intro i hi; exact absurd hi (by simp [elemIdsL]))
      have hval : (processShadowCore eff cb [] st).val = ([], st) := by
        simp only [processShadowCore, hS, if_true, hpf]
        rw [hpf]
        simp [sweepListCore]
      refine ⟨by rw [hval], ?_⟩
      rw [hval]
      simpa [textUnitsL, attrUnitsAll_nilF, sweepUnitsL] using
        stepOk_refl st (allIdsL [])
  | succ k ih =>
    obtain ⟨ihA, ihC, ihB⟩ := ih
    have hPN : ∀ (d : ElemData) (ch sh : List DomNode) (sid : Nat) (st : ScanSt),
        nodeCount (.element d ch sh) ≤ k + 1 → d.shadowId = some sid →
        (∀ i ∈ textUnitsL eff (ctxOf d) ch, i ∈ st.processed) →
        (∀ i ∈ elemIdsL ch, i ∈ st.processed) →
        (∀ i ∈ allIdsL sh, i ∉ st.processed) →
        (∀ i ∈ shadowIdsL ch, i ∉ st.processed) →
        sid ∉ st.targets →
        (∀ i ∈ allIdsL ch, i ∉ st.targets) →
        (∀ i ∈ allIdsL sh, i ∉ st.targets) →
        (allIdsN (.element d ch sh)).Nodup →
        viewN (processNodesCore eff cb (.element d ch sh) st).val.1 =
          viewN (.element d ch sh)
        ∧ stepOk st (processNodesCore eff cb (.element d ch sh) st).val.2
            (sweepUnitsN eff (.element d ch sh)) (allIdsN (.element d ch sh))
        ∧ (∀ i ∈ hostIdsL ch,
            i ∈ (processNodesCore eff cb (.element d ch sh) st).val.2.targets) := by
      intro d ch sh sid st hle hsid hcovT hcovE hfrSh hfrChSh hTgtSid hTgtCh hTgtSh hnd
      have D := nodup_element hnd
      have hsidD := D.2.2.2.2.2 sid hsid
      have hcnt : 1 + listCount ch + listCount sh ≤ k + 1 := by
        simpa [nodeCount] using hle
      have hpf : passesForest eff cb (ctxOf d) ch st = (ch, st) :=
        passesForest_covered eff cb (ctxOf d) ch st hC hcovT hcovE
      have hcs : st.targets.contains sid = false := notMem_contains_false hTgtSid
      have hval : (processNodesCore eff cb (.element d ch sh) st).val =
          (.element d
            (sweepListCore eff cb ch
              (processShadowCore eff cb sh
                { st with targets := st.targets ++ [sid] }).val.2).val.1
            (processShadowCore eff cb sh
              { st with targets := st.targets ++ [sid] }).val.1,
           (sweepListCore eff cb ch
              (processShadowCore eff cb sh
                { st with targets := st.targets ++ [sid] }).val.2).val.2) := by
        simp only [processNodesCore, hS, if_true, hsid, hpf, hcs,
          Bool.false_eq_true, if_false]
        rw [hpf]
      have hB1 := ihB sh { st with targets := st.targets ++ [sid] }
        (by omega) hfrSh
        (by
          intro i hi
          simp only [List.mem_append, List.mem_singleton]
          push_neg
          exact ⟨hTgtSh i hi, fun hq => hsidD.2.1 (hq ▸ hi)⟩)
        D.2.1
      obtain ⟨hB1v, hB1log, hB1sty, hB1pm, hB1pu, hB1tm, hB1tu⟩ := hB1
      have hC1 := ihC (ctxOf d) ch
        (processShadowCore eff cb sh
          { st with targets := st.targets ++ [sid] }).val.2
        (by omega)
        (fun i hi => hB1pm i (hcovT i hi))
        (fun i hi => hB1pm i (hcovE i hi))
        (by
          intro i hi hmem
          rcases hB1pu i hmem with hin | hin
          · exact hfrChSh i hi hin
          · exact D.2.2.1 i (shadowIdsL_sub_allIds ch i hi) hin)
        (by
          intro i hi hmem
          rcases hB1tu i hmem with hin | hin
          · rcases List.mem_append.mp hin with hin | hin
            · exact hTgtCh i hi hin
            · rw [List.mem_singleton] at hin
              exact hsidD.1 (hin ▸ hi)
          · exact D.2.2.1 i hi hin)
        D.1
      refine ⟨?_, ?_, ?_⟩
      · rw [show (processNodesCore eff cb (.element d ch sh) st).val.1 =
          (.element d
            (sweepListCore eff cb ch
              (processShadowCore eff cb sh
                { st with targets := st.targets ++ [sid] }).val.2).val.1
            (processShadowCore eff cb sh
              { st with targets := st.targets ++ [sid] }).val.1 : DomNode)
          from by rw [hval]]
        simp only [viewN]
        rw [hC1.1, hB1v]
      · rw [show (processNodesCore eff cb (.element d ch sh) st).val.2 =
          (sweepListCore eff cb ch
            (processShadowCore eff cb sh
              { st with targets := st.targets ++ [sid] }).val.2).val.2
          from by rw [hval]]
        have hstep := stepOk_trans (stepOk_trans (stepOk_push st sid)
          ⟨hB1log, hB1sty, hB1pm, hB1pu, hB1tm, hB1tu⟩) hC1.2.1
        have hunits : ([] ++ ((textUnitsL eff shadowCtx sh).map RewriteUnit.textUnit
            ++ (attrUnitsAll WATCHED_ATTRIBUTES sh ++ sweepUnitsL eff sh)))
            ++ sweepUnitsL eff ch = sweepUnitsN eff (.element d ch sh) := by
          simp [sweepUnitsN, hsid, List.append_assoc]
        refine stepOk_bound (hunits ▸ hstep) ?_
        intro i hi
        simp only [List.mem_append, List.mem_singleton] at hi
        simp only [allIdsN, hsid, List.mem_cons, List.mem_append,
          List.mem_singleton]
        tauto
      · intro i hi
        rw [show (processNodesCore eff cb (.element d ch sh) st).val.2 =
          (sweepListCore eff cb ch
            (processShadowCore eff cb sh
              { st with targets := st.targets ++ [sid] }).val.2).val.2
          from by rw [hval]]
        exact hC1.2.2 i hi
    have hSW : ∀ (pc : ParentCtx) (ns : List DomNode) (st : ScanSt),
        listCount ns ≤ k + 1 →
        (∀ i ∈ textUnitsL eff pc ns, i ∈ st.processed) →
        (∀ i ∈ elemIdsL ns, i ∈ st.processed) →
        (∀ i ∈ shadowIdsL ns, i ∉ st.processed) →
        (∀ i ∈ allIdsL ns, i ∉ st.targets) →
        (allIdsL ns).Nodup →
        viewL (sweepListCore eff cb ns st).val.1 = viewL ns
        ∧ stepOk st (sweepListCore eff cb ns st).val.2 (sweepUnitsL eff ns)
            (allIdsL ns)
        ∧ (∀ i ∈ hostIdsL ns, i ∈ (sweepListCore eff cb ns st).val.2.targets) := by
      intro pc ns st hle hcovT hcovE hfr htg hnd
      cases ns with
      | nil =>
        refine ⟨by simp [sweepListCore], ?_, by simp [hostIdsL]⟩
        have : (sweepListCore eff cb [] st).val.2 = st := by simp [sweepListCore]
        rw [this]
        simpa [sweepUnitsL] using stepOk_refl st (allIdsL [])
      | cons n rest =>
        have C := nodup_cons_forest hnd
        have hrest : listCount rest ≤ k := by
          have := nodeCount_pos n
          simp only [listCount] at hle
          omega
        cases n with
        | element d ch sh =>
          have D := nodup_element C.1
          have hcnt : 1 + listCount ch + listCount sh + listCount rest ≤ k + 1 := by
            simpa [listCount, nodeCount] using hle
          have hcovTch : ∀ i ∈ textUnitsL eff (ctxOf d) ch, i ∈ st.processed := by
            intro i hi
            exact hcovT i (by simp [textUnitsL, textUnitsN, hi])
          have hcovEch : ∀ i ∈ elemIdsL ch, i ∈ st.processed := by
            intro i hi
            exact hcovE i (by simp [elemIdsL, elemIdsN, hi])
          have htgN : ∀ i ∈ allIdsN (.element d ch sh), i ∉ st.targets := by
            intro i hi
            exact htg i (by simp [allIdsL, hi])
          cases hsidIs : d.shadowId with
          | some sid =>
            have hdm : d.id ∉ st.targets := htgN d.id (by simp [allIdsN])
            have hdid : st.targets.contains d.id = false := notMem_contains_false hdm
            have hcond : (d.shadowId.isSome && !(st.targets.contains d.id)) = true := by
              simp [hsidIs, hdid, hdm]
            have hAq := hPN d ch sh sid { st with targets := st.targets ++ [d.id] }
              (by simp only [nodeCount]; omega) hsidIs hcovTch hcovEch
              (by
                intro i hi
                exact hfr i (by simp [shadowIdsL, shadowIdsN, hsidIs, hi]))
              (by
                intro i hi
                exact hfr i (by simp [shadowIdsL, shadowIdsN, hi]))
              (by
                intro hmem
                rcases List.mem_append.mp hmem with hin | hin
                · exact htgN sid (by simp [allIdsN, hsidIs]) hin
                · rw [List.mem_singleton] at hin
                  exact (D.2.2.2.2.2 sid hsidIs).2.2 hin)
              (by
                intro i hi
                intro hmem
                rcases List.mem_append.mp hmem with hin | hin
                · exact htgN i (by simp [allIdsN, hi]) hin
                · rw [List.mem_singleton] at hin
                  exact D.2.2.2.1 (hin ▸ hi))
              (by
                intro i hi
                intro hmem
                rcases List.mem_append.mp hmem with hin | hin
                · exact htgN i (by simp [allIdsN, hi]) hin
                · rw [List.mem_singleton] at hin
                  exact D.2.2.2.2.1 (hin ▸ hi))
              C.1
            obtain ⟨hqv, hqstep, hqhost⟩ := hAq
            obtain ⟨d2, ch2, sh2, hq1, hqd, hqch, hqsh⟩ := viewN_element_inv hqv
            have hsw : (sweepListCore eff cb ch2
                (processNodesCore eff cb (.element d ch sh)
                  { st with targets := st.targets ++ [d.id] }).val.2).val =
                (ch2, (processNodesCore eff cb (.element d ch sh)
                  { st with targets := st.targets ++ [d.id] }).val.2) := by
              apply sweepCovered eff cb (listCount ch2)
              · exact Nat.le_refl _
              · intro i hi
                rw [hostIdsL_congr hqch] at hi
                exact hqhost i hi
            simp only [sweepListCore, hcond, if_true]
            split
            · rename_i d2 ch2 sh2 heq
              rw [heq] at hqv
              simp only [viewN, DomNode.element.injEq] at hqv
              obtain ⟨hqd, hqch, hqsh⟩ := hqv
              have hsw := sweepCovered eff cb (listCount ch2) ch2
                (processNodesCore eff cb (.element d ch sh)
                  { st with targets := st.targets ++ [d.id] }).val.2
                (Nat.le_refl _)
                (by
                  intro i hi
                  rw [hostIdsL_congr hqch] at hi
                  exact hqhost i hi)
              have hCrest := ihC pc rest
                (processNodesCore eff cb (.element d ch sh)
                  { st with targets := st.targets ++ [d.id] }).val.2
                hrest
                (fun i hi => hqstep.procMono i (hcovT i (by simp [textUnitsL, hi])))
                (fun i hi => hqstep.procMono i (hcovE i (by simp [elemIdsL, hi])))
                (by
                  intro i hi hmem
                  rcases hqstep.procBound i hmem with hin | hin
                  · exact hfr i (by simp [shadowIdsL, hi]) hin
                  · exact C.2.2 i hin (shadowIdsL_sub_allIds rest i hi))
                (by
                  intro i hi hmem
                  rcases hqstep.tgtBound i hmem with hin | hin
                  · rcases List.mem_append.mp hin with hin2 | hin2
                    · exact htg i (by simp [allIdsL, hi]) hin2
                    · rw [List.mem_singleton] at hin2
                      exact C.2.2 d.id (by simp [allIdsN]) (hin2 ▸ hi)
                  · exact C.2.2 i hin hi)
                C.2.1
              simp only [hsw]
              refine ⟨?_, ?_, ?_⟩
              · simp only [viewL, viewN]
                rw [hCrest.1, hqd, hqch, hqsh]
              · have hstep := stepOk_trans (stepOk_trans (stepOk_push st d.id)
                  hqstep) hCrest.2.1
                have hunits : ([] ++ sweepUnitsN eff (.element d ch sh))
                    ++ sweepUnitsL eff rest =
                    sweepUnitsL eff (.element d ch sh :: rest) := by
                  simp [sweepUnitsL]
                refine stepOk_bound (hunits ▸ hstep) ?_
                intro i hi
                simp only [List.mem_append, List.mem_singleton] at hi
                simp only [allIdsL, List.mem_append]
                rcases hi with (hi | hi) | hi
                · exact Or.inl (by simp [allIdsN, hi])
                · exact Or.inl hi
                · exact Or.inr hi
              · intro i hi
                simp only [hostIdsL, hostIdsN, hsidIs, Option.isSome_some,
                  if_true, List.mem_append, List.mem_singleton] at hi
                rcases hi with (hi | hi) | hi
                · subst hi
                  exact hCrest.2.1.tgtMono d.id (hqstep.tgtMono d.id (by simp))
                · exact hCrest.2.1.tgtMono i (hqhost i hi)
                · exact hCrest.2.2 i hi
            · rename_i hno
              exfalso
              cases hq1 : (processNodesCore eff cb (.element d ch sh)
                  { st with targets := st.targets ++ [d.id] }).val.1 with
              | element d2 ch2 sh2 => exact hno d2 ch2 sh2 hq1
              | text j v => rw [hq1] at hqv; exact absurd hqv (by simp [viewN])
              | comment j v => rw [hq1] at hqv; exact absurd hqv (by simp [viewN])
              | cdata j v => rw [hq1] at hqv; exact absurd hqv (by simp [viewN])
              | pi j v => rw [hq1] at hqv; exact absurd hqv (by simp [viewN])
          | none =>
            have hcond : (d.shadowId.isSome && !(st.targets.contains d.id)) = false := by
              simp [hsidIs]
            have hCch := ihC (ctxOf d) ch st
              (by omega)
              hcovTch hcovEch
              (fun i hi hmem => hfr i (by simp [shadowIdsL, shadowIdsN, hsidIs, hi]) hmem)
              (fun i hi hmem => htgN i (by simp [allIdsN, hi]) hmem)
              D.1
            have hCrest := ihC pc rest (sweepListCore eff cb ch st).val.2 hrest
              (fun i hi => hCch.2.1.procMono i (hcovT i (by simp [textUnitsL, hi])))
              (fun i hi => hCch.2.1.procMono i (hcovE i (by simp [elemIdsL, hi])))
              (by
                intro i hi hmem
                rcases hCch.2.1.procBound i hmem with hin | hin
                · exact hfr i (by simp [shadowIdsL, hi]) hin
                · exact C.2.2 i (by simp [allIdsN, hin]) (shadowIdsL_sub_allIds rest i hi))
              (by
                intro i hi hmem
                rcases hCch.2.1.tgtBound i hmem with hin | hin
                · exact htg i (by simp [allIdsL, hi]) hin
                · exact C.2.2 i (by simp [allIdsN, hin]) hi)
              C.2.1
            simp only [sweepListCore, hcond, Bool.false_eq_true, if_false]
            refine ⟨?_, ?_, ?_⟩
            · simp only [viewL, viewN]
              rw [hCch.1, hCrest.1]
            · have hstep := stepOk_trans hCch.2.1 hCrest.2.1
              have hunits : sweepUnitsL eff ch ++ sweepUnitsL eff rest =
                  sweepUnitsL eff (.element d ch sh :: rest) := by
                simp [sweepUnitsL, sweepUnitsN, hsidIs]
              refine stepOk_bound (hunits ▸ hstep) ?_
              intro i hi
              simp only [allIdsL, List.mem_append]
              rcases List.mem_append.mp hi with hin | hin
              · exact Or.inl (by simp [allIdsN, hin])
              · exact Or.inr hin
            · intro i hi
              simp only [hostIdsL, hostIdsN, hsidIs, Option.isSome_none,
                Bool.false_eq_true, if_false, List.nil_append, List.mem_append] at hi
              rcases hi with hin | hin
              · exact hCrest.2.1.tgtMono i (hCch.2.2 i hin)
              · exact hCrest.2.2 i hin
        | text j v =>
          have hCrest := ihC pc rest st hrest
            (fun i hi => hcovT i (by simp [textUnitsL, hi]))
            (fun i hi => hcovE i (by simp [elemIdsL, hi]))
            (fun i hi hmem => hfr i (by simp [shadowIdsL, hi]) hmem)
            (fun i hi hmem => htg i (by simp [allIdsL, hi]) hmem)
            C.2.1
          simp only [sweepListCore]
          refine ⟨?_, ?_, ?_⟩
          · simp only [viewL, viewN]
            rw [hCrest.1]
          · have hunits : sweepUnitsL eff rest =
                sweepUnitsL eff (DomNode.text j v :: rest) := by
              simp [sweepUnitsL, sweepUnitsN]
            refine stepOk_bound (hunits ▸ hCrest.2.1) ?_
            intro i hi
            simp [allIdsL, hi]
          · intro i hi
            simp only [hostIdsL, hostIdsN, List.nil_append] at hi
            exact hCrest.2.2 i hi
        | comment j v =>
          have hCrest := ihC pc rest st hrest
            (fun i hi => hcovT i (by simp [textUnitsL, hi]))
            (fun i hi => hcovE i (by simp [elemIdsL, hi]))
            (fun i hi hmem => hfr i (by simp [shadowIdsL, hi]) hmem)
            (fun i hi hmem => htg i (by simp [allIdsL, hi]) hmem)
            C.2.1
          simp only [sweepListCore]
          refine ⟨?_, ?_, ?_⟩
          · simp only [viewL, viewN]
            rw [hCrest.1]
          · have hunits : sweepUnitsL eff rest =
                sweepUnitsL eff (DomNode.comment j v :: rest) := by
              simp [sweepUnitsL, sweepUnitsN]
            refine stepOk_bound (hunits ▸ hCrest.2.1) ?_
            intro i hi
            simp [allIdsL, hi]
          · intro i hi
            simp only [hostIdsL, hostIdsN, List.nil_append] at hi
            exact hCrest.2.2 i hi
        | cdata j v =>
          have hCrest := ihC pc rest st hrest
            (fun i hi => hcovT i (by simp [textUnitsL, hi]))
            (fun i hi => hcovE i (by simp [elemIdsL, hi]))
            (fun i hi hmem => hfr i (by simp [shadowIdsL, hi]) hmem)
            (fun i hi hmem => htg i (by simp [allIdsL, hi]) hmem)
            C.2.1
          simp only [sweepListCore]
          refine ⟨?_, ?_, ?_⟩
          · simp only [viewL, viewN]
            rw [hCrest.1]
          · have hunits : sweepUnitsL eff rest =
                sweepUnitsL eff (DomNode.cdata j v :: rest) := by
              simp [sweepUnitsL, sweepUnitsN]
            refine stepOk_bound (hunits ▸ hCrest.2.1) ?_
            intro i hi
            simp [allIdsL, hi]
          · intro i hi
            simp only [hostIdsL, hostIdsN, List.nil_append] at hi
            exact hCrest.2.2 i hi
        | pi j v =>
          have hCrest := ihC pc rest st hrest
            (fun i hi => hcovT i (by simp [textUnitsL, hi]))
            (fun i hi => hcovE i (by simp [elemIdsL, hi]))
            (fun i hi hmem => hfr i (by simp [shadowIdsL, hi]) hmem)
            (fun i hi hmem => htg i (by simp [allIdsL, hi]) hmem)
            C.2.1
          simp only [sweepListCore]
          refine ⟨?_, ?_, ?_⟩
          · simp only [viewL, viewN]
            rw [hCrest.1]
          · have hunits : sweepUnitsL eff rest =
                sweepUnitsL eff (DomNode.pi j v :: rest) := by
              simp [sweepUnitsL, sweepUnitsN]
            refine stepOk_bound (hunits ▸ hCrest.2.1) ?_
            intro i hi
            simp [allIdsL, hi]
          · intro i hi
            simp only [hostIdsL, hostIdsN, List.nil_append] at hi
            exact hCrest.2.2 i hi
    have hPS : ∀ (kids : List DomNode) (st : ScanSt),
        listCount kids ≤ k + 1 →
        (∀ i ∈ allIdsL kids, i ∉ st.processed) →
        (∀ i ∈ allIdsL kids, i ∉ st.targets) →
        (allIdsL kids).Nodup →
        viewL (processShadowCore eff cb kids st).val.1 = viewL kids
        ∧ stepOk st (processShadowCore eff cb kids st).val.2
            ((textUnitsL eff shadowCtx kids).map .textUnit
              ++ (attrUnitsAll WATCHED_ATTRIBUTES kids ++ sweepUnitsL eff kids))
            (allIdsL kids) := by
      intro kids st hle hfr htg hnd
      have hIF := idFacts_list eff kids hnd
      have hpf := passesForest_fresh eff cb shadowCtx kids st hA hC
        (fun i hi hmem => hfr i (textUnitsL_sub_allIds eff shadowCtx kids i hi) hmem)
        (fun i hi hmem => hfr i (elemIdsL_sub_allIds kids i hi) hmem)
        (fun i hi => hIF.2.1 shadowCtx i hi)
        (hIF.1 shadowCtx)
      obtain ⟨hpfv, hpflog, hpftg, hpfsty, hpfm, hpfT, hpfE, hpfU⟩ := hpf
      have hCsw := hSW shadowCtx (passesForest eff cb shadowCtx kids st).1
        (passesForest eff cb shadowCtx kids st).2
        (by rw [passesForest_count]; omega)
        (by
          intro i hi
          rw [textUnitsL_congr eff shadowCtx hpfv] at hi
          exact hpfT i hi)
        (by
          intro i hi
          rw [elemIdsL_congr hpfv] at hi
          exact hpfE i hi)
        (by
          intro i hi hmem
          rw [shadowIdsL_congr hpfv] at hi
          rcases hpfU i hmem with hin | hin | hin
          · exact hfr i (shadowIdsL_sub_allIds kids i hi) hin
          · exact hIF.2.2.1 shadowCtx i hi hin
          · exact hIF.2.2.2 i hi hin)
        (by
          intro i hi hmem
          rw [allIdsL_congr hpfv] at hi
          rw [hpftg] at hmem
          exact htg i hi hmem)
        (by rw [allIdsL_congr hpfv]; exact hnd)
      simp only [processShadowCore, hS, if_true]
      refine ⟨?_, ?_⟩
      · rw [hCsw.1, hpfv]
      · have hstep1 : stepOk st (passesForest eff cb shadowCtx kids st).2
            ((textUnitsL eff shadowCtx kids).map .textUnit
              ++ attrUnitsAll WATCHED_ATTRIBUTES kids) (allIdsL kids) := by
          refine ⟨hpflog, hpfsty, hpfm, ?_, ?_, ?_⟩
          · intro i hi
            rcases hpfU i hi with hin | hin | hin
            · exact Or.inl hin
            · exact Or.inr (textUnitsL_sub_allIds eff shadowCtx kids i hin)
            · exact Or.inr (elemIdsL_sub_allIds kids i hin)
          · intro i hi
            rw [hpftg]
            exact hi
          · intro i hi
            rw [hpftg] at hi
            exact Or.inl hi
        have hstep := stepOk_trans hstep1 hCsw.2.1
        have hbound : allIdsL (passesForest eff cb shadowCtx kids st).1 =
            allIdsL kids := allIdsL_congr hpfv
        have hunits : ((textUnitsL eff shadowCtx kids).map RewriteUnit.textUnit
              ++ attrUnitsAll WATCHED_ATTRIBUTES kids)
            ++ sweepUnitsL eff (passesForest eff cb shadowCtx kids st).1 =
            (textUnitsL eff shadowCtx kids).map RewriteUnit.textUnit
              ++ (attrUnitsAll WATCHED_ATTRIBUTES kids ++ sweepUnitsL eff kids) := by
          rw [sweepUnitsL_congr eff hpfv]
          simp [List.append_assoc]
        refine stepOk_bound (hunits ▸ hbound ▸ hstep) ?_
        intro i hi
        rcases List.mem_append.mp hi with hin | hin
        · exact hin
        · exact hin
    exact ⟨hPN, hSW, hPS⟩

/-- Fixture: a root element that itself carries a watched attribute
    (an INPUT with a placeholder) and has no descendants. -/
def c5CRoot : DomNode := .element (mkElem 0 "INPUT" [("placeholder", "x")] none) [] []

/-- C5 counterexample: the root-inclusive reading of the claim counts the
    root's own watched attribute as a reachable rewritable unit, but a cold
    scan over that root invokes the transform zero times: the attribute pass
    enumerates strict descendants only, so the root's own watched attribute
    is never visited. -/
theorem c5_counterexample :
    specScanUnits defaultFlags c5CRoot = [.attrUnit 0 "placeholder"]
    ∧ (processNodes defaultFlags (fun s => String.append s "!")
        c5CRoot coldSt).2.log = [] := by
  refine ⟨rfl, ?_⟩
  show (processNodes defaultFlags (fun s => String.append s "!")
    (.element (mkElem 0 "INPUT" [("placeholder", "x")] none) [] []) coldSt).2.log = []
  rw [processNodes_noShadowWalk defaultFlags (fun s => String.append s "!")
    _ _ _ coldSt rfl (by rfl)]
  rfl

/-- C5 amended: with attributes and shadows on and cssContent off, a cold
    scan over an element root whose reachable ids are pairwise distinct logs
    exactly the unit list scanUnitsRoot, in order: the valid text units of the
    root's subtree, then the watched-attribute units of the root's strict
    descendants (the root's own watched attributes excluded), then the root's
    own shadow subtree's units, then the units of the nested shadow subtrees
    found by the walk — each exactly once. -/
theorem c5_theorem (eff : ETFlags) (cb : String → String) (d : ElemData)
    (ch sh : List DomNode)
    (hA : eff.attributes = true) (hS : eff.shadows = true)
    (hC : eff.cssContent = false)
    (hnd : (allIdsN (.element d ch sh)).Nodup) :
    (processNodes eff cb (.element d ch sh) coldSt).2.log =
      scanUnitsRoot eff (.element d ch sh) := by
  have ND := nodup_element hnd
  have hIF := idFacts_list eff ch ND.1
  have hpf := passesForest_fresh eff cb (ctxOf d) ch coldSt hA hC
    (fun i _ hmem => absurd hmem (by simp [coldSt]))
    (fun i _ hmem => absurd hmem (by simp [coldSt]))
    (fun i hi => hIF.2.1 (ctxOf d) i hi)
    (hIF.1 (ctxOf d))
  obtain ⟨hpfv, hpflog, hpftg, hpfsty, hpfm, hpfT, hpfE, hpfU⟩ := hpf
  cases hsid : d.shadowId with
  | some sid =>
    obtain ⟨hsc1, hsc2, hsc3⟩ := ND.2.2.2.2.2 sid hsid
    have hct : ((passesForest eff cb (ctxOf d) ch coldSt).2.targets.contains sid)
        = false := by
      rw [hpftg]; rfl
    have hB := (scanExact eff cb hA hS hC (listCount sh)).2.2 sh
      { (passesForest eff cb (ctxOf d) ch coldSt).2 with
        targets := (passesForest eff cb (ctxOf d) ch coldSt).2.targets ++ [sid] }
      (Nat.le_refl _)
      (by
        intro i hi hmem
        rcases hpfU i hmem with h0 | h0 | h0
        · exact absurd h0 (by simp [coldSt])
        · exact ND.2.2.1 i (textUnitsL_sub_allIds eff (ctxOf d) ch i h0) hi
        · exact ND.2.2.1 i (elemIdsL_sub_allIds ch i h0) hi)
      (by
        intro i hi hmem
        rcases List.mem_append.mp hmem with h0 | h0
        · rw [hpftg] at h0
          exact absurd h0 (by simp [coldSt])
        · rw [List.mem_singleton] at h0
          exact hsc2 (h0 ▸ hi))
      ND.2.1
    have hCsw := (scanExact eff cb hA hS hC (listCount ch)).2.1 (ctxOf d)
      (passesForest eff cb (ctxOf d) ch coldSt).1
      (processShadowCore eff cb sh
        { (passesForest eff cb (ctxOf d) ch coldSt).2 with
          targets := (passesForest eff cb (ctxOf d) ch coldSt).2.targets
            ++ [sid] }).val.2
      (Nat.le_of_eq (passesForest_count eff cb (ctxOf d) ch coldSt))
      (by
        intro i hi
        rw [textUnitsL_congr eff (ctxOf d) hpfv] at hi
        exact hB.2.procMono i (hpfT i hi))
      (by
        intro i hi
        rw [elemIdsL_congr hpfv] at hi
        exact hB.2.procMono i (hpfE i hi))
      (by
        intro i hi hmem
        rw [shadowIdsL_congr hpfv] at hi
        rcases hB.2.procBound i hmem with h0 | h0
        · rcases hpfU i h0 with h1 | h1 | h1
          · exact absurd h1 (by simp [coldSt])
          · exact hIF.2.2.1 (ctxOf d) i hi h1
          · exact hIF.2.2.2 i hi h1
        · exact ND.2.2.1 i (shadowIdsL_sub_allIds ch i hi) h0)
      (by
        intro i hi hmem
        rw [allIdsL_congr hpfv] at hi
        rcases hB.2.tgtBound i hmem with h0 | h0
        · rcases List.mem_append.mp h0 with h1 | h1
          · rw [hpftg] at h1
            exact absurd h1 (by simp [coldSt])
          · rw [List.mem_singleton] at h1
            exact hsc1 (h1 ▸ hi)
        · exact ND.2.2.1 i hi h0)
      (by rw [allIdsL_congr hpfv]; exact ND.1)
    simp only [processNodes, processNodesCore, hS, if_true, hsid, hct,
      Bool.false_eq_true, if_false]
    rw [hCsw.2.1.logEq, hB.2.logEq]
    have hstl : ({ (passesForest eff cb (ctxOf d) ch coldSt).2 with
        targets := (passesForest eff cb (ctxOf d) ch coldSt).2.targets
          ++ [sid] } : ScanSt).log =
        (passesForest eff cb (ctxOf d) ch coldSt).2.log := rfl
    rw [hstl, hpflog, sweepUnitsL_congr eff hpfv]
    simp [coldSt, scanUnitsRoot, hsid, List.append_assoc]
  | none =>
    have hCsw := (scanExact eff cb hA hS hC (listCount ch)).2.1 (ctxOf d)
      (passesForest eff cb (ctxOf d) ch coldSt).1
      (passesForest eff cb (ctxOf d) ch coldSt).2
      (Nat.le_of_eq (passesForest_count eff cb (ctxOf d) ch coldSt))
      (by
        intro i hi
        rw [textUnitsL_congr eff (ctxOf d) hpfv] at hi
        exact hpfT i hi)
      (by
        intro i hi
        rw [elemIdsL_congr hpfv] at hi
        exact hpfE i hi)
      (by
        intro i hi hmem
        rw [shadowIdsL_congr hpfv] at hi
        rcases hpfU i hmem with h1 | h1 | h1
        · exact absurd h1 (by simp [coldSt])
        · exact hIF.2.2.1 (ctxOf d) i hi h1
        · exact hIF.2.2.2 i hi h1)
      (by
        intro i hi hmem
        rw [hpftg] at hmem
        exact absurd hmem (by simp [coldSt]))
      (by rw [allIdsL_congr hpfv]; exact ND.1)
    simp only [processNodes, processNodesCore, hS, if_true, hsid]
    rw [hCsw.2.1.logEq, hpflog, sweepUnitsL_congr eff hpfv]
    simp [coldSt, scanUnitsRoot, hsid, List.append_assoc]

/-- Fixture: a shadow host with a text child, an INPUT descendant carrying a
    placeholder, and a shadow subtree with its own text. -/
def c5Wd : ElemData := mkElem 0 "DIV" [] (some 9)

/-- Fixture: the light children of the c5 witness root. -/
def c5Wch : List DomNode :=
  [.text 1 "hello",
   .element (mkElem 2 "INPUT" [("placeholder", "p")] none) [] []]

/-- Fixture: the shadow children of the c5 witness root. -/
def c5Wsh : List DomNode := [.text 10 "inside"]

/-- Witness for c5_theorem: the fixture root has pairwise distinct ids, and
    its cold scan logs exactly its enumerated unit list. -/
theorem c5_witness :
    (allIdsN (.element c5Wd c5Wch c5Wsh)).Nodup
    ∧ (processNodes defaultFlags (fun s => String.append s "!")
        (.element c5Wd c5Wch c5Wsh) coldSt).2.log =
      scanUnitsRoot defaultFlags (.element c5Wd c5Wch c5Wsh) :=
  ⟨by decide, c5_theorem defaultFlags (fun s => String.append s "!")
    c5Wd c5Wch c5Wsh rfl rfl rfl (by decide)⟩


/-- The text-unit ids recorded in a rewrite log, in order. -/
def logTextIds : List RewriteUnit → List Nat
  | [] => []
  | .textUnit j :: us => j :: logTextIds us
  | _ :: us => logTextIds us

theorem logTextIds_append (l1 l2 : List RewriteUnit) :
    logTextIds (l1 ++ l2) = logTextIds l1 ++ logTextIds l2 := by
  induction l1 with
  | nil => rfl
  | cons u us ih => cases u <;> simp [logTextIds, ih]

/-- The per-batch text-dedup invariant: every text id already logged is in the
    processed set, and no text id is logged twice. -/
def textDedup (st : ScanSt) : Prop :=
  (∀ j ∈ logTextIds st.log, j ∈ st.processed) ∧ (logTextIds st.log).Nodup

theorem textDedup_textWrite {st : ScanSt} (i : Nat) (h : textDedup st)
    (hni : st.processed.contains i = false) :
    textDedup { st with processed := st.processed ++ [i],
                        log := st.log ++ [.textUnit i] } := by
  have hnm : i ∉ st.processed := by
    intro hm
    rw [(contains_iff _ _).mpr hm] at hni
    cases hni
  constructor
  · intro j hj
    rw [logTextIds_append] at hj
    rcases List.mem_append.mp hj with hj | hj
    · exact List.mem_append.mpr (Or.inl (h.1 j hj))
    · simp only [logTextIds] at hj
      rw [List.mem_singleton] at hj
      simp [hj]
  · rw [logTextIds_append]
    simp only [logTextIds]
    rw [List.nodup_append]
    refine ⟨h.2, List.nodup_singleton i, ?_⟩
    intro x hx hx2
    rw [List.mem_singleton] at hx2
    subst hx2
    exact hnm (h.1 x hx)

theorem textDedup_attrLog {st : ScanSt} (i : Nat) (a : String) (h : textDedup st) :
    textDedup { st with log := st.log ++ [.attrUnit i a] } := by
  have hl : logTextIds (st.log ++ [.attrUnit i a]) = logTextIds st.log := by
    simp [logTextIds_append, logTextIds]
  exact ⟨fun j hj => h.1 j (by rw [hl] at hj; exact hj), by rw [hl]; exact h.2⟩

theorem textDedup_of_eq {a b : ScanSt} (hp : b.processed = a.processed)
    (hl : logTextIds b.log = logTextIds a.log) (h : textDedup a) : textDedup b :=
  ⟨fun j hj => by rw [hp]; exact h.1 j (by rw [hl] at hj; exact hj),
   by rw [hl]; exact h.2⟩

theorem textDedup_procGrow {st : ScanSt} {p2 : List Nat} (h : textDedup st)
    (hsub : ∀ i ∈ st.processed, i ∈ p2) :
    textDedup { st with processed := p2 } :=
  ⟨fun j hj => hsub j (h.1 j hj), h.2⟩

mutual
theorem textPassNode_dedup (eff : ETFlags) (cb : String → String) (pc : ParentCtx)
    (n : DomNode) (st : ScanSt) (h : textDedup st) :
    textDedup (textPassNode eff cb pc n st).2 := by
  cases n with
  | text i v =>
    simp only [textPassNode]
    split
    · rename_i hcd
      simp only [Bool.and_eq_true, Bool.not_eq_true'] at hcd
      exact textDedup_textWrite i h hcd.2
    · exact h
  | element d ch sh =>
    simp only [textPassNode]
    exact textPassList_dedup eff cb (ctxOf d) ch st h
  | comment i v => exact h
  | cdata i v => exact h
  | pi i v => exact h
theorem textPassList_dedup (eff : ETFlags) (cb : String → String) (pc : ParentCtx)
    (ns : List DomNode) (st : ScanSt) (h : textDedup st) :
    textDedup (textPassList eff cb pc ns st).2 := by
  cases ns with
  | nil => exact h
  | cons n rest =>
    simp only [textPassList]
    exact textPassList_dedup eff cb pc rest _ (textPassNode_dedup eff cb pc n st h)
end

mutual
theorem attrPassNode_proc (cb : String → String) (aname : String) (sels : List Sel)
    (n : DomNode) (acc : ScanSt × List Nat) :
    (attrPassNode cb aname sels n acc).2.1.processed = acc.1.processed
    ∧ logTextIds (attrPassNode cb aname sels n acc).2.1.log =
        logTextIds acc.1.log := by
  cases n with
  | element d ch sh =>
    cases acc with
    | mk st temp =>
      simp only [attrPassNode]
      cases hcd : (matchesAny d sels && !(st.processed.contains d.id)) with
      | false =>
        simp only [hcd, Bool.false_eq_true, if_false]
        exact attrPassList_proc cb aname sels ch (st, temp)
      | true =>
        simp only [hcd, if_true]
        cases hga : getAttr d.attrs aname with
        | some v =>
          simp only [hga]
          have ih := attrPassList_proc cb aname sels ch
            ({ st with log := st.log ++ [.attrUnit d.id aname] }, addOnce temp d.id)
          refine ⟨ih.1, ?_⟩
          rw [ih.2]
          simp [logTextIds_append, logTextIds]
        | none =>
          simp only [hga]
          exact attrPassList_proc cb aname sels ch (st, addOnce temp d.id)
  | text i v => exact ⟨rfl, rfl⟩
  | comment i v => exact ⟨rfl, rfl⟩
  | cdata i v => exact ⟨rfl, rfl⟩
  | pi i v => exact ⟨rfl, rfl⟩
theorem attrPassList_proc (cb : String → String) (aname : String) (sels : List Sel)
    (ns : List DomNode) (acc : ScanSt × List Nat) :
    (attrPassList cb aname sels ns acc).2.1.processed = acc.1.processed
    ∧ logTextIds (attrPassList cb aname sels ns acc).2.1.log =
        logTextIds acc.1.log := by
  cases ns with
  | nil => exact ⟨rfl, rfl⟩
  | cons n rest =>
    simp only [attrPassList]
    have h1 := attrPassNode_proc cb aname sels n acc
    have h2 := attrPassList_proc cb aname sels rest (attrPassNode cb aname sels n acc).2
    exact ⟨h2.1.trans h1.1, h2.2.trans h1.2⟩
end

theorem attrPassAll_proc (cb : String → String) :
    ∀ (pairs : List (String × List Sel)) (ns : List DomNode) (acc : ScanSt × List Nat),
    (attrPassAll cb pairs ns acc).2.1.processed = acc.1.processed
    ∧ logTextIds (attrPassAll cb pairs ns acc).2.1.log = logTextIds acc.1.log
  | [], _, _ => ⟨rfl, rfl⟩
  | (a, sels) :: rest, ns, acc => by
    simp only [attrPassAll]
    have h1 := attrPassList_proc cb a sels ns acc
    have h2 := attrPassAll_proc cb rest (attrPassList cb a sels ns acc).1
      (attrPassList cb a sels ns acc).2
    exact ⟨h2.1.trans h1.1, h2.2.trans h1.2⟩

theorem passesForest_dedup (eff : ETFlags) (cb : String → String) (pc : ParentCtx)
    (ns : List DomNode) (st : ScanSt) (hC : eff.cssContent = false)
    (h : textDedup st) : textDedup (passesForest eff cb pc ns st).2 := by
  have h1 := textPassList_dedup eff cb pc ns st h
  simp only [passesForest, hC, Bool.false_eq_true, if_false]
  cases hA : eff.attributes with
  | true =>
    simp only [hA, if_true]
    have h2 := attrPassAll_proc cb WATCHED_ATTRIBUTES (textPassList eff cb pc ns st).1
      ((textPassList eff cb pc ns st).2, [])
    have hd2 : textDedup (attrPassAll cb WATCHED_ATTRIBUTES
        (textPassList eff cb pc ns st).1 ((textPassList eff cb pc ns st).2, [])).2.1 :=
      textDedup_of_eq h2.1 h2.2 h1
    exact textDedup_procGrow hd2 (fun i hi => (foldl_addOnce_mem _ _ _).mpr (Or.inl hi))
  | false =>
    simp only [hA, Bool.false_eq_true, if_false]
    exact textDedup_procGrow h1 (fun i hi => (foldl_addOnce_mem _ _ _).mpr (Or.inl hi))

/-- The scan trio preserves the per-batch text-dedup invariant: a text unit
    already in the processed set is never rewritten or logged again. -/
theorem scanDedup (eff : ETFlags) (cb : String → String)
    (hC : eff.cssContent = false) : ∀ (k : Nat),
    (∀ (root : DomNode) (st : ScanSt), nodeCount root ≤ k → textDedup st →
      textDedup (processNodesCore eff cb root st).val.2)
    ∧ (∀ (ns : List DomNode) (st : ScanSt), listCount ns ≤ k → textDedup st →
      textDedup (sweepListCore eff cb ns st).val.2)
    ∧ (∀ (kids : List DomNode) (st : ScanSt), listCount kids ≤ k → textDedup st →
      textDedup (processShadowCore eff cb kids st).val.2) := by
  intro k
  induction k with
  | zero =>
    refine ⟨?_, ?_, ?_⟩
    · intro root st hle h
      exact absurd hle (by have := nodeCount_pos root; omega)
    · intro ns st hle h
      have hns : ns = [] := listCount_zero ns (Nat.le_zero.mp hle)
      subst hns
      have hval : (sweepListCore eff cb [] st).val = ([], st) := by
        simp [sweepListCore]
      rw [hval]
      exact h
    · intro kids st hle h
      have hk : kids = [] := listCount_zero kids (Nat.le_zero.mp hle)
      subst hk
      have hpf : passesForest eff cb shadowCtx [] st = ([], st) :=
        passesForest_covered eff cb shadowCtx [] st hC
          (by intro i hi; exact absurd hi (by simp [textUnitsL]))
          (by intro i hi; exact absurd hi (by simp [elemIdsL]))
      cases hS : eff.shadows with
      | true =>
        have hval : (processShadowCore eff cb [] st).val = ([], st) := by
          simp only [processShadowCore, hS, if_true, hpf]
          rw [hpf]
          simp [sweepListCore]
        rw [hval]
        exact h
      | false =>
        have hval : (processShadowCore eff cb [] st).val = ([], st) := by
          simp only [processShadowCore, hS, Bool.false_eq_true, if_false, hpf]
        rw [hval]
        exact h
  | succ k ih =>
    obtain ⟨ihA, ihC, ihB⟩ := ih
    have hPN : ∀ (root : DomNode) (st : ScanSt), nodeCount root ≤ k + 1 →
        textDedup st → textDedup (processNodesCore eff cb root st).val.2 := by
      intro root st hle h
      cases root with
      | text i v =>
        have hval : (processNodesCore eff cb (.text i v) st).val = (.text i v, st) := by
          simp [processNodesCore]
        rw [hval]
        exact h
      | comment i v =>
        have hval : (processNodesCore eff cb (.comment i v) st).val =
            (.comment i v, st) := by
          simp [processNodesCore]
        rw [hval]
        exact h
      | cdata i v =>
        have hval : (processNodesCore eff cb (.cdata i v) st).val = (.cdata i v, st) := by
          simp [processNodesCore]
        rw [hval]
        exact h
      | pi i v =>
        have hval : (processNodesCore eff cb (.pi i v) st).val = (.pi i v, st) := by
          simp [processNodesCore]
        rw [hval]
        exact h
      | element d ch sh =>
        have hpr := passesForest_dedup eff cb (ctxOf d) ch st hC h
        have hcnt := passesForest_count eff cb (ctxOf d) ch st
        simp only [nodeCount] at hle
        cases hS : eff.shadows with
        | false =>
          simp only [processNodesCore, hS, Bool.false_eq_true, if_false]
          exact hpr
        | true =>
          simp only [processNodesCore, hS, if_true]
          cases hsid : d.shadowId with
          | some sid =>
            cases hcs : (passesForest eff cb (ctxOf d) ch st).2.targets.contains sid with
            | true =>
              simp only [hcs, if_true]
              exact ihC _ _ (by rw [hcnt]; omega) hpr
            | false =>
              simp only [hcs, Bool.false_eq_true, if_false]
              have hq := ihB sh
                { (passesForest eff cb (ctxOf d) ch st).2 with
                  targets := (passesForest eff cb (ctxOf d) ch st).2.targets ++ [sid] }
                (by omega) (textDedup_of_eq rfl rfl hpr)
              exact ihC _ _ (by rw [hcnt]; omega) hq
          | none =>
            exact ihC _ _ (by rw [hcnt]; omega) hpr
    have hSW : ∀ (ns : List DomNode) (st : ScanSt), listCount ns ≤ k + 1 →
        textDedup st → textDedup (sweepListCore eff cb ns st).val.2 := by
      intro ns st hle h
      match ns with
      | [] =>
        have hval : (sweepListCore eff cb [] st).val = ([], st) := by
          simp [sweepListCore]
        rw [hval]
        exact h
      | .element d ch sh :: rest =>
        simp only [listCount, nodeCount] at hle
        cases hcd : (d.shadowId.isSome && !(st.targets.contains d.id)) with
        | true =>
          simp only [sweepListCore, hcd, if_true]
          have hq := hPN (.element d ch sh)
            { st with targets := st.targets ++ [d.id] }
            (by simp only [nodeCount]; omega) (textDedup_of_eq rfl rfl h)
          split
          · rename_i d2 ch2 sh2 heq
            have hqc : nodeCount (processNodesCore eff cb (.element d ch sh)
                { st with targets := st.targets ++ [d.id] }).val.1 =
                nodeCount (.element d ch sh) :=
              (processNodesCore eff cb (.element d ch sh) _).property
            rw [heq] at hqc
            simp only [nodeCount] at hqc
            have h1 := ihC ch2 _ (by omega) hq
            exact ihC rest _ (by omega) h1
          · rename_i hno
            exact ihC rest _ (by omega) hq
        | false =>
          simp only [sweepListCore, hcd, Bool.false_eq_true, if_false]
          have h1 := ihC ch st (by omega) h
          exact ihC rest _ (by omega) h1
      | .text i v :: rest =>
        simp only [listCount, nodeCount] at hle
        simp only [sweepListCore]
        exact ihC rest st (by omega) h
      | .comment i v :: rest =>
        simp only [listCount, nodeCount] at hle
        simp only [sweepListCore]
        exact ihC rest st (by omega) h
      | .cdata i v :: rest =>
        simp only [listCount, nodeCount] at hle
        simp only [sweepListCore]
        exact ihC rest st (by omega) h
      | .pi i v :: rest =>
        simp only [listCount, nodeCount] at hle
        simp only [sweepListCore]
        exact ihC rest st (by omega) h
    have hPS : ∀ (kids : List DomNode) (st : ScanSt), listCount kids ≤ k + 1 →
        textDedup st → textDedup (processShadowCore eff cb kids st).val.2 := by
      intro kids st hle h
      have hpr := passesForest_dedup eff cb shadowCtx kids st hC h
      have hcnt := passesForest_count eff cb shadowCtx kids st
      cases hS : eff.shadows with
      | true =>
        simp only [processShadowCore, hS, if_true]
        exact hSW _ _ (by rw [hcnt]; omega) hpr
      | false =>
        simp only [processShadowCore, hS, Bool.false_eq_true, if_false]
        exact hpr
    exact ⟨hPN, hSW, hPS⟩

theorem processNodes_dedup (eff : ETFlags) (cb : String → String)
    (hC : eff.cssContent = false) (n : DomNode) (st : ScanSt) (h : textDedup st) :
    textDedup (processNodes eff cb n st).2 :=
  (scanDedup eff cb hC (nodeCount n)).1 n st (Nat.le_refl _) h

mutual
theorem applyAtNode_dedup (f : DomNode → ScanSt → DomNode × ScanSt)
    (hf : ∀ (m : DomNode) (s : ScanSt), textDedup s → textDedup (f m s).2)
    (n : DomNode) (i : Nat) (st : ScanSt) (h : textDedup st) :
    textDedup (applyAtNode f n i st).2.1 := by
  cases n with
  | element d ch sh =>
    simp only [applyAtNode]
    split
    · exact hf _ st h
    · cases hp : (applyAtList f ch i st).2.2 with
      | true =>
        simp only [hp, if_true]
        exact applyAtList_dedup f hf ch i st h
      | false =>
        simp only [hp, Bool.false_eq_true, if_false]
        cases hsd : d.shadowId.isSome with
        | true =>
          simp only [hsd, if_true]
          exact applyAtList_dedup f hf sh i st h
        | false =>
          simp only [hsd, Bool.false_eq_true, if_false]
          exact h
  | text j v =>
    simp only [applyAtNode]
    split
    · exact hf _ st h
    · exact h
  | comment j v =>
    simp only [applyAtNode]
    split
    · exact hf _ st h
    · exact h
  | cdata j v =>
    simp only [applyAtNode]
    split
    · exact hf _ st h
    · exact h
  | pi j v =>
    simp only [applyAtNode]
    split
    · exact hf _ st h
    · exact h
theorem applyAtList_dedup (f : DomNode → ScanSt → DomNode × ScanSt)
    (hf : ∀ (m : DomNode) (s : ScanSt), textDedup s → textDedup (f m s).2)
    (ns : List DomNode) (i : Nat) (st : ScanSt) (h : textDedup st) :
    textDedup (applyAtList f ns i st).2.1 := by
  cases ns with
  | nil => exact h
  | cons n rest =>
    simp only [applyAtList]
    cases hp : (applyAtNode f n i st).2.2 with
    | true =>
      simp only [hp, if_true]
      exact applyAtNode_dedup f hf n i st h
    | false =>
      simp only [hp, Bool.false_eq_true, if_false]
      exact applyAtList_dedup f hf rest i st h
end

theorem processAddedNode_dedup (eff : ETFlags) (cb : String → String)
    (hC : eff.cssContent = false) (acc : DomNode × ScanSt) (nid : Nat)
    (h : textDedup acc.2) : textDedup (processAddedNode eff cb acc nid).2 := by
  simp only [processAddedNode]
  cases hfd : findCtxNode none acc.1 nid with
  | none => simp only [hfd]; exact h
  | some pr =>
    cases pr with
    | mk pc nd =>
      cases nd with
      | text j v =>
        simp only [hfd]
        split
        · rename_i hcd
          simp only [Bool.and_eq_true, Bool.not_eq_true'] at hcd
          exact textDedup_textWrite j h hcd.2
        · exact h
      | comment j v => simp only [hfd]; exact h
      | cdata j v => simp only [hfd]; exact h
      | pi j v => simp only [hfd]; exact h
      | element d ch sh =>
        simp only [hfd]
        exact applyAtNode_dedup (processNodes eff cb)
          (fun m s hs => processNodes_dedup eff cb hC m s hs) acc.1 nid acc.2 h

theorem processAttrMutation_dedup (cb : String → String) (acc : DomNode × ScanSt)
    (m : Nat × String) (h : textDedup acc.2) :
    textDedup (processAttrMutation cb acc m).2 := by
  simp only [processAttrMutation]
  cases hed : elemDataAt acc.1 m.1 with
  | none => simp only [hed]; exact h
  | some d =>
    simp only [hed]
    cases hga : getAttr d.attrs m.2 with
    | some v =>
      simp only [hga]
      split
      · exact textDedup_attrLog m.1 m.2 h
      · exact h
    | none => simp only [hga]; exact h

theorem recordStep_dedup (eff : ETFlags) (cb : String → String)
    (hC : eff.cssContent = false) (acc : DomNode × ScanSt × List (Nat × String))
    (r : MutationRec) (h : textDedup acc.2.1) :
    textDedup (recordStep eff cb acc r).2.1 := by
  cases r with
  | childList added =>
    simp only [recordStep]
    have hfold : ∀ (l : List Nat) (a : DomNode × ScanSt), textDedup a.2 →
        textDedup (l.foldl (processAddedNode eff cb) a).2 := by
      intro l
      induction l with
      | nil => intro a ha; exact ha
      | cons x xs ih =>
        intro a ha
        exact ih _ (processAddedNode_dedup eff cb hC a x ha)
    exact hfold added (acc.1, acc.2.1) h
  | characterData tid o =>
    simp only [recordStep]
    cases hfd : findCtxNode none acc.1 tid with
    | none => simp only [hfd]; exact h
    | some pr =>
      cases pr with
      | mk pc nd =>
        cases nd with
        | text j v =>
          simp only [hfd]
          split
          · rename_i hcd
            simp only [Bool.and_eq_true, Bool.not_eq_true'] at hcd
            exact textDedup_textWrite j h hcd.2
          · exact h
        | comment j v => simp only [hfd]; exact h
        | cdata j v => simp only [hfd]; exact h
        | pi j v => simp only [hfd]; exact h
        | element d ch sh => simp only [hfd]; exact h
  | attributes tid aname =>
    simp only [recordStep]
    split
    · exact h
    · exact h

/-- Fixture: a body with a single valid text child. -/
def c1WBody : DomNode := .element (mkElem 0 "BODY" [] none) [.text 1 "w"] []

/-- C1 amended: per delivered batch, TEXT units obey the exactly-once
    guarantee — with the css section off and a batch-initial empty log, every
    text id the batch logs is in the processed set afterwards and no text id
    is logged twice, however duplicate or overlapping the records; the
    counterexample shows the guarantee does NOT extend to watched-attribute
    units, which the deferred attribute phase can transform repeatedly and
    whose elements it never marks visited. -/
theorem c1_theorem (eff : ETFlags) (cb : String → String) (recs : List MutationRec)
    (body : DomNode) (st0 : ScanSt) (hC : eff.cssContent = false)
    (hlog : st0.log = []) :
    (∀ j ∈ logTextIds (observerCallback eff cb recs body st0).2.log,
        j ∈ (observerCallback eff cb recs body st0).2.processed)
    ∧ (logTextIds (observerCallback eff cb recs body st0).2.log).Nodup := by
  have hl0 : ({ st0 with processed := ([] : List Nat) } : ScanSt).log = [] := by
    rw [show ({ st0 with processed := ([] : List Nat) } : ScanSt).log = st0.log
      from rfl, hlog]
  have h0 : textDedup { st0 with processed := [] } := by
    constructor
    · intro j hj
      rw [hl0] at hj
      exact absurd hj (by simp [logTextIds])
    · rw [hl0]
      simp [logTextIds]
  have h1 : ∀ (rs : List MutationRec) (a : DomNode × ScanSt × List (Nat × String)),
      textDedup a.2.1 → textDedup (rs.foldl (recordStep eff cb) a).2.1 := by
    intro rs
    induction rs with
    | nil => intro a ha; exact ha
    | cons r rest ih =>
      intro a ha
      exact ih _ (recordStep_dedup eff cb hC a r ha)
  have h2 : ∀ (ms : List (Nat × String)) (a : DomNode × ScanSt),
      textDedup a.2 → textDedup (ms.foldl (processAttrMutation cb) a).2 := by
    intro ms
    induction ms with
    | nil => intro a ha; exact ha
    | cons m rest ih =>
      intro a ha
      exact ih _ (processAttrMutation_dedup cb a m ha)
  have hfin : textDedup (observerCallback eff cb recs body st0).2 := by
    simp only [observerCallback]
    exact h2 _ _ (h1 recs (body, { st0 with processed := [] }, []) h0)
  exact ⟨hfin.1, hfin.2⟩

/-- Witness for c1_theorem: a batch with two duplicate characterData records
    for the same text unit satisfies the hypotheses, and the conclusion makes
    the logged text ids duplicate-free and covered by the processed set. -/
theorem c1_witness :
    defaultFlags.cssContent = false ∧ coldSt.log = []
    ∧ ((∀ j ∈ logTextIds (observerCallback defaultFlags
          (fun s => String.append s "!")
          [.characterData 1 none, .characterData 1 none] c1WBody coldSt).2.log,
        j ∈ (observerCallback defaultFlags (fun s => String.append s "!")
          [.characterData 1 none, .characterData 1 none] c1WBody coldSt).2.processed)
      ∧ (logTextIds (observerCallback defaultFlags (fun s => String.append s "!")
          [.characterData 1 none, .characterData 1 none] c1WBody coldSt).2.log).Nodup) :=
  ⟨rfl, rfl, c1_theorem defaultFlags (fun s => String.append s "!")
    [.characterData 1 none, .characterData 1 none] c1WBody coldSt rfl rfl⟩


/-- C4 amended: for every rewritable text unit visited by the scan engine or
    the batch processor, the transform result is written back unconditionally:
    nothing is compared against the old value and nothing suppresses the
    empty string, so a transform returning the exact empty string blanks the
    unit. -/
theorem c4_theorem (eff : ETFlags) (cb : String → String) (pc : ParentCtx)
    (i : Nat) (v : String) (st : ScanSt)
    (hok : validIn eff pc (.text i v) = true)
    (hfresh : st.processed.contains i = false) :
    (textPassNode eff cb pc (.text i v) st).1 = .text i (cb v)
    ∧ ∀ (body : DomNode) (tid : Nat) (st2 : ScanSt),
        findCtxNode none body tid = some (some pc, .text i v) →
        (observerCallback eff cb [.characterData tid none] body st2).1 =
          setTextAt body i (cb v) := by
  have hf2 : i ∉ st.processed := fun hm => by
    rw [(contains_iff _ _).mpr hm] at hfresh
    cases hfresh
  constructor
  · simp [textPassNode, hok, hfresh, hf2]
  · intro body tid st2 hfind
    rw [observerCallback_charData eff cb tid none body st2 pc i v hfind]
    simp [hok]

/-- Witness for c4_theorem: a valid fresh text unit under a BODY parent with
    the constant-empty transform is blanked on both paths. -/
theorem c4_witness :
    validIn defaultFlags ⟨"BODY", false, ""⟩ (.text 1 "hello") = true
    ∧ coldSt.processed.contains 1 = false
    ∧ ((textPassNode defaultFlags (fun _ => "") ⟨"BODY", false, ""⟩
          (.text 1 "hello") coldSt).1 = .text 1 ((fun _ => "") "hello")
      ∧ ∀ (body : DomNode) (tid : Nat) (st2 : ScanSt),
          findCtxNode none body tid =
              some (some ⟨"BODY", false, ""⟩, .text 1 "hello") →
          (observerCallback defaultFlags (fun _ => "")
              [.characterData tid none] body st2).1 =
            setTextAt body 1 "") :=
  ⟨rfl, rfl, c4_theorem defaultFlags (fun _ => "") ⟨"BODY", false, ""⟩ 1 "hello"
    coldSt rfl rfl⟩

/-- C8 amended: the cold scan's attribute pass writes the transformed value
    back whenever the matching unprocessed element carries the attribute — the
    empty-string value included — and collects the element even when the
    attribute is absent; the claimed non-empty condition exists only in the
    deferred batch attribute phase, where an empty current value suppresses
    the write. -/
theorem c8_theorem (cb : String → String) (aname : String) (sels : List Sel)
    (d : ElemData) (ch sh : List DomNode) (st : ScanSt) (temp : List Nat)
    (v : String)
    (hm : matchesAny d sels = true)
    (hfresh : st.processed.contains d.id = false)
    (hv : getAttr d.attrs aname = some v) :
    (attrPassNode cb aname sels (.element d ch sh) (st, temp)).1 =
      .element { d with attrs := setAttr d.attrs aname (cb v) }
        (attrPassList cb aname sels ch
          ({ st with log := st.log ++ [.attrUnit d.id aname] },
           addOnce temp d.id)).1 sh
    ∧ (∀ (body : DomNode) (i : Nat), elemDataAt body i = some d → v = "" →
        processAttrMutation cb (body, st) (i, aname) = (body, st)) := by
  have hf2 : d.id ∉ st.processed := fun hm => by
    rw [(contains_iff _ _).mpr hm] at hfresh
    cases hfresh
  constructor
  · simp [attrPassNode, hm, hfresh, hf2, hv]
  · intro body i hed hve
    subst hve
    simp only [processAttrMutation, hed, hv]
    simp

/-- Fixture: an input element whose placeholder is present but empty. -/
def c8Wd : ElemData := mkElem 2 "INPUT" [("placeholder", "")] none

/-- Fixture: a body holding the c8 witness input element. -/
def c8WBody : DomNode := .element (mkElem 0 "BODY" [] none) [.element c8Wd [] []] []

/-- Witness for c8_theorem: the matching input with an empty placeholder is
    written by the scan pass but left untouched by the batch attribute
    phase. -/
theorem c8_witness :
    matchesAny c8Wd (lookupTable "placeholder") = true
    ∧ coldSt.processed.contains c8Wd.id = false
    ∧ getAttr c8Wd.attrs "placeholder" = some ""
    ∧ ((attrPassNode (fun _ => "X") "placeholder" (lookupTable "placeholder")
          (.element c8Wd [] []) (coldSt, [])).1 =
        .element { c8Wd with attrs := setAttr c8Wd.attrs "placeholder" "X" }
          (attrPassList (fun _ => "X") "placeholder" (lookupTable "placeholder") []
            ({ coldSt with log := coldSt.log ++ [.attrUnit c8Wd.id "placeholder"] },
             addOnce [] c8Wd.id)).1 []
      ∧ (∀ (body : DomNode) (i : Nat), elemDataAt body i = some c8Wd → "" = "" →
          processAttrMutation (fun _ => "X") (body, coldSt) (i, "placeholder") =
            (body, coldSt))) :=
  ⟨rfl, rfl, rfl, c8_theorem (fun _ => "X") "placeholder" (lookupTable "placeholder")
    c8Wd [] [] coldSt [] "" rfl rfl rfl⟩


end TextObserver
